import Mathlib

/-!
# Static Huffman coder (Hw3): tree construction, code derivation, encoder, decoder

Shallow embedding of `src/Hw3/src/huffman_tree.c`, `encoder.c`, `decoder.c` and
`prob_table.c`. The models of `src/Hw1/src/threeMusketeers.c` and `src/Hw2/src/cityLink.c`
follow the definitions of this part, in the namespaces `Hw1` and `Hw2`.

Modelling conventions

* A value of type `NODE` is a C `NODE *`: either the `NULL` pointer (`NODE.null`) or a
  pointer to a struct with the four fields of `struct node`.
* `float` probabilities are modelled in exact arithmetic (`ℚ`).
* `char` values that are used as symbols or array indices are modelled by their numeric
  value (`Nat`); the text written by the encoder and read by the decoder is a `List Char`.
* `char` is taken to be signed and 8 bits wide, so a byte of value 255 read through
  `char c = fgetc(fp)` compares equal to `EOF`.
* A function returns `none` where the C program has no defined result (a `NULL`
  dereference, an access outside an allocated array, a read of memory that was never
  written). `malloc` and `fopen` are assumed to succeed.
* The floats of a block returned by `malloc` hold unspecified values until they are
  written; where the program reads them (`get_prob_table`), they are a parameter of the
  model.
* `int` counters are integers; incrementing one that holds `INT_MAX` has no defined result.
-/

namespace Hw3

/-- Alphabet size, `int const MAX_ASCII = 128;` in `prob_table.c`. -/
def MAX_ASCII : Nat := 128

/-- A `NODE *`: `null` is the `NULL` pointer, `mk` points to a `struct node`. -/
inductive NODE where
  | null : NODE
  | mk (character : Nat) (probability : ℚ) (left right : NODE) : NODE
deriving DecidableEq, Repr

/-- Field access `n->probability`; only ever applied to non-`NULL` pointers (see
`scanInv_step`), the value at `null` is a placeholder. -/
def NODE.probability : NODE → ℚ
  | .null => 0
  | .mk _ p _ _ => p

/-! ## `generate_huffman_tree` -/

/-- One iteration of the inner `for` loop of `generate_huffman_tree` at index `i`.
The state is `(lowestIndex1, lowestIndex2)`, with `none` for the sentinel `-1`. -/
def scan_step (character_trees : List NODE) (s : Option Nat × Option Nat) (i : Nat) :
    Option Nat × Option Nat :=
  if character_trees.getD i .null = .null then s
  else
    match s with
    | (none, lowestIndex2) => (some i, lowestIndex2)
    | (some lowestIndex1, none) =>
      if (character_trees.getD i .null).probability
          < (character_trees.getD lowestIndex1 .null).probability then
        (some i, some lowestIndex1)
      else (some lowestIndex1, some i)
    | (some lowestIndex1, some lowestIndex2) =>
      if (character_trees.getD i .null).probability
          < (character_trees.getD lowestIndex1 .null).probability then
        (some i, some lowestIndex1)
      else if (character_trees.getD i .null).probability
            < (character_trees.getD lowestIndex2 .null).probability ∧
          (character_trees.getD i .null).probability
            > (character_trees.getD lowestIndex1 .null).probability then
        (some lowestIndex1, some i)
      else (some lowestIndex1, some lowestIndex2)

/-- The inner loop `for (i = 0; i < MAX_ASCII; i++)`, started with both indices at `-1`. -/
def scan (character_trees : List NODE) : Option Nat × Option Nat :=
  (List.range MAX_ASCII).foldl (scan_step character_trees) (none, none)

/-- The body of the `while` loop: the scan followed by the merge. The result is the new
`character_trees` array and the new value of `huffman_binary_tree`. Indexing the array
with `-1` is undefined. -/
def merge_round (character_trees : List NODE) : Option (List NODE × NODE) :=
  match scan character_trees with
  | (some lowestIndex1, some lowestIndex2) =>
    let new_node := NODE.mk 0
      ((character_trees.getD lowestIndex1 .null).probability
        + (character_trees.getD lowestIndex2 .null).probability)
      (character_trees.getD lowestIndex1 .null) (character_trees.getD lowestIndex2 .null)
    let character_trees := (character_trees.set lowestIndex1 new_node).set lowestIndex2 .null
    some (character_trees, character_trees.getD lowestIndex1 .null)
  | _ => none

/-- The loop `while (trees_remaining > 1) { ...; trees_remaining--; }` on the state
`(character_trees, huffman_binary_tree)`. -/
def merge_loop : Nat → List NODE × NODE → Option (List NODE × NODE)
  | 0, st => some st
  | 1, st => some st
  | trees_remaining + 2, st =>
    match merge_round st.1 with
    | some st' => merge_loop (trees_remaining + 1) st'
    | none => none

/-- The initialisation loop: one single-node tree per character. -/
def init_character_trees (prob_table : List ℚ) : List NODE :=
  (List.range MAX_ASCII).map (fun i => NODE.mk i (prob_table.getD i 0) .null .null)

/-- The final state `(character_trees, huffman_binary_tree)` of `generate_huffman_tree`,
given the array filled by `get_prob_table`. Reading `prob_table[i]` for `i < MAX_ASCII`
needs at least `MAX_ASCII` entries. -/
def generate_huffman_tree_state (prob_table : List ℚ) : Option (List NODE × NODE) :=
  if prob_table.length < MAX_ASCII then none
  else merge_loop MAX_ASCII (init_character_trees prob_table, .null)

/-- The root returned by `generate_huffman_tree`. -/
def generate_huffman_tree (prob_table : List ℚ) : Option NODE :=
  (generate_huffman_tree_state prob_table).map (·.2)

/-! ## `generate_huffman_table` and `build_codes` -/

/-- The recursive traversal `build_codes`. The state is the table (an entry is `none`
until a string has been stored in it) and the contents of the shared buffer `code`
up to its terminator. The buffer holds `MAX_ASCII` characters, terminator included. -/
def build_codes : NODE → List (Option (List Char)) × List Char →
    Option (List (Option (List Char)) × List Char)
  | .null, _ => none
  | .mk character _ left right, (huffman_table, code) =>
    if left = .null ∧ right = .null then
      if character < MAX_ASCII then
        if code.length = 0 then none
        else some (huffman_table.set character (some code), code.dropLast)
      else none
    else
      let afterLeft :=
        if left ≠ .null then
          if code.length + 1 < MAX_ASCII then build_codes left (huffman_table, code ++ ['0'])
          else none
        else some (huffman_table, code)
      match afterLeft with
      | none => none
      | some (huffman_table, code) =>
        let afterRight :=
          if right ≠ .null then
            if code.length + 1 < MAX_ASCII then
              build_codes right (huffman_table, code ++ ['1'])
            else none
          else some (huffman_table, code)
        match afterRight with
        | none => none
        | some (huffman_table, code) =>
          some (huffman_table, if code.length ≠ 0 then code.dropLast else code)

/-- The table of `MAX_ASCII` code strings filled by `build_codes` from an empty buffer. -/
def generate_huffman_table (root : NODE) : Option (List (Option (List Char))) :=
  (build_codes root (List.replicate MAX_ASCII none, [])).map (·.1)

/-! ## `encode` -/

/-- The loop of `encode` over the bytes of the data file; the result is the text written
to the output file. A byte 255 ends the loop like `EOF`; bytes 128..254 index the table
with a negative number. -/
def encode (huffman_table : List (Option (List Char))) : List Nat → Option (List Char)
  | [] => some []
  | character :: rest =>
    if character = 255 then some []
    else if character < MAX_ASCII then
      match huffman_table.getD character none with
      | some code => (encode huffman_table rest).map (code ++ ·)
      | none => none
    else none

/-! ## `decode` -/

/-- One iteration of the loop of `decode` on the state `(current_node, output so far)`. -/
def decode_step (huffman_tree_root : NODE) (st : NODE × List Nat) (bit : Char) :
    Option (NODE × List Nat) :=
  match st.1 with
  | .null => none
  | .mk _ _ left right =>
    let current_node := if bit = '0' then left else if bit = '1' then right else st.1
    match current_node with
    | .null => none
    | .mk character _ l r =>
      if l = .null ∧ r = .null then some (huffman_tree_root, st.2 ++ [character])
      else some (current_node, st.2)

/-- The loop `while ((bit = fgetc(fp_read)) != EOF)` of `decode`. -/
def decode_loop (huffman_tree_root : NODE) :
    NODE × List Nat → List Char → Option (NODE × List Nat)
  | st, [] => some st
  | st, bit :: rest =>
    if bit.toNat = 255 then some st
    else
      match decode_step huffman_tree_root st bit with
      | none => none
      | some st' => decode_loop huffman_tree_root st' rest

/-- The bytes written by `decode`, starting with the cursor at the root. -/
def decode (huffman_tree_root : NODE) (encoded_file : List Char) : Option (List Nat) :=
  (decode_loop huffman_tree_root (huffman_tree_root, []) encoded_file).map (·.2)

/-! ## Specification-side notions -/

/-- A node is a leaf when both child pointers are `NULL`. -/
def NODE.isLeaf : NODE → Prop
  | .null => False
  | .mk _ _ l r => l = .null ∧ r = .null

/-- Full binary tree: every node has no children or both children. -/
def Full : NODE → Prop
  | .null => False
  | .mk _ _ l r => (l = .null ∧ r = .null) ∨ (Full l ∧ Full r)

/-- Every internal node carries the sum of the weights of its two children. -/
def WeightOK : NODE → Prop
  | .null => True
  | .mk _ p l r =>
    (l = .null ∧ r = .null) ∨ (p = l.probability + r.probability ∧ WeightOK l ∧ WeightOK r)

/-- Leaf symbols in left-to-right order. -/
def leaves : NODE → List Nat
  | .null => []
  | .mk c _ l r => if l = .null ∧ r = .null then [c] else leaves l ++ leaves r

/-- Number of leaves. -/
def numLeaves : NODE → Nat
  | .null => 0
  | .mk _ _ l r => if l = .null ∧ r = .null then 1 else numLeaves l + numLeaves r

/-- Number of internal nodes. -/
def numInternal : NODE → Nat
  | .null => 0
  | .mk _ _ l r => if l = .null ∧ r = .null then 0 else 1 + numInternal l + numInternal r

/-- Number of edges on the longest path from the node down to a leaf. -/
def height : NODE → Nat
  | .null => 0
  | .mk _ _ l r => if l = .null ∧ r = .null then 0 else 1 + max (height l) (height r)

/-- Root-to-leaf paths, as the specification words them: `'0'` for a left branch, `'1'`
for a right branch, one pair `(symbol, path)` per leaf. -/
def paths : NODE → List (Nat × List Char)
  | .null => []
  | .mk c _ l r =>
    if l = .null ∧ r = .null then [(c, [])]
    else (paths l).map (fun e => (e.1, '0' :: e.2)) ++ (paths r).map (fun e => (e.1, '1' :: e.2))

/-- Store each pair `(symbol, code)` of the list into the table, in list order. -/
def storeAll (huffman_table : List (Option (List Char))) (entries : List (Nat × List Char)) :
    List (Option (List Char)) :=
  entries.foldl (fun t e => t.set e.1 (some e.2)) huffman_table

/-- The string stored for a symbol in a code table (empty if the slot was never filled). -/
def codeOf (huffman_table : List (Option (List Char))) (s : Nat) : List Char :=
  (huffman_table.getD s none).getD []

/-- Concatenation, in input order, of the table entries of the input bytes. -/
def concatCodes (huffman_table : List (Option (List Char))) : List Nat → List Char
  | [] => []
  | b :: rest => codeOf huffman_table b ++ concatCodes huffman_table rest

/-- The property of trees that every merge keeps: full, with consistent weights. -/
def GoodTree (t : NODE) : Prop := Full t ∧ WeightOK t

/-- Number of non-`NULL` slots of the array of trees. -/
def activeCount (character_trees : List NODE) : Nat :=
  (character_trees.map (fun t => if t = NODE.null then 0 else 1)).sum

/-- All leaf symbols of all trees of the array, as a multiset. -/
def forestLeaves (character_trees : List NODE) : Multiset Nat :=
  (character_trees.map (fun t => (leaves t : Multiset Nat))).sum

/-- Expected code length `Σ p[s] * length(code[s])` of a code assignment. -/
def expectedLength (prob_table : List ℚ) (codes : List (List Char)) : ℚ :=
  ((List.range MAX_ASCII).map
    (fun s => prob_table.getD s 0 * ((codes.getD s []).length : ℚ))).sum

/-- No code of the assignment is an initial segment of the code of another symbol. -/
def PrefixFree (codes : List (List Char)) : Prop :=
  ∀ i, i < MAX_ASCII → ∀ j, j < MAX_ASCII → i ≠ j → ¬ (codes.getD i [] <+: codes.getD j [])

/-- Invariant of the `while` loop: the array has `MAX_ASCII` slots, `n` of them hold a
tree, every symbol below `MAX_ASCII` is a leaf of exactly one of these trees, and every
tree satisfies `P`. -/
def ForestInv (P : NODE → Prop) (ct : List NODE) (n : Nat) : Prop :=
  ct.length = MAX_ASCII ∧ activeCount ct = n ∧
  forestLeaves ct = Multiset.range MAX_ASCII ∧ ∀ t, t ∈ ct → t ≠ .null → P t

/-- The table with `p[0] = p[1] = 1/2` and `p[s] = 0` for every other symbol. -/
def two_symbol_table : List ℚ := [1/2, 1/2] ++ List.replicate 126 0

/-- The seven binary digits of `s`, most significant first. -/
def bits7 (s : Nat) : List Char :=
  (List.range 7).map (fun k => if (s / 2 ^ (6 - k)) % 2 = 1 then '1' else '0')

/-- The fixed-width code assignment: every symbol gets its seven binary digits. -/
def fixed_width_codes : List (List Char) := (List.range MAX_ASCII).map bits7

/-- The number written by a string of binary digits. -/
def unbits (cs : List Char) : Nat :=
  cs.foldl (fun acc c => 2 * acc + (if c = '1' then 1 else 0)) 0

/-! ### A single-pass evaluator

`scan` reads the array by index, which costs a list traversal per access. The functions
below compute the same results in one pass over the list, keeping the weights of the two
selected trees next to their indices; `generate_huffman_tree_cached_eq` proves that they
agree with `generate_huffman_tree`. They are used to evaluate the construction on concrete
tables. -/

/-- The scan step, with the weights at `lowestIndex1` and `lowestIndex2` cached. -/
def scan_step_cached (t : NODE) (i : Nat) (s : Option (Nat × ℚ) × Option (Nat × ℚ)) :
    Option (Nat × ℚ) × Option (Nat × ℚ) :=
  match t with
  | .null => s
  | .mk _ p _ _ =>
    match s with
    | (none, l2) => (some (i, p), l2)
    | (some (a, pa), none) =>
      if p < pa then (some (i, p), some (a, pa)) else (some (a, pa), some (i, p))
    | (some (a, pa), some (b, pb)) =>
      if p < pa then (some (i, p), some (a, pa))
      else if p < pb ∧ p > pa then (some (a, pa), some (i, p))
      else (some (a, pa), some (b, pb))

/-- The scan as one pass over the trees, `i` being the index of the head of the list. -/
def scan_cached : List NODE → Nat → Option (Nat × ℚ) × Option (Nat × ℚ) →
    Option (Nat × ℚ) × Option (Nat × ℚ)
  | [], _, s => s
  | t :: ts, i, s => scan_cached ts (i + 1) (scan_step_cached t i s)

/-- Forget the cached weights. -/
def dropCache (s : Option (Nat × ℚ) × Option (Nat × ℚ)) : Option Nat × Option Nat :=
  (s.1.map (fun x => x.1), s.2.map (fun x => x.1))

/-- The cached weights are the weights of the trees at the cached indices. -/
def CacheOK (ct : List NODE) (s : Option (Nat × ℚ) × Option (Nat × ℚ)) : Prop :=
  (∀ a pa, s.1 = some (a, pa) → pa = (ct.getD a .null).probability) ∧
  (∀ b pb, s.2 = some (b, pb) → pb = (ct.getD b .null).probability)

/-- One round, with the single-pass scan. -/
def merge_round_cached (character_trees : List NODE) : Option (List NODE × NODE) :=
  match scan_cached character_trees 0 (none, none) with
  | (some (lowestIndex1, p1), some (lowestIndex2, p2)) =>
    let new_node := NODE.mk 0 (p1 + p2)
      (character_trees.getD lowestIndex1 .null) (character_trees.getD lowestIndex2 .null)
    let character_trees := (character_trees.set lowestIndex1 new_node).set lowestIndex2 .null
    some (character_trees, character_trees.getD lowestIndex1 .null)
  | _ => none

/-- The `while` loop, with the single-pass scan. -/
def merge_loop_cached : Nat → List NODE × NODE → Option (List NODE × NODE)
  | 0, st => some st
  | 1, st => some st
  | trees_remaining + 2, st =>
    match merge_round_cached st.1 with
    | some st' => merge_loop_cached (trees_remaining + 1) st'
    | none => none

/-- The root computed with the single-pass scan. -/
def generate_huffman_tree_cached (prob_table : List ℚ) : Option NODE :=
  if prob_table.length < MAX_ASCII then none
  else (merge_loop_cached MAX_ASCII (init_character_trees prob_table, .null)).map (·.2)

/-- Expected code length of a derived table, given the result of the tree construction. -/
def expectedLengthOfTree (prob_table : List ℚ) (tree : Option NODE) : Option ℚ :=
  tree.bind (fun tree =>
    (generate_huffman_table tree).map (fun codes =>
      expectedLength prob_table (codes.map (fun c => c.getD []))))

/-- A full tree with three leaves `A`, `B`, `C` and an internal root. -/
def small_tree : NODE :=
  .mk 0 1 (.mk 65 (1 / 2) .null .null)
    (.mk 0 (1 / 2) (.mk 66 (1 / 4) .null .null) (.mk 67 (1 / 4) .null .null))

/-- What the scan has established after the indices below `k`. -/
def ScanInv (ct : List NODE) (k : Nat) : Option Nat × Option Nat → Prop
  | (none, none) => ∀ j, j < k → ct.getD j .null = .null
  | (some a, none) =>
    a < k ∧ ct.getD a .null ≠ .null ∧ ∀ j, j < k → j ≠ a → ct.getD j .null = .null
  | (some a, some b) =>
    a < k ∧ b < k ∧ a ≠ b ∧ ct.getD a .null ≠ .null ∧ ct.getD b .null ≠ .null ∧
    (ct.getD a .null).probability ≤ (ct.getD b .null).probability ∧
    ∀ j, j < k → ct.getD j .null ≠ .null →
      (ct.getD a .null).probability ≤ (ct.getD j .null).probability ∧
      ((ct.getD j .null).probability = (ct.getD a .null).probability → a ≤ j)
  | (none, some _) => False

/-- All nodes of a tree, the root first. -/
def subtrees : NODE → List NODE
  | .null => []
  | .mk c p l r => .mk c p l r :: (subtrees l ++ subtrees r)

/-- A position the decoder's cursor may rest at: a node of the tree that is not a leaf. -/
def CursorOK (root cur : NODE) : Prop := cur ∈ subtrees root ∧ ¬ cur.isLeaf

/-- The test `bit == '0' || bit == '1'` on an input character. -/
def isBit (c : Char) : Bool := c == '0' || c == '1'

/-- The first `k` rounds of the `while` loop of `generate_huffman_tree`. -/
def rounds : Nat → List NODE × NODE → Option (List NODE × NODE)
  | 0, st => some st
  | k + 1, st =>
    match merge_round st.1 with
    | some st' => rounds k st'
    | none => none

/-- The table whose 128 entries are all zero. -/
def zero_table : List ℚ := List.replicate 128 0

/-- The table whose 128 entries are all `1/128`. -/
def uniform_table : List ℚ := List.replicate 128 (1 / 128)

/-- The left-leaning chain over the symbols `0..k`, all weights zero: the right child of
every internal node is the leaf of the next symbol. -/
def zero_chain : Nat → NODE
  | 0 => .mk 0 0 .null .null
  | k + 1 => .mk 0 0 (zero_chain k) (.mk (k + 1) 0 .null .null)

/-- The chain over the symbols `0..k` with leaf weights `1/128`: above the node that joins
the leaves `0` and `1`, the left child of every internal node is the leaf of the next
symbol and the chain continues through the right child. -/
def uniform_chain : Nat → NODE
  | 0 => .mk 0 (1 / 128) .null .null
  | 1 => .mk 0 (2 / 128) (.mk 0 (1 / 128) .null .null) (.mk 1 (1 / 128) .null .null)
  | k + 2 => .mk 0 ((k + 3) / 128) (.mk (k + 2) (1 / 128) .null .null) (uniform_chain (k + 1))

/-- One of the two chains of the tree of `two_symbol_table`: the chain that ends in the
leaf of symbol `b` (`b` is 0 or 1) and takes the symbols `b + 2, b + 4, ...` as left
leaves. -/
def two_symbol_chain (b : Nat) : Nat → NODE
  | 0 => .mk 0 (1 / 2) (.mk (b + 2) 0 .null .null) (.mk b (1 / 2) .null .null)
  | j + 1 => .mk 0 (1 / 2) (.mk (b + 2 * j + 4) 0 .null .null) (two_symbol_chain b j)

/-- The tree built from `two_symbol_table`, in closed form. -/
def two_symbol_tree : NODE := .mk 0 1 (two_symbol_chain 0 62) (two_symbol_chain 1 62)

/-- Left-leaning chain: the right child of every internal node is a leaf, and the chain
continues through the left child down to a leaf. -/
def LeftChain : NODE → Prop
  | .null => False
  | .mk _ _ l r => (l = .null ∧ r = .null) ∨ (r.isLeaf ∧ LeftChain l)

/-- What the scan has established about `lowestIndex2` (`b`) after the indices below `k`,
`a` being `lowestIndex1`. Either the trees at `a` and `b` are the first two trees of the
array and have the same weight, or `b` is the lowest index among the trees of least weight
among those strictly heavier than the tree at `a`. -/
def ScanSecond (ct : List NODE) (k a b : Nat) : Prop :=
  ((ct.getD b .null).probability = (ct.getD a .null).probability ∧ a < b ∧
    ∀ j, j < b → j ≠ a → ct.getD j .null = .null) ∨
  ((ct.getD a .null).probability < (ct.getD b .null).probability ∧
    ∀ j, j < k → ct.getD j .null ≠ .null →
      (ct.getD a .null).probability < (ct.getD j .null).probability →
      (ct.getD b .null).probability ≤ (ct.getD j .null).probability ∧
      ((ct.getD j .null).probability = (ct.getD b .null).probability → b ≤ j))

/-- Maximally skewed tree: a full tree whose height is its number of leaves minus one, so
that every internal node has a leaf as a child. -/
def Caterpillar (t : NODE) : Prop := Full t ∧ height t + 1 = numLeaves t

/-- State of the array of trees when exactly one weight `x` is positive and all others are
zero: the first tree of the array (slot `c`) is the only one that may be more than a single
leaf, every weight is `0` or `x`, and only one tree weighs `x`. -/
def SkewPos (x : ℚ) (ct : List NODE) : Prop :=
  ∃ c, c < MAX_ASCII ∧ (∀ j, j < c → ct.getD j .null = .null) ∧
    Caterpillar (ct.getD c .null) ∧
    (∀ j, c < j → ct.getD j .null = .null ∨ (ct.getD j .null).isLeaf) ∧
    (∀ j, ct.getD j .null ≠ .null →
      (ct.getD j .null).probability = 0 ∨ (ct.getD j .null).probability = x) ∧
    (∀ i j, ct.getD i .null ≠ .null → ct.getD j .null ≠ .null →
      (ct.getD i .null).probability = x → (ct.getD j .null).probability = x → i = j)

/-- State of the array of trees when exactly one weight `x` is negative and all others are
zero: the tree in slot `k` weighs `x` and every other tree is a single leaf of weight 0. -/
def SkewNeg (x : ℚ) (k : Nat) (ct : List NODE) : Prop :=
  Caterpillar (ct.getD k .null) ∧ (ct.getD k .null).probability = x ∧
    ∀ j, j ≠ k → ct.getD j .null = .null ∨
      ((ct.getD j .null).isLeaf ∧ (ct.getD j .null).probability = 0)

/-- The table with `p[0] = 1` and `p[s] = 0` for every other symbol. -/
def single_symbol_table : List ℚ := 1 :: List.replicate 127 0

/-- Sum of the table entries `p[s]` over the leaf symbols `s` of a tree. -/
def leafSum (prob_table : List ℚ) (t : NODE) : ℚ :=
  ((leaves t).map (fun s => prob_table.getD s 0)).sum

/-- Every node of the tree weighs the sum of the table entries of the leaf symbols below
it. -/
def LeafSumOK (prob_table : List ℚ) (t : NODE) : Prop :=
  ∀ n, n ∈ subtrees t → n.probability = leafSum prob_table n

/-- A table whose least entry is attained once: `p[0] = 0` and `p[s] = 1` otherwise. -/
def unique_min_table : List ℚ := 0 :: List.replicate 127 1

/-! ## `get_prob_table` -/

/-- The loop `while (fscanf(fp, "%f", &prob_table[i++]) == 1);` of `get_prob_table`:
`values` are the numbers that `fscanf` still converts, `i` is the index of the next store.
The table has `MAX_ASCII` entries; a store at a larger index has no defined result. -/
def get_prob_table_loop : List ℚ → Nat → List ℚ → Option (List ℚ)
  | [], _, prob_table => some prob_table
  | v :: values, i, prob_table =>
    if i < MAX_ASCII then get_prob_table_loop values (i + 1) (prob_table.set i v)
    else none

/-- The function `get_prob_table` on a file that holds the numbers `values`. The table of
`MAX_ASCII` floats is obtained from `malloc` and is not initialised before the loop;
`block` is what it holds at that point. -/
def get_prob_table (block values : List ℚ) : Option (List ℚ) :=
  get_prob_table_loop values 0 block

/-- The function `generate_huffman_tree(prob_file)` from the contents of the file on:
`get_prob_table` followed by the construction of the tree. -/
def generate_huffman_tree_from_file (block values : List ℚ) : Option NODE :=
  (get_prob_table block values).bind generate_huffman_tree

/-! ## The estimator of `prob_table.c` -/

/-- How a call of a function that may stop the program ends: it returns, it prints a
message and calls `exit(EXIT_FAILURE)`, or it has no defined result. -/
inductive Run (α : Type) where
  | returned (value : α) : Run α
  | exited (message : String) : Run α
  | undefined : Run α
deriving DecidableEq, Repr

/-- The value of `char character = fgetc(fp)` for a byte of the file (`char` is signed):
bytes 0..127 keep their value, bytes 128..255 become -128..-1. -/
def char_of_byte (byte : Nat) : Int :=
  if byte % 256 < 128 then (byte % 256 : Nat) else ((byte % 256 : Nat) : Int) - 256

/-- The value of the constant `EOF`. -/
def EOF : Int := -1

/-- The largest value of an `int`. -/
def INT_MAX : Int := 2147483647

/-- The loop of `count_characters` on the bytes of the sample file, on the state
`(count_char, *count_total)`. The end of the list is the end of the file, where `fgetc`
returns `EOF`. Indexing `count_char` outside its `MAX_ASCII` entries and incrementing an
`int` that holds `INT_MAX` have no defined result. -/
def count_characters : List Nat → List Int × Int → Run (List Int × Int)
  | [], st => .returned st
  | byte :: rest, (count_char, count_total) =>
    if char_of_byte byte = EOF then .returned (count_char, count_total)
    else if char_of_byte byte ≥ (MAX_ASCII : Int) then
      .exited "File cannot have ASCII characters with value above 127"
    else if char_of_byte byte < 0 ∨ count_char.length ≤ (char_of_byte byte).toNat then
      .undefined
    else if count_char.getD (char_of_byte byte).toNat 0 = INT_MAX then .undefined
    else if count_total = INT_MAX then .undefined
    else
      count_characters rest
        (count_char.set (char_of_byte byte).toNat
          (count_char.getD (char_of_byte byte).toNat 0 + 1), count_total + 1)

/-- The loop of `calc_probability`, which overwrites every entry of `prob_table`. With
`count_total == 0` every quotient is `0.0 / 0.0`, which is not a number; the model has no
table for that case. -/
def calc_probability (count_char : List Int) (count_total : Int) : Option (List ℚ) :=
  if count_total = 0 then none
  else some ((List.range MAX_ASCII).map
    (fun i => (count_char.getD i 0 : ℚ) / (count_total : ℚ)))

/-- The table that `generate_prob_table` passes to `export_prob_table`: both arrays are
set to zero, then `count_characters` and `calc_probability` run. -/
def generate_prob_table (sample : List Nat) : Run (List ℚ) :=
  match count_characters sample (List.replicate MAX_ASCII 0, 0) with
  | .returned (count_char, count_total) =>
    match calc_probability count_char count_total with
    | some prob_table => .returned prob_table
    | none => .undefined
  | .exited message => .exited message
  | .undefined => .undefined

/-- The node reached from a node by following a string of bits, `'0'` to the left child
and `'1'` to the right child, as the specification words the position of the cursor. -/
def walk : NODE → List Char → Option NODE
  | t, [] => some t
  | .null, _ :: _ => none
  | .mk _ _ l r, c :: rest =>
    if c = '0' then walk l rest else if c = '1' then walk r rest else none

/-- The Kraft sum `Σ 2^(-length(code[s]))` of a code table over the symbols below
`MAX_ASCII`. -/
def kraftSum (huffman_table : List (Option (List Char))) : ℚ :=
  ((List.range MAX_ASCII).map
    (fun s => (1 / 2 : ℚ) ^ (codeOf huffman_table s).length)).sum

end Hw3

/-! # The Three Musketeers game (Hw1)

Shallow embedding of `check_game_over`, `check_valid_bound_move`, `check_legal_musketeer_move`,
`check_legal_enemy_move` and `play_move` of `src/Hw1/src/threeMusketeers.c`.

The array `char board[N][N]` is a function from the pairs of indices below `N = 5` to
characters. Indices computed by the program are `int`s; the access `board[i][j]` with
computed indices goes through `cell` and `set_cell`, which have no result outside the
array. -/

namespace Hw1

/-- The size of the board, `#define N 5`. -/
def N : Int := 5

/-- The `enum` type `STATE`. -/
inductive STATE where
  | PLAYING : STATE
  | MUSKETEERS_WON : STATE
  | ENEMY_WON : STATE
  | TERMINATED : STATE
deriving DecidableEq, Repr

/-- The array `char board[N][N]`. -/
abbrev Board := Fin 5 → Fin 5 → Char

/-- The read `board[i][j]` with `int` indices; there is no element outside the array. -/
def cell (board : Board) (i j : Int) : Option Char :=
  if h : 0 ≤ i ∧ i < 5 ∧ 0 ≤ j ∧ j < 5 then
    some (board ⟨i.toNat, by omega⟩ ⟨j.toNat, by omega⟩)
  else none

/-- The store `board[i][j] = c` with `int` indices. -/
def set_cell (board : Board) (i j : Int) (c : Char) : Option Board :=
  if h : 0 ≤ i ∧ i < 5 ∧ 0 ≤ j ∧ j < 5 then
    some (Function.update board ⟨i.toNat, by omega⟩
      (Function.update (board ⟨i.toNat, by omega⟩) ⟨j.toNat, by omega⟩ c))
  else none

/-- The search loops of `check_game_over`: the coordinates of the cells that hold `'M'`,
in the order in which the loops over `i` and `j` store them into `musketeers`. -/
def find_musketeers (board : Board) : List (Int × Int) :=
  ((List.product (List.finRange 5) (List.finRange 5)).filter
    (fun c => board c.1 c.2 = 'M')).map (fun c => (((c.1 : Nat) : Int), ((c.2 : Nat) : Int)))

/-- The four tests of the last loop of `check_game_over` for one Musketeer
`(row_index, col_index)`: a neighbouring cell inside the board holds `'o'`. -/
def can_move (board : Board) (m : Int × Int) : Bool :=
  decide ((m.1 + 1 ≠ N ∧ cell board (m.1 + 1) m.2 = some 'o') ∨
    (m.1 - 1 ≠ -1 ∧ cell board (m.1 - 1) m.2 = some 'o') ∨
    (m.2 + 1 ≠ N ∧ cell board m.1 (m.2 + 1) = some 'o') ∨
    (m.2 - 1 ≠ -1 ∧ cell board m.1 (m.2 - 1) = some 'o'))

/-- The function `check_game_over`. The array `musketeers` has three entries: with fewer
than three `'M'` on the board an entry is read that was never written, with more than
three a store goes past the array. -/
def check_game_over (board : Board) : Option STATE :=
  match find_musketeers board with
  | [m0, m1, m2] =>
    if m1.1 = m0.1 ∧ m2.1 = m0.1 then some .ENEMY_WON
    else if m1.2 = m0.2 ∧ m2.2 = m0.2 then some .ENEMY_WON
    else if can_move board m0 ∨ can_move board m1 ∨ can_move board m2 then some .PLAYING
    else some .MUSKETEERS_WON
  | _ => none

/-- The function `check_valid_bound_move`; it does not look at the board. -/
def check_valid_bound_move (row column direction : Char) (_board : Board) : Bool :=
  if (row = 'A' ∨ row = 'a') ∧ (direction = 'U' ∨ direction = 'u') then false
  else if (row = 'E' ∨ row = 'e') ∧ (direction = 'D' ∨ direction = 'd') then false
  else if column = '1' ∧ (direction = 'L' ∨ direction = 'l') then false
  else if column = '5' ∧ (direction = 'R' ∨ direction = 'r') then false
  else true

/-- The value of `row_index` in `check_valid_musketeer_move` and
`check_valid_enemy_move`. -/
def row_index (row : Char) : Int :=
  if 'A' ≤ row ∧ row ≤ 'E' then (row.toNat : Int) - ('A'.toNat : Int)
  else (row.toNat : Int) - ('a'.toNat : Int)

/-- The value of `col_index` in `check_valid_musketeer_move` and
`check_valid_enemy_move`. -/
def col_index (column : Char) : Int := (column.toNat : Int) - ('1'.toNat : Int)

/-- The values `(new_row_index, new_col_index)` after the four conditional updates at the
head of `check_legal_musketeer_move` and of `check_legal_enemy_move`. -/
def new_indices (row_index col_index : Int) (direction : Char) : Int × Int :=
  let new_col_index := if direction = 'r' ∨ direction = 'R' then col_index + 1 else col_index
  let new_col_index :=
    if direction = 'l' ∨ direction = 'L' then new_col_index - 1 else new_col_index
  let new_row_index := if direction = 'u' ∨ direction = 'U' then row_index - 1 else row_index
  let new_row_index :=
    if direction = 'd' ∨ direction = 'D' then new_row_index + 1 else new_row_index
  (new_row_index, new_col_index)

/-- The function `play_move`: the new position gets the piece, the old one gets `'.'`. -/
def play_move (row_index col_index new_row_index new_col_index : Int) (board : Board) :
    Option Board :=
  match cell board row_index col_index with
  | none => none
  | some piece =>
    match set_cell board new_row_index new_col_index piece with
    | none => none
    | some board => set_cell board row_index col_index '.'

/-- The function `check_legal_musketeer_move`: the return value and the board after the
call. -/
def check_legal_musketeer_move (row_index col_index : Int) (direction : Char)
    (board : Board) : Option (Bool × Board) :=
  match cell board (new_indices row_index col_index direction).1
      (new_indices row_index col_index direction).2 with
  | none => none
  | some c =>
    if c ≠ 'o' then some (false, board)
    else
      (play_move row_index col_index (new_indices row_index col_index direction).1
        (new_indices row_index col_index direction).2 board).map (fun b => (true, b))

/-- The function `check_legal_enemy_move`: the return value and the board after the
call. -/
def check_legal_enemy_move (row_index col_index : Int) (direction : Char)
    (board : Board) : Option (Bool × Board) :=
  match cell board (new_indices row_index col_index direction).1
      (new_indices row_index col_index direction).2 with
  | none => none
  | some c =>
    if c ≠ '.' then some (false, board)
    else
      (play_move row_index col_index (new_indices row_index col_index direction).1
        (new_indices row_index col_index direction).2 board).map (fun b => (true, b))

/-- The cells of the board that hold a Musketeer. -/
def musketeers (board : Board) : Finset (Fin 5 × Fin 5) :=
  Finset.univ.filter (fun c => board c.1 c.2 = 'M')

/-- All Musketeers stand in one row. -/
def ShareRow (board : Board) : Prop := ∃ r, ∀ c, c ∈ musketeers board → c.1 = r

/-- All Musketeers stand in one column. -/
def ShareColumn (board : Board) : Prop := ∃ r, ∀ c, c ∈ musketeers board → c.2 = r

/-- Two cells of the board are orthogonal neighbours. -/
def Adjacent (a b : Fin 5 × Fin 5) : Prop :=
  (a.2 = b.2 ∧ (a.1.val + 1 = b.1.val ∨ b.1.val + 1 = a.1.val)) ∨
  (a.1 = b.1 ∧ (a.2.val + 1 = b.2.val ∨ b.2.val + 1 = a.2.val))

/-- Some Musketeer has an enemy piece on a neighbouring cell of the board. -/
def MusketeerCanMove (board : Board) : Prop :=
  ∃ c, c ∈ musketeers board ∧ ∃ d, Adjacent c d ∧ board d.1 d.2 = 'o'

/-- A board on which the Musketeers stand in three corners and can still move. -/
def corner_board : Board := fun i j =>
  if (i = 0 ∧ j = 4) ∨ (i = 4 ∧ j = 0) ∨ (i = 4 ∧ j = 4) then 'M' else 'o'

/-- The function `check_valid_musketeer_move`: the return value and the board after the
call. -/
def check_valid_musketeer_move (row column direction : Char) (board : Board) :
    Option (Bool × Board) :=
  match cell board (row_index row) (col_index column) with
  | none => none
  | some piece =>
    if piece ≠ 'M' then some (false, board)
    else if check_valid_bound_move row column direction board = false then
      some (false, board)
    else check_legal_musketeer_move (row_index row) (col_index column) direction board

/-- The function `check_valid_enemy_move`: the return value and the board after the
call. -/
def check_valid_enemy_move (row column direction : Char) (board : Board) :
    Option (Bool × Board) :=
  match cell board (row_index row) (col_index column) with
  | none => none
  | some piece =>
    if piece ≠ 'o' then some (false, board)
    else if check_valid_bound_move row column direction board = false then
      some (false, board)
    else check_legal_enemy_move (row_index row) (col_index column) direction board

/-- The number of cells of the board that hold the character `c`. -/
def count_pieces (board : Board) (c : Char) : Nat :=
  (Finset.univ.filter (fun p : Fin 5 × Fin 5 => board p.1 p.2 = c)).card

/-- The board with the character `c` written on the cell `p`. -/
def with_cell (board : Board) (p : Fin 5 × Fin 5) (c : Char) : Board :=
  fun i j => if (i, j) = p then c else board i j

/-- The calls of `check_valid_musketeer_move` (marked `true`) and `check_valid_enemy_move`
(marked `false`) that a game makes, in order, each with the row, column and direction that
`register_move` took from an input line; the result is the board after the last call. -/
def play_attempts : List (Bool × Char × Char × Char) → Board → Option Board
  | [], board => some board
  | (musketeer, row, column, direction) :: rest, board =>
    match (if musketeer then check_valid_musketeer_move row column direction board
      else check_valid_enemy_move row column direction board) with
    | none => none
    | some (_, board) => play_attempts rest board

/-- The row, column and direction of an attempted move have passed `check_input_format`. -/
def WellFormed (attempt : Bool × Char × Char × Char) : Prop :=
  attempt.2.1 ∈ ['A', 'B', 'C', 'D', 'E', 'a', 'b', 'c', 'd', 'e'] ∧
  attempt.2.2.1 ∈ ['1', '2', '3', '4', '5'] ∧
  attempt.2.2.2 ∈ ['L', 'l', 'R', 'r', 'U', 'u', 'D', 'd']

end Hw1

/-! # Transitive closure of a city graph (Hw2)

Shallow embedding of `init_transitive_closure`, `insert_city`, `build_transitive_closure`,
`check_repetition`, `copy_path` and `check_for_path` of `src/Hw2/src/cityLink.c`.

* The table `int **neighbor_table` is a list of rows; `entry` reads `neighbor_table[k][l]`.
* A `PATH` is its field `size` together with the numbers of the cities of the linked list
  that starts at `head`, in list order; the empty list is `head == NULL`.
* The array `transitive_closure` with its length `tc_size` is a list of `PATH`s.
* City numbers, indices and sizes are natural numbers.
* A function returns `none` where the C program dereferences a `NULL` pointer.
-/

namespace Hw2

/-- The `struct` type `PATH`. -/
structure PATH where
  size : Nat
  head : List Nat
deriving DecidableEq, Repr

/-- The read `neighbor_table[k][l]`. The program reads the table, which has `N` rows of `N`
entries, at indices below `N` only; outside the table the model reads 0. -/
def entry (neighbor_table : List (List Int)) (k l : Nat) : Int :=
  (neighbor_table.getD k []).getD l 0

/-- The function `insert_city`: a new city is linked behind the last one and `size` is
incremented. -/
def insert_city (path : PATH) (city_number : Nat) : PATH :=
  { size := path.size + 1, head := path.head ++ [city_number] }

/-- The function `init_transitive_closure`, started with `tc_size = 0`: one path `i, j`
for every entry `neighbor_table[i][j] == 1` off the diagonal, in the order of the loops. -/
def init_transitive_closure (neighbor_table : List (List Int)) (N : Nat) : List PATH :=
  (List.range N).foldl
    (fun transitive_closure i =>
      (List.range N).foldl
        (fun transitive_closure j =>
          if i = j then transitive_closure
          else if entry neighbor_table i j = 1 then
            transitive_closure ++ [insert_city (insert_city { size := 0, head := [] } i) j]
          else transitive_closure)
        transitive_closure)
    []

/-- The function `init_transitive_closure`, started with `tc_size = 0`, together with the
record of the table at each point of its run: the empty table at the start and, for every
entry `neighbor_table[i][j] == 1` off the diagonal, the table after the new last path has
been given `head = NULL` and `size = 0`, the table after `insert_city` has inserted `i`,
and the table after `insert_city` has inserted `j`. The first component is the table, the
second the record. -/
def init_transitive_closure_run (neighbor_table : List (List Int)) (N : Nat) :
    List PATH × List (List PATH) :=
  (List.range N).foldl
    (fun st i =>
      (List.range N).foldl
        (fun st j =>
          if i = j then st
          else if entry neighbor_table i j = 1 then
            (st.1 ++ [insert_city (insert_city { size := 0, head := [] } i) j],
              st.2 ++ [st.1 ++ [{ size := 0, head := [] }],
                st.1 ++ [insert_city { size := 0, head := [] } i],
                st.1 ++ [insert_city (insert_city { size := 0, head := [] } i) j]])
          else st)
        st)
    ([], [[]])

/-- The tables at the points of a run of `init_transitive_closure`, in order. -/
def init_transitive_closure_points (neighbor_table : List (List Int)) (N : Nat) :
    List (List PATH) :=
  (init_transitive_closure_run neighbor_table N).2

end Hw2

namespace Hw3

/-! ## The scan -/

theorem scanInv_step (ct : List NODE) (k : Nat) (s : Option Nat × Option Nat)
    (h : ScanInv ct k s) : ScanInv ct (k + 1) (scan_step ct s k) := by
  unfold scan_step
  by_cases hk : ct.getD k .null = .null
  · rw [if_pos hk]
    rcases s with ⟨_ | a, _ | b⟩
    · intro j hj
      rcases Nat.lt_succ_iff_lt_or_eq.mp hj with h1 | h1
      · exact h j h1
      · rw [h1]; exact hk
    · exact h.elim
    · obtain ⟨h1, h2, h3⟩ := h
      refine ⟨by omega, h2, ?_⟩
      intro j hj hja
      rcases Nat.lt_succ_iff_lt_or_eq.mp hj with h4 | h4
      · exact h3 j h4 hja
      · rw [h4]; exact hk
    · obtain ⟨h1, h2, h3, h4, h5, h6, h7⟩ := h
      refine ⟨by omega, by omega, h3, h4, h5, h6, ?_⟩
      intro j hj hact
      rcases Nat.lt_succ_iff_lt_or_eq.mp hj with h8 | h8
      · exact h7 j h8 hact
      · rw [h8] at hact; exact (hact hk).elim
  · rw [if_neg hk]
    rcases s with ⟨_ | a, _ | b⟩
    · refine ⟨by omega, hk, ?_⟩
      intro j hj hjk
      exact h j (by omega)
    · exact h.elim
    · obtain ⟨h1, h2, h3⟩ := h
      have honly : ∀ j, j < k + 1 → ct.getD j .null ≠ .null → j = a ∨ j = k := by
        intro j hj hact
        by_cases hja : j = a
        · exact Or.inl hja
        · right
          by_contra hne
          exact hact (h3 j (by omega) hja)
      dsimp only
      split_ifs with hlt
      · refine ⟨by omega, by omega, by omega, hk, h2, le_of_lt hlt, ?_⟩
        intro j hj hact
        rcases honly j hj hact with e | e
        · subst e
          exact ⟨le_of_lt hlt, fun he => absurd hlt (by rw [he]; exact lt_irrefl _)⟩
        · subst e
          exact ⟨le_refl _, fun _ => le_refl _⟩
      · refine ⟨by omega, by omega, by omega, h2, hk, not_lt.mp hlt, ?_⟩
        intro j hj hact
        rcases honly j hj hact with e | e
        · subst e
          exact ⟨le_refl _, fun _ => le_refl _⟩
        · subst e
          exact ⟨not_lt.mp hlt, fun _ => by omega⟩
    · obtain ⟨h1, h2, h3, h4, h5, h6, h7⟩ := h
      dsimp only
      split_ifs with hlt hbet
      · refine ⟨by omega, by omega, by omega, hk, h4, le_of_lt hlt, ?_⟩
        intro j hj hact
        rcases Nat.lt_succ_iff_lt_or_eq.mp hj with h8 | h8
        · have := h7 j h8 hact
          refine ⟨le_of_lt (lt_of_lt_of_le hlt this.1), fun he => ?_⟩
          rw [he] at this
          exact absurd hlt (not_lt.mpr this.1)
        · subst h8
          exact ⟨le_refl _, fun _ => le_refl _⟩
      · refine ⟨by omega, by omega, by omega, h4, hk, le_of_lt hbet.2, ?_⟩
        intro j hj hact
        rcases Nat.lt_succ_iff_lt_or_eq.mp hj with h8 | h8
        · exact h7 j h8 hact
        · subst h8
          exact ⟨le_of_lt hbet.2, fun _ => by omega⟩
      · refine ⟨by omega, by omega, h3, h4, h5, h6, ?_⟩
        intro j hj hact
        rcases Nat.lt_succ_iff_lt_or_eq.mp hj with h8 | h8
        · exact h7 j h8 hact
        · subst h8
          exact ⟨not_lt.mp hlt, fun _ => by omega⟩

theorem scanInv_range (ct : List NODE) (k : Nat) :
    ScanInv ct k ((List.range k).foldl (scan_step ct) (none, none)) := by
  induction k with
  | zero =>
    intro j hj
    exact absurd hj (Nat.not_lt_zero j)
  | succ n ih =>
    rw [List.range_succ, List.foldl_append]
    exact scanInv_step ct n _ ih

theorem scanInv_scan (ct : List NODE) : ScanInv ct MAX_ASCII (scan ct) :=
  scanInv_range ct MAX_ASCII

/-- With two distinct active slots the scan ends with both indices set, and they satisfy
the scan invariant. -/
theorem scan_some (ct : List NODE) (i j : Nat) (hi : i < MAX_ASCII) (hj : j < MAX_ASCII)
    (hij : i ≠ j) (hai : ct.getD i .null ≠ .null) (haj : ct.getD j .null ≠ .null) :
    ∃ a b, scan ct = (some a, some b) ∧ ScanInv ct MAX_ASCII (some a, some b) := by
  have h := scanInv_scan ct
  rcases hs : scan ct with ⟨_ | a, _ | b⟩
  · rw [hs] at h
    exact absurd (h i hi) hai
  · rw [hs] at h
    exact h.elim
  · rw [hs] at h
    obtain ⟨h1, h2, h3⟩ := h
    by_cases hia : i = a
    · exact absurd (h3 j hj (by omega)) haj
    · exact absurd (h3 i hi hia) hai
  · rw [hs] at h
    exact ⟨a, b, rfl, h⟩

/-! ## The merge loop -/

theorem getD_set_eq {α : Type} (l : List α) (i : Nat) (a d : α) (h : i < l.length) :
    (l.set i a).getD i d = a := by
  simp [List.getD_eq_getElem?_getD, List.getElem?_set, h]

theorem getD_set_ne {α : Type} (l : List α) (i j : Nat) (a d : α) (h : i ≠ j) :
    (l.set i a).getD j d = l.getD j d := by
  simp [List.getD_eq_getElem?_getD, List.getElem?_set, h]

theorem sum_map_set {α M : Type} [AddCommMonoid M] (f : α → M) (d a : α) :
    ∀ (l : List α) (i : Nat), i < l.length →
      ((l.set i a).map f).sum + f (l.getD i d) = (l.map f).sum + f a := by
  intro l
  induction l with
  | nil => intro i h; exact absurd h (Nat.not_lt_zero i)
  | cons x xs ih =>
    intro i h
    cases i with
    | zero =>
      simp only [List.set_cons_zero, List.map_cons, List.sum_cons, List.getD_cons_zero]
      abel
    | succ n =>
      have h2 : n < xs.length := by simpa using h
      have := ih n h2
      simp only [List.set_cons_succ, List.map_cons, List.sum_cons, List.getD_cons_succ]
      rw [add_assoc, this, add_assoc]

theorem getD_mem_of_lt {α : Type} (l : List α) (i : Nat) (d : α) (h : i < l.length) :
    l.getD i d ∈ l := by
  rw [List.getD_eq_getElem _ _ h]
  exact List.getElem_mem h

theorem exists_active (ct : List NODE) (h : 0 < activeCount ct) :
    ∃ i, i < ct.length ∧ ct.getD i .null ≠ .null := by
  induction ct with
  | nil => simp [activeCount] at h
  | cons x xs ih =>
    by_cases hx : x = .null
    · have h2 : 0 < activeCount xs := by
        simpa [activeCount, hx] using h
      obtain ⟨i, hi, hact⟩ := ih h2
      exact ⟨i + 1, by simpa using hi, by simpa using hact⟩
    · exact ⟨0, by simp, by simpa using hx⟩

theorem activeCount_set (ct : List NODE) (i : Nat) (h : i < ct.length) (t : NODE) :
    activeCount (ct.set i t) + (if ct.getD i .null = .null then 0 else 1)
      = activeCount ct + (if t = .null then 0 else 1) :=
  sum_map_set (fun t => if t = NODE.null then 0 else 1) .null t ct i h

theorem forestLeaves_set (ct : List NODE) (i : Nat) (h : i < ct.length) (t : NODE) :
    forestLeaves (ct.set i t) + (leaves (ct.getD i .null) : Multiset Nat)
      = forestLeaves ct + (leaves t : Multiset Nat) :=
  sum_map_set (fun t => (leaves t : Multiset Nat)) .null t ct i h

theorem exists_two_active (ct : List NODE) (h : 2 ≤ activeCount ct) :
    ∃ i j, i < ct.length ∧ j < ct.length ∧ i ≠ j ∧
      ct.getD i .null ≠ .null ∧ ct.getD j .null ≠ .null := by
  obtain ⟨i, hi, hai⟩ := exists_active ct (by omega)
  have h1 := activeCount_set ct i hi .null
  rw [if_neg hai, if_pos rfl] at h1
  obtain ⟨j, hj, haj⟩ := exists_active (ct.set i .null) (by omega)
  have hij : i ≠ j := by
    intro e
    subst e
    exact haj (getD_set_eq ct i .null .null hi)
  rw [getD_set_ne ct i j .null .null hij] at haj
  exact ⟨i, j, hi, by simpa using hj, hij, hai, haj⟩

theorem forestLeaves_of_activeCount_zero (ct : List NODE) (h : activeCount ct = 0) :
    forestLeaves ct = 0 := by
  induction ct with
  | nil => rfl
  | cons x xs ih =>
    by_cases hx : x = .null
    · have h2 : activeCount xs = 0 := by simpa [activeCount, hx] using h
      simp [forestLeaves, hx, leaves] at ih ⊢
      exact ih h2
    · simp [activeCount, hx] at h

/-- When a single slot is occupied, the forest is that tree. -/
theorem forestLeaves_single (ct : List NODE) (a : Nat) (ha : a < ct.length)
    (hact : ct.getD a .null ≠ .null) (h1 : activeCount ct = 1) :
    forestLeaves ct = (leaves (ct.getD a .null) : Multiset Nat) := by
  have hc := activeCount_set ct a ha .null
  rw [if_neg hact, if_pos rfl] at hc
  have hz := forestLeaves_of_activeCount_zero (ct.set a .null) (by omega)
  have hf := forestLeaves_set ct a ha .null
  rw [hz] at hf
  simpa [leaves] using hf.symm

/-- When a single slot is occupied, every other slot is `NULL`. -/
theorem getD_null_of_single (ct : List NODE) (a : Nat) (ha : a < ct.length)
    (hact : ct.getD a .null ≠ .null) (h1 : activeCount ct = 1) (j : Nat) (hj : j ≠ a) :
    ct.getD j .null = .null := by
  by_contra hne
  have hjl : j < ct.length := by
    by_contra hge
    exact hne (List.getD_eq_default _ _ (by omega))
  have hc := activeCount_set ct a ha .null
  rw [if_neg hact, if_pos rfl] at hc
  have hc2 := activeCount_set (ct.set a .null) j (by simpa using hjl) .null
  rw [getD_set_ne ct a j .null .null (Ne.symm hj), if_neg hne, if_pos rfl] at hc2
  omega

/-- The merge round in closed form, given the result of the scan. -/
theorem merge_round_eq (ct : List NODE) (a b : Nat) (hlen : ct.length = MAX_ASCII)
    (hs : scan ct = (some a, some b)) (hinv : ScanInv ct MAX_ASCII (some a, some b)) :
    merge_round ct = some
      ((ct.set a (.mk 0 ((ct.getD a .null).probability + (ct.getD b .null).probability)
          (ct.getD a .null) (ct.getD b .null))).set b .null,
        .mk 0 ((ct.getD a .null).probability + (ct.getD b .null).probability)
          (ct.getD a .null) (ct.getD b .null)) := by
  obtain ⟨h1, h2, h3, -⟩ := hinv
  unfold merge_round
  rw [hs]
  simp only
  rw [getD_set_ne _ b a _ _ (Ne.symm h3), getD_set_eq _ a _ _ (by omega)]

theorem leaves_merge (x y : NODE) (p : ℚ) (hx : x ≠ .null) :
    leaves (.mk 0 p x y) = leaves x ++ leaves y := by
  simp [leaves, hx]

/-- One round keeps the loop invariant and lowers the number of trees by one. -/
theorem merge_round_inv (P : NODE → Prop)
    (hP : ∀ x y, x ≠ .null → y ≠ .null → P x → P y →
      P (.mk 0 (x.probability + y.probability) x y))
    (ct : List NODE) (n : Nat) (h : ForestInv P ct (n + 2)) :
    ∃ ct' root a, merge_round ct = some (ct', root) ∧ ForestInv P ct' (n + 1) ∧
      root ≠ .null ∧ a < MAX_ASCII ∧ ct'.getD a .null = root := by
  obtain ⟨hlen, hcount, hleaves, hall⟩ := h
  obtain ⟨i, j, hi, hj, hij, hai, haj⟩ := exists_two_active ct (by omega)
  rw [hlen] at hi hj
  obtain ⟨a, b, hs, hinv⟩ := scan_some ct i j hi hj hij hai haj
  have hr := merge_round_eq ct a b hlen hs hinv
  obtain ⟨ha, hb, hab, hacta, hactb, -⟩ := hinv
  have hal : a < ct.length := by omega
  have hbl : b < ct.length := by omega
  generalize hnew : NODE.mk 0 ((ct.getD a .null).probability + (ct.getD b .null).probability)
      (ct.getD a .null) (ct.getD b .null) = new_node at hr
  have hnn : new_node ≠ .null := by
    rw [← hnew]
    exact fun e => NODE.noConfusion e
  have hbl2 : b < (ct.set a new_node).length := by simpa using hbl
  refine ⟨_, _, a, hr, ⟨by simpa using hlen, ?_, ?_, ?_⟩, hnn, ha, ?_⟩
  · have c1 := activeCount_set ct a hal new_node
    have c2 := activeCount_set (ct.set a new_node) b hbl2 .null
    rw [getD_set_ne ct a b _ _ hab] at c2
    rw [if_neg hacta, if_neg hnn] at c1
    rw [if_neg hactb, if_pos rfl] at c2
    omega
  · have f1 := forestLeaves_set ct a hal new_node
    have f2 := forestLeaves_set (ct.set a new_node) b hbl2 .null
    rw [getD_set_ne ct a b _ _ hab] at f2
    have hl : (leaves new_node : Multiset Nat)
        = (leaves (ct.getD a .null) : Multiset Nat) + (leaves (ct.getD b .null) : Multiset Nat) := by
      rw [← hnew, leaves_merge _ _ _ hacta]
      rfl
    have hl0 : (leaves NODE.null : Multiset Nat) = 0 := rfl
    rw [hl] at f1
    rw [hl0, add_zero] at f2
    rw [← hleaves]
    have f3 : forestLeaves (ct.set a new_node) + (leaves (ct.getD a .null) : Multiset Nat)
        = (forestLeaves ct + (leaves (ct.getD b .null) : Multiset Nat))
          + (leaves (ct.getD a .null) : Multiset Nat) := by
      rw [f1]; abel
    have f4 := add_right_cancel f3
    rw [f4] at f2
    exact add_right_cancel f2
  · intro t ht htn
    rcases List.mem_or_eq_of_mem_set ht with h1 | h1
    · rcases List.mem_or_eq_of_mem_set h1 with h2 | h2
      · exact hall t h2 htn
      · rw [h2, ← hnew]
        exact hP _ _ hacta hactb (hall _ (getD_mem_of_lt ct a .null hal) hacta)
          (hall _ (getD_mem_of_lt ct b .null hbl) hactb)
    · exact absurd h1 htn
  · rw [getD_set_ne _ b a _ _ (Ne.symm hab), getD_set_eq _ a _ _ hal]

/-- The `while` loop runs to completion from any state that satisfies the invariant with
at least two trees, and ends with a single tree, which is the returned root. -/
theorem merge_loop_inv (P : NODE → Prop)
    (hP : ∀ x y, x ≠ .null → y ≠ .null → P x → P y →
      P (.mk 0 (x.probability + y.probability) x y)) :
    ∀ (n : Nat) (ct : List NODE) (hbt : NODE), ForestInv P ct (n + 2) →
      ∃ ct' root a, merge_loop (n + 2) (ct, hbt) = some (ct', root) ∧ ForestInv P ct' 1 ∧
        root ≠ .null ∧ a < MAX_ASCII ∧ ct'.getD a .null = root := by
  intro n
  induction n with
  | zero =>
    intro ct hbt h
    obtain ⟨ct', root, a, hr, hinv, hrest⟩ := merge_round_inv P hP ct 0 h
    refine ⟨ct', root, a, ?_, hinv, hrest⟩
    simp [merge_loop, hr]
  | succ m ih =>
    intro ct hbt h
    obtain ⟨ct1, root1, a1, hr, hinv, -⟩ := merge_round_inv P hP ct (m + 1) h
    obtain ⟨ct', root, a, hl, hrest⟩ := ih ct1 root1 hinv
    refine ⟨ct', root, a, ?_, hrest⟩
    rw [merge_loop]
    simp only [hr]
    exact hl

theorem activeCount_init (f : Nat → ℚ) (n : Nat) :
    activeCount ((List.range n).map (fun i => NODE.mk i (f i) .null .null)) = n := by
  induction n with
  | zero => rfl
  | succ k ih =>
    unfold activeCount at ih ⊢
    rw [List.range_succ, List.map_append, List.map_append, List.sum_append, ih]
    simp

theorem forestLeaves_init (f : Nat → ℚ) (n : Nat) :
    forestLeaves ((List.range n).map (fun i => NODE.mk i (f i) .null .null))
      = Multiset.range n := by
  induction n with
  | zero => rfl
  | succ k ih =>
    unfold forestLeaves at ih ⊢
    rw [List.range_succ, List.map_append, List.map_append, List.sum_append, ih,
      Multiset.range_succ]
    simp only [leaves, List.map_cons, List.map_nil, List.sum_cons, List.sum_nil, and_self,
      if_true, add_zero]
    rw [add_comm]
    rfl

/-- The initial array satisfies the loop invariant for any property of single-node trees. -/
theorem forestInv_init (P : NODE → Prop) (prob_table : List ℚ)
    (hleaf : ∀ i, i < MAX_ASCII → P (.mk i (prob_table.getD i 0) .null .null)) :
    ForestInv P (init_character_trees prob_table) MAX_ASCII := by
  refine ⟨by simp [init_character_trees], activeCount_init _ _, forestLeaves_init _ _, ?_⟩
  intro t ht _
  simp only [init_character_trees, List.mem_map, List.mem_range] at ht
  obtain ⟨i, hi, rfl⟩ := ht
  exact hleaf i hi

/-- Main fact about `generate_huffman_tree`: on a table of `MAX_ASCII` entries it returns
a root; the root is the only tree left in the array, its leaves are the symbols below
`MAX_ASCII`, each once, and it has every property that holds of the initial leaves and
is preserved by a merge. -/
theorem generate_huffman_tree_state_spec (P : NODE → Prop)
    (hP : ∀ x y, x ≠ .null → y ≠ .null → P x → P y →
      P (.mk 0 (x.probability + y.probability) x y))
    (prob_table : List ℚ) (hlen : prob_table.length = MAX_ASCII)
    (hleaf : ∀ i, i < MAX_ASCII → P (.mk i (prob_table.getD i 0) .null .null)) :
    ∃ ct root a, generate_huffman_tree_state prob_table = some (ct, root) ∧
      ForestInv P ct 1 ∧ root ≠ .null ∧ a < MAX_ASCII ∧ ct.getD a .null = root ∧ P root ∧
      (leaves root : Multiset Nat) = Multiset.range MAX_ASCII := by
  obtain ⟨ct, root, a, hl, hinv, hroot, ha, hget⟩ :=
    merge_loop_inv P hP 126 (init_character_trees prob_table) .null
      (forestInv_init P prob_table hleaf)
  refine ⟨ct, root, a, ?_, hinv, hroot, ha, hget, ?_, ?_⟩
  · unfold generate_huffman_tree_state
    rw [if_neg (by omega)]
    exact hl
  · obtain ⟨h1, -, -, h4⟩ := hinv
    rw [← hget]
    exact h4 _ (getD_mem_of_lt ct a .null (by omega)) (by rw [hget]; exact hroot)
  · obtain ⟨h1, h2, h3, -⟩ := hinv
    rw [← h3, ← hget]
    exact (forestLeaves_single ct a (by omega) (by rw [hget]; exact hroot) h2).symm

/-! ## Shape of full trees -/

theorem full_ne_null (t : NODE) (h : Full t) : t ≠ .null := by
  intro e
  rw [e] at h
  exact h

theorem numLeaves_eq_length (t : NODE) : numLeaves t = (leaves t).length := by
  induction t with
  | null => rfl
  | mk c p l r ihl ihr =>
    unfold numLeaves leaves
    split_ifs
    · rfl
    · rw [List.length_append, ihl, ihr]

theorem full_numLeaves (t : NODE) (h : Full t) : numLeaves t = numInternal t + 1 := by
  induction t with
  | null => exact h.elim
  | mk c p l r ihl ihr =>
    unfold numLeaves numInternal
    by_cases hleaf : l = .null ∧ r = .null
    · rw [if_pos hleaf, if_pos hleaf]
    · rw [if_neg hleaf, if_neg hleaf]
      rcases h with h | h
      · exact absurd h hleaf
      · rw [ihl h.1, ihr h.2]
        omega

theorem full_height_lt (t : NODE) (h : Full t) : height t < numLeaves t := by
  induction t with
  | null => exact h.elim
  | mk c p l r ihl ihr =>
    unfold numLeaves height
    by_cases hleaf : l = .null ∧ r = .null
    · rw [if_pos hleaf, if_pos hleaf]
      exact Nat.one_pos
    · rw [if_neg hleaf, if_neg hleaf]
      rcases h with h | h
      · exact absurd h hleaf
      · have h1 := ihl h.1
        have h2 := ihr h.2
        rcases Nat.le_total (height l) (height r) with h3 | h3
        · rw [Nat.max_eq_right h3]; omega
        · rw [Nat.max_eq_left h3]; omega

theorem paths_symbols (t : NODE) : (paths t).map (fun e => e.1) = leaves t := by
  induction t with
  | null => rfl
  | mk c p l r ihl ihr =>
    unfold paths leaves
    split_ifs
    · rfl
    · rw [List.map_append, List.map_map, List.map_map, ← ihl, ← ihr]
      rfl

theorem length_le_of_nodup_lt (l : List Nat) (n : Nat) (hnd : l.Nodup)
    (hlt : ∀ x, x ∈ l → x < n) : l.length ≤ n := by
  have hsub : l ⊆ List.range n := fun x hx => List.mem_range.mpr (hlt x hx)
  have := (List.subperm_of_subset hnd hsub).length_le
  simpa using this

/-- In a tree, the path of one leaf is an initial segment of the path of a leaf only if
the two leaves are the same entry. -/
theorem paths_no_initial_segment (t : NODE) :
    ∀ e1 e2, e1 ∈ paths t → e2 ∈ paths t → e1.2 <+: e2.2 → e1 = e2 := by
  induction t with
  | null =>
    intro e1 e2 h1
    simp [paths] at h1
  | mk c p l r ihl ihr =>
    intro e1 e2 h1 h2 hp
    unfold paths at h1 h2
    by_cases hleaf : l = .null ∧ r = .null
    · rw [if_pos hleaf] at h1 h2
      rw [List.mem_singleton] at h1 h2
      rw [h1, h2]
    · rw [if_neg hleaf] at h1 h2
      rw [List.mem_append, List.mem_map, List.mem_map] at h1 h2
      rcases h1 with ⟨x1, hx1, rfl⟩ | ⟨x1, hx1, rfl⟩ <;>
        rcases h2 with ⟨x2, hx2, rfl⟩ | ⟨x2, hx2, rfl⟩
      · have hq : x1.2 <+: x2.2 := (List.cons_prefix_cons.mp hp).2
        rw [ihl x1 x2 hx1 hx2 hq]
      · have := (List.cons_prefix_cons.mp hp).1
        exact absurd this (by decide)
      · have := (List.cons_prefix_cons.mp hp).1
        exact absurd this (by decide)
      · have hq : x1.2 <+: x2.2 := (List.cons_prefix_cons.mp hp).2
        rw [ihr x1 x2 hx1 hx2 hq]

/-! ## Code derivation -/

theorem storeAll_length (entries : List (Nat × List Char)) :
    ∀ tbl : List (Option (List Char)), (storeAll tbl entries).length = tbl.length := by
  induction entries with
  | nil => intro tbl; rfl
  | cons e es ih =>
    intro tbl
    show (storeAll (tbl.set e.1 (some e.2)) es).length = tbl.length
    rw [ih, List.length_set]

theorem storeAll_append (tbl : List (Option (List Char))) (xs ys : List (Nat × List Char)) :
    storeAll tbl (xs ++ ys) = storeAll (storeAll tbl xs) ys := by
  unfold storeAll
  rw [List.foldl_append]

/-- A slot that no entry names keeps its value. -/
theorem storeAll_getD_of_not_mem (entries : List (Nat × List Char)) :
    ∀ (tbl : List (Option (List Char))) (c : Nat),
      c ∉ entries.map (fun e => e.1) → (storeAll tbl entries).getD c none = tbl.getD c none := by
  induction entries with
  | nil => intro tbl c _; rfl
  | cons e es ih =>
    intro tbl c hc
    rw [List.map_cons, List.mem_cons, not_or] at hc
    show (storeAll (tbl.set e.1 (some e.2)) es).getD c none = tbl.getD c none
    rw [ih _ c hc.2, getD_set_ne _ _ _ _ _ (Ne.symm hc.1)]

/-- With pairwise distinct symbols, each entry is found in its slot afterwards. -/
theorem storeAll_getD_of_mem (entries : List (Nat × List Char)) :
    ∀ (tbl : List (Option (List Char))), (entries.map (fun e => e.1)).Nodup →
      (∀ e, e ∈ entries → e.1 < tbl.length) →
      ∀ e, e ∈ entries → (storeAll tbl entries).getD e.1 none = some e.2 := by
  induction entries with
  | nil =>
    intro tbl _ _ e he
    simp at he
  | cons x xs ih =>
    intro tbl hnd hlt e he
    rw [List.map_cons, List.nodup_cons] at hnd
    show (storeAll (tbl.set x.1 (some x.2)) xs).getD e.1 none = some e.2
    rcases List.mem_cons.mp he with h | h
    · rw [h, storeAll_getD_of_not_mem xs _ _ hnd.1,
        getD_set_eq _ _ _ _ (hlt x (List.mem_cons_self _ _))]
    · exact ih _ hnd.2
        (fun e' he' => by rw [List.length_set]; exact hlt e' (List.mem_cons_of_mem _ he')) e h

/-- The in-place traversal stores, for each leaf below the current node, the buffer
contents on entry followed by the path from the current node to that leaf, and returns
with the last character of the buffer removed. The buffer never overflows as long as
the buffer length on entry plus the height of the subtree stays below `MAX_ASCII`. -/
theorem build_codes_full (t : NODE) :
    Full t → (∀ c, c ∈ leaves t → c < MAX_ASCII) →
    ∀ (tbl : List (Option (List Char))) (code : List Char),
      code.length + height t < MAX_ASCII → (t.isLeaf → code ≠ []) →
      build_codes t (tbl, code)
        = some (storeAll tbl ((paths t).map (fun e => (e.1, code ++ e.2))), code.dropLast) := by
  induction t with
  | null => intro h; exact h.elim
  | mk c p l r ihl ihr =>
    intro hfull hsym tbl code hlen hne
    by_cases hleaf : l = .null ∧ r = .null
    · have hc : c < MAX_ASCII := hsym c (by simp [leaves, hleaf])
      have hcode : code.length ≠ 0 := by
        intro e
        exact hne hleaf (List.length_eq_zero.mp e)
      simp [build_codes, paths, hleaf, hc, hcode, storeAll]
    · rcases hfull with hfull | ⟨hfl, hfr⟩
      · exact absurd hfull hleaf
      · have hl : l ≠ .null := full_ne_null l hfl
        have hr : r ≠ .null := full_ne_null r hfr
        have hh : height (.mk c p l r) = 1 + max (height l) (height r) := by
          simp [height, hleaf]
        rw [hh] at hlen
        have hhl : height l ≤ max (height l) (height r) := le_max_left _ _
        have hhr : height r ≤ max (height l) (height r) := le_max_right _ _
        have hsl : ∀ x, x ∈ leaves l → x < MAX_ASCII := fun x hx =>
          hsym x (by simp [leaves, hleaf, hx])
        have hsr : ∀ x, x ∈ leaves r → x < MAX_ASCII := fun x hx =>
          hsym x (by simp [leaves, hleaf, hx])
        have e1 := ihl hfl hsl tbl (code ++ ['0'])
          (by rw [List.length_append]; simp only [List.length_singleton]; omega)
          (fun _ => by simp)
        have e2 := ihr hfr hsr (storeAll tbl ((paths l).map (fun e => (e.1, (code ++ ['0']) ++ e.2))))
          (code ++ ['1'])
          (by rw [List.length_append]; simp only [List.length_singleton]; omega)
          (fun _ => by simp)
        have hb : code.length + 1 < MAX_ASCII := by omega
        rw [build_codes]
        simp only [hleaf, if_false, hl, hr, ne_eq, not_false_eq_true, if_true, hb, e1,
          List.dropLast_concat, e2]
        have hd : (if code.length = 0 then code else code.dropLast) = code.dropLast := by
          split_ifs with h0
          · rw [List.length_eq_zero.mp h0]; rfl
          · rfl
        simp only [paths, hleaf, if_false, List.map_append, List.map_map, storeAll_append,
          Function.comp_def, List.append_assoc, List.singleton_append, ite_not, hd, and_self]

/-- The table produced for a full tree with an internal root and distinct leaf symbols
below `MAX_ASCII`: every entry `(symbol, path)` of `paths` is stored at its symbol. -/
theorem generate_huffman_table_full (root : NODE) (hfull : Full root)
    (hroot : ¬ root.isLeaf) (hnd : (leaves root).Nodup)
    (hsym : ∀ c, c ∈ leaves root → c < MAX_ASCII) :
    ∃ tbl, generate_huffman_table root = some tbl ∧ tbl.length = MAX_ASCII ∧
      tbl = storeAll (List.replicate MAX_ASCII none) (paths root) ∧
      ∀ e, e ∈ paths root → tbl.getD e.1 none = some e.2 := by
  have hh : height root < MAX_ASCII := by
    have h1 := full_height_lt root hfull
    rw [numLeaves_eq_length] at h1
    have h2 := length_le_of_nodup_lt (leaves root) MAX_ASCII hnd hsym
    omega
  have hb := build_codes_full root hfull hsym (List.replicate MAX_ASCII none) []
    (by simpa using hh) (fun h => absurd h hroot)
  have hmap : (paths root).map (fun e => (e.1, ([] : List Char) ++ e.2)) = paths root := by
    simp
  rw [hmap] at hb
  refine ⟨_, by rw [generate_huffman_table, hb]; rfl, ?_, rfl, ?_⟩
  · rw [storeAll_length, List.length_replicate]
  · intro e he
    apply storeAll_getD_of_mem (paths root) _ (by rw [paths_symbols]; exact hnd) _ e he
    intro e' he'
    rw [List.length_replicate]
    apply hsym
    rw [← paths_symbols]
    exact List.mem_map_of_mem _ he'

/-! ## Encoder and decoder -/

/-- On bytes below `MAX_ASCII` whose table slots are filled, the encoder writes the
concatenation of their codes. -/
theorem encode_eq_concatCodes (tbl : List (Option (List Char))) :
    ∀ S : List Nat, (∀ b, b ∈ S → b < MAX_ASCII ∧ tbl.getD b none ≠ none) →
      encode tbl S = some (concatCodes tbl S) := by
  intro S
  induction S with
  | nil => intro _; rfl
  | cons b rest ih =>
    intro h
    obtain ⟨hb, hs⟩ := h b (List.mem_cons_self _ _)
    have hb2 : b ≠ 255 := by
      unfold MAX_ASCII at hb
      omega
    obtain ⟨code, hcode⟩ := Option.ne_none_iff_exists'.mp hs
    rw [encode, if_neg hb2, if_pos hb, hcode]
    simp only [ih (fun x hx => h x (List.mem_cons_of_mem _ hx)), Option.map_some']
    rw [concatCodes, codeOf, hcode]
    rfl

/-- Reading the path of a leaf from an internal node of a full tree emits that leaf's
symbol and puts the cursor back at the root. -/
theorem decode_loop_path (root t : NODE) :
    Full t → ¬ t.isLeaf → ∀ e, e ∈ paths t → ∀ (out : List Nat) (rest : List Char),
      decode_loop root (t, out) (e.2 ++ rest) = decode_loop root (root, out ++ [e.1]) rest := by
  induction t with
  | null => intro h; exact h.elim
  | mk c p l r ihl ihr =>
    intro hfull hleaf e he out rest
    have hleaf2 : ¬ (l = .null ∧ r = .null) := hleaf
    rcases hfull with hfull | ⟨hfl, hfr⟩
    · exact absurd hfull hleaf2
    · unfold paths at he
      rw [if_neg hleaf2, List.mem_append, List.mem_map, List.mem_map] at he
      rcases he with ⟨x, hx, rfl⟩ | ⟨x, hx, rfl⟩
      · cases l with
        | null => exact hfl.elim
        | mk c2 p2 ll lr =>
          by_cases hl2 : ll = .null ∧ lr = .null
          · have hx2 : x = (c2, []) := by
              simpa [paths, hl2] using hx
            subst hx2
            simp [decode_loop, decode_step, hl2]
          · have := ihl hfl hl2 x hx out rest
            simp only [List.cons_append, decode_loop, decode_step]
            simpa [hl2] using this
      · cases r with
        | null => exact hfr.elim
        | mk c2 p2 rl rr =>
          by_cases hr2 : rl = .null ∧ rr = .null
          · have hx2 : x = (c2, []) := by
              simpa [paths, hr2] using hx
            subst hx2
            simp [decode_loop, decode_step, hr2]
          · have := ihr hfr hr2 x hx out rest
            simp only [List.cons_append, decode_loop, decode_step]
            simpa [hr2] using this

/-- Decoding the concatenated codes of `S` from the root appends `S` to the output and
ends with the cursor at the root. -/
theorem decode_loop_concatCodes (root : NODE) (tbl : List (Option (List Char)))
    (hfull : Full root) (hroot : ¬ root.isLeaf) :
    ∀ (S out : List Nat),
      (∀ b, b ∈ S → ∃ e, e ∈ paths root ∧ e.1 = b ∧ tbl.getD b none = some e.2) →
      decode_loop root (root, out) (concatCodes tbl S) = some (root, out ++ S) := by
  intro S
  induction S with
  | nil =>
    intro out _
    simp [concatCodes, decode_loop]
  | cons b rest ih =>
    intro out h
    obtain ⟨e, he, hb, hcode⟩ := h b (List.mem_cons_self _ _)
    have hc : codeOf tbl b = e.2 := by rw [codeOf, hcode]; rfl
    rw [concatCodes, hc, decode_loop_path root root hfull hroot e he out, hb,
      ih (out ++ [b]) (fun x hx => h x (List.mem_cons_of_mem _ hx))]
    simp

/-! ## The whole pipeline on a table of `MAX_ASCII` entries -/

theorem goodTree_merge (x y : NODE) (_ : x ≠ .null) (_ : y ≠ .null)
    (gx : GoodTree x) (gy : GoodTree y) :
    GoodTree (.mk 0 (x.probability + y.probability) x y) :=
  ⟨Or.inr ⟨gx.1, gy.1⟩, Or.inr ⟨rfl, gx.2, gy.2⟩⟩

theorem goodTree_leaf (i : Nat) (p : ℚ) : GoodTree (.mk i p .null .null) :=
  ⟨Or.inl ⟨rfl, rfl⟩, Or.inl ⟨rfl, rfl⟩⟩

/-- Everything the later results need about the tree built from a table of `MAX_ASCII`
entries and the code table derived from it. -/
theorem pipeline_spec (prob_table : List ℚ) (hlen : prob_table.length = MAX_ASCII) :
    ∃ root tbl, generate_huffman_tree prob_table = some root ∧
      generate_huffman_table root = some tbl ∧
      Full root ∧ WeightOK root ∧ ¬ root.isLeaf ∧
      (leaves root).Perm (List.range MAX_ASCII) ∧
      tbl.length = MAX_ASCII ∧
      tbl = storeAll (List.replicate MAX_ASCII none) (paths root) ∧
      ∀ e, e ∈ paths root → tbl.getD e.1 none = some e.2 := by
  obtain ⟨ct, root, a, hst, -, -, -, -, hgood, hleaves⟩ :=
    generate_huffman_tree_state_spec GoodTree goodTree_merge prob_table hlen
      (fun i _ => goodTree_leaf i _)
  have hperm : (leaves root).Perm (List.range MAX_ASCII) := Multiset.coe_eq_coe.mp hleaves
  have hroot : ¬ root.isLeaf := by
    intro hl
    have h1 := hperm.length_eq
    cases root with
    | null => exact hl
    | mk c p l r =>
      have hl2 : l = .null ∧ r = .null := hl
      simp [leaves, hl2, MAX_ASCII] at h1
  have hnd : (leaves root).Nodup := hperm.nodup_iff.mpr (List.nodup_range _)
  have hsym : ∀ c, c ∈ leaves root → c < MAX_ASCII := fun c hc =>
    List.mem_range.mp (hperm.mem_iff.mp hc)
  obtain ⟨tbl, ht, htl, hte, hget⟩ := generate_huffman_table_full root hgood.1 hroot hnd hsym
  refine ⟨root, tbl, ?_, ht, hgood.1, hgood.2, hroot, hperm, htl, hte, hget⟩
  rw [generate_huffman_tree, hst]
  rfl

/-- Every symbol below `MAX_ASCII` has an entry in `paths` when the leaves are exactly
these symbols. -/
theorem exists_path_of_perm (root : NODE) (hperm : (leaves root).Perm (List.range MAX_ASCII))
    (b : Nat) (hb : b < MAX_ASCII) : ∃ e, e ∈ paths root ∧ e.1 = b := by
  have h1 : b ∈ leaves root := hperm.mem_iff.mpr (List.mem_range.mpr hb)
  rw [← paths_symbols, List.mem_map] at h1
  exact h1

theorem paths_ne_nil (root : NODE) (hroot : ¬ root.isLeaf) (e : Nat × List Char)
    (he : e ∈ paths root) : e.2 ≠ [] := by
  cases root with
  | null => simp [paths] at he
  | mk c p l r =>
    have hleaf : ¬ (l = .null ∧ r = .null) := hroot
    unfold paths at he
    rw [if_neg hleaf, List.mem_append, List.mem_map, List.mem_map] at he
    rcases he with ⟨x, -, rfl⟩ | ⟨x, -, rfl⟩ <;> exact List.cons_ne_nil _ _

theorem unbits_bits7 : ∀ s, s < 128 → unbits (bits7 s) = s := by decide

theorem fixed_width_codes_getD (s : Nat) (hs : s < MAX_ASCII) :
    fixed_width_codes.getD s [] = bits7 s := by
  unfold fixed_width_codes
  rw [List.getD_eq_getElem _ _ (by simpa using hs)]
  simp

/-- The fixed-width assignment is a code in which no word is an initial segment of the
word of another symbol. -/
theorem fixed_width_codes_prefixFree : PrefixFree fixed_width_codes := by
  intro i hi j hj hij hp
  rw [fixed_width_codes_getD i hi, fixed_width_codes_getD j hj] at hp
  have hl : (bits7 i).length = (bits7 j).length := by simp [bits7]
  have he : bits7 i = bits7 j := hp.eq_of_length hl
  have := congrArg unbits he
  rw [unbits_bits7 i hi, unbits_bits7 j hj] at this
  exact hij this

/-! ## The single-pass evaluator agrees with the model -/

theorem scan_step_cached_eq (ct : List NODE) (t : NODE) (i : Nat)
    (s : Option (Nat × ℚ) × Option (Nat × ℚ)) (ht : ct.getD i .null = t) (hs : CacheOK ct s) :
    dropCache (scan_step_cached t i s) = scan_step ct (dropCache s) i ∧
      CacheOK ct (scan_step_cached t i s) := by
  cases t with
  | null =>
    refine ⟨?_, hs⟩
    unfold scan_step
    rw [if_pos ht]
    rfl
  | mk c p l r =>
    have hne : ct.getD i .null ≠ .null := by rw [ht]; exact fun e => NODE.noConfusion e
    have hp : (ct.getD i .null).probability = p := by rw [ht]; rfl
    obtain ⟨h1, h2⟩ := hs
    unfold scan_step
    rw [if_neg hne]
    rcases s with ⟨_ | ⟨a, pa⟩, _ | ⟨b, pb⟩⟩
    · refine ⟨rfl, ?_, ?_⟩
      · intro a pa e
        simp only [scan_step_cached, Option.some.injEq, Prod.mk.injEq] at e
        rw [← e.1, ← e.2, hp]
      · intro b pb e
        simp [scan_step_cached] at e
    · refine ⟨rfl, ?_, ?_⟩
      · intro a pa e
        simp only [scan_step_cached, Option.some.injEq, Prod.mk.injEq] at e
        rw [← e.1, ← e.2, hp]
      · intro b' pb' e
        exact h2 b' pb' (by simpa [scan_step_cached] using e)
    · have ha := h1 a pa rfl
      simp only [scan_step_cached, dropCache, Option.map_some', Option.map_none', hp, ← ha]
      split_ifs with hlt
      · refine ⟨rfl, ?_, ?_⟩
        · intro x px e
          simp only [Option.some.injEq, Prod.mk.injEq] at e
          rw [← e.1, ← e.2, hp]
        · intro x px e
          simp only [Option.some.injEq, Prod.mk.injEq] at e
          rw [← e.1, ← e.2, ha]
      · refine ⟨rfl, ?_, ?_⟩
        · intro x px e
          simp only [Option.some.injEq, Prod.mk.injEq] at e
          rw [← e.1, ← e.2, ha]
        · intro x px e
          simp only [Option.some.injEq, Prod.mk.injEq] at e
          rw [← e.1, ← e.2, hp]
    · have ha := h1 a pa rfl
      have hb := h2 b pb rfl
      simp only [scan_step_cached, dropCache, Option.map_some', hp, ← ha, ← hb]
      split_ifs with hlt hbet
      · refine ⟨rfl, ?_, ?_⟩
        · intro x px e
          simp only [Option.some.injEq, Prod.mk.injEq] at e
          rw [← e.1, ← e.2, hp]
        · intro x px e
          simp only [Option.some.injEq, Prod.mk.injEq] at e
          rw [← e.1, ← e.2, ha]
      · refine ⟨rfl, ?_, ?_⟩
        · intro x px e
          simp only [Option.some.injEq, Prod.mk.injEq] at e
          rw [← e.1, ← e.2, ha]
        · intro x px e
          simp only [Option.some.injEq, Prod.mk.injEq] at e
          rw [← e.1, ← e.2, hp]
      · refine ⟨rfl, ?_, ?_⟩
        · intro x px e
          simp only [Option.some.injEq, Prod.mk.injEq] at e
          rw [← e.1, ← e.2, ha]
        · intro x px e
          simp only [Option.some.injEq, Prod.mk.injEq] at e
          rw [← e.1, ← e.2, hb]

theorem scan_cached_eq (ct : List NODE) :
    ∀ (rest : List NODE) (k : Nat) (s : Option (Nat × ℚ) × Option (Nat × ℚ)),
      (∀ j, j < rest.length → ct.getD (k + j) .null = rest.getD j .null) → CacheOK ct s →
      dropCache (scan_cached rest k s)
          = (List.range' k rest.length).foldl (scan_step ct) (dropCache s) ∧
        CacheOK ct (scan_cached rest k s) := by
  intro rest
  induction rest with
  | nil =>
    intro k s _ hs
    exact ⟨rfl, hs⟩
  | cons t ts ih =>
    intro k s hget hs
    have h0 : ct.getD k .null = t := by simpa using hget 0 (by simp)
    obtain ⟨e1, c1⟩ := scan_step_cached_eq ct t k s h0 hs
    have hget2 : ∀ j, j < ts.length → ct.getD (k + 1 + j) .null = ts.getD j .null := by
      intro j hj
      have := hget (j + 1) (by simpa using hj)
      rw [List.getD_cons_succ] at this
      rw [← this]
      congr 1
      omega
    obtain ⟨e2, c2⟩ := ih (k + 1) (scan_step_cached t k s) hget2 c1
    refine ⟨?_, c2⟩
    rw [scan_cached, e2, e1, List.length_cons, List.range'_succ, List.foldl_cons]

theorem scan_cached_scan (ct : List NODE) (hlen : ct.length = MAX_ASCII) :
    dropCache (scan_cached ct 0 (none, none)) = scan ct ∧
      CacheOK ct (scan_cached ct 0 (none, none)) := by
  have hc : CacheOK ct (none, none) :=
    ⟨fun a pa e => by simp at e, fun b pb e => by simp at e⟩
  obtain ⟨e, c⟩ := scan_cached_eq ct ct 0 (none, none) (fun j _ => by rw [Nat.zero_add]) hc
  refine ⟨?_, c⟩
  rw [e, hlen, scan, List.range_eq_range']
  rfl

theorem merge_round_cached_eq (ct : List NODE) (hlen : ct.length = MAX_ASCII) :
    merge_round_cached ct = merge_round ct := by
  obtain ⟨e, c1, c2⟩ := scan_cached_scan ct hlen
  unfold merge_round_cached merge_round
  rw [← e]
  generalize scan_cached ct 0 (none, none) = sc at c1 c2
  rcases sc with ⟨_ | ⟨a, pa⟩, _ | ⟨b, pb⟩⟩
  · rfl
  · rfl
  · rfl
  · have ha := c1 a pa rfl
    have hb := c2 b pb rfl
    simp only [dropCache, Option.map_some', ha, hb]

theorem merge_round_length (ct ct' : List NODE) (hbt : NODE)
    (h : merge_round ct = some (ct', hbt)) : ct'.length = ct.length := by
  unfold merge_round at h
  rcases hs : scan ct with ⟨_ | a, _ | b⟩ <;> rw [hs] at h <;> simp only at h
  · exact absurd h (by simp)
  · exact absurd h (by simp)
  · exact absurd h (by simp)
  · simp only [Option.some.injEq, Prod.mk.injEq] at h
    rw [← h.1]
    simp

theorem merge_loop_cached_eq :
    ∀ (n : Nat) (st : List NODE × NODE), st.1.length = MAX_ASCII →
      merge_loop_cached n st = merge_loop n st := by
  intro n
  induction n using Nat.strong_induction_on with
  | _ n ih =>
    intro st hlen
    match n with
    | 0 => rfl
    | 1 => rfl
    | m + 2 =>
      rw [merge_loop_cached, merge_loop, merge_round_cached_eq st.1 hlen]
      rcases hr : merge_round st.1 with _ | ⟨ct', hbt⟩
      · rfl
      · simp only
        exact ih (m + 1) (by omega) (ct', hbt)
          (by rw [merge_round_length st.1 ct' hbt hr]; exact hlen)

/-- The single-pass evaluator computes `generate_huffman_tree`. -/
theorem generate_huffman_tree_cached_eq (prob_table : List ℚ) :
    generate_huffman_tree_cached prob_table = generate_huffman_tree prob_table := by
  unfold generate_huffman_tree_cached generate_huffman_tree generate_huffman_tree_state
  split_ifs
  · rfl
  · rw [merge_loop_cached_eq MAX_ASCII _ (by simp [init_character_trees])]

/-! ## Three tables evaluated -/

/-- The tree built from `two_symbol_table` is `two_symbol_tree`. -/
theorem generate_huffman_tree_two_symbol_table :
    generate_huffman_tree two_symbol_table = some two_symbol_tree := by
  rw [← generate_huffman_tree_cached_eq]
  decide!

/-- The tree built from `zero_table` is the left-leaning chain over `0..127`. -/
theorem generate_huffman_tree_zero_table :
    generate_huffman_tree zero_table = some (zero_chain 127) := by
  rw [← generate_huffman_tree_cached_eq]
  decide!

/-- The tree built from `uniform_table` is the chain `uniform_chain 127`. -/
theorem generate_huffman_tree_uniform_table :
    generate_huffman_tree uniform_table = some (uniform_chain 127) := by
  rw [← generate_huffman_tree_cached_eq]
  decide!

/-- Evaluation of the whole derivation on `two_symbol_table`: the derived table has
expected code length 64. -/
theorem expectedLength_two_symbol_table :
    expectedLengthOfTree two_symbol_table (generate_huffman_tree two_symbol_table)
      = some 64 := by
  rw [generate_huffman_tree_two_symbol_table]
  decide!

theorem expectedLength_fixed_width_codes :
    expectedLength two_symbol_table fixed_width_codes = 7 := by
  decide!

/-! ## The claims -/

/-- C1 (round trip): for every table of 128 probabilities and every byte sequence `S`
with all bytes in 0..127, the tree is built, the code table is derived, `S` is encoded,
and decoding the encoder's output with the tree gives back exactly `S`. -/
theorem C1_round_trip (prob_table : List ℚ) (S : List Nat)
    (hlen : prob_table.length = MAX_ASCII) (hS : ∀ b, b ∈ S → b < MAX_ASCII) :
    ∃ tree codes bits, generate_huffman_tree prob_table = some tree ∧
      generate_huffman_table tree = some codes ∧
      encode codes S = some bits ∧ decode tree bits = some S := by
  obtain ⟨root, tbl, ht, hc, hfull, -, hroot, hperm, -, -, hget⟩ := pipeline_spec prob_table hlen
  have hpath : ∀ b, b ∈ S → ∃ e, e ∈ paths root ∧ e.1 = b ∧ tbl.getD b none = some e.2 := by
    intro b hb
    obtain ⟨e, he, heb⟩ := exists_path_of_perm root hperm b (hS b hb)
    exact ⟨e, he, heb, by rw [← heb]; exact hget e he⟩
  refine ⟨root, tbl, concatCodes tbl S, ht, hc, ?_, ?_⟩
  · apply encode_eq_concatCodes
    intro b hb
    obtain ⟨e, -, -, h3⟩ := hpath b hb
    exact ⟨hS b hb, by rw [h3]; exact Option.some_ne_none _⟩
  · rw [decode, decode_loop_concatCodes root tbl hfull hroot S [] hpath]
    rfl

/-- Witness of C1 on the uniform table and the two bytes `H`, `i`. -/
theorem C1_round_trip_witness :
    (List.replicate 128 (1 / 128 : ℚ)).length = MAX_ASCII ∧
    (∀ b, b ∈ [72, 105] → b < MAX_ASCII) ∧
    ∃ tree codes bits, generate_huffman_tree (List.replicate 128 (1 / 128 : ℚ)) = some tree ∧
      generate_huffman_table tree = some codes ∧
      encode codes [72, 105] = some bits ∧ decode tree bits = some [72, 105] :=
  ⟨by simp [MAX_ASCII], by decide,
    C1_round_trip (List.replicate 128 (1 / 128 : ℚ)) [72, 105] (by simp [MAX_ASCII])
      (by decide)⟩

/-- C2 (prefix code): for every table of 128 probabilities and every two distinct symbols
`i`, `j` in 0..127, both have a derived code and the code of `i` is not an initial
segment of the code of `j`. -/
theorem C2_prefix_code (prob_table : List ℚ) (i j : Nat)
    (hlen : prob_table.length = MAX_ASCII) (hi : i < MAX_ASCII) (hj : j < MAX_ASCII)
    (hij : i ≠ j) :
    ∃ tree codes ci cj, generate_huffman_tree prob_table = some tree ∧
      generate_huffman_table tree = some codes ∧
      codes.getD i none = some ci ∧ codes.getD j none = some cj ∧ ¬ (ci <+: cj) := by
  obtain ⟨root, tbl, ht, hc, -, -, -, hperm, -, -, hget⟩ := pipeline_spec prob_table hlen
  obtain ⟨ei, hei, hi1⟩ := exists_path_of_perm root hperm i hi
  obtain ⟨ej, hej, hj1⟩ := exists_path_of_perm root hperm j hj
  refine ⟨root, tbl, ei.2, ej.2, ht, hc, by rw [← hi1]; exact hget ei hei,
    by rw [← hj1]; exact hget ej hej, ?_⟩
  intro hp
  have := paths_no_initial_segment root ei ej hei hej hp
  rw [this] at hi1
  exact hij (hi1.symm.trans hj1)

/-- Witness of C2 on the uniform table and the symbols 0 and 127. -/
theorem C2_prefix_code_witness :
    (List.replicate 128 (1 / 128 : ℚ)).length = MAX_ASCII ∧ 0 < MAX_ASCII ∧
    127 < MAX_ASCII ∧ 0 ≠ 127 ∧
    ∃ tree codes ci cj, generate_huffman_tree (List.replicate 128 (1 / 128 : ℚ)) = some tree ∧
      generate_huffman_table tree = some codes ∧
      codes.getD 0 none = some ci ∧ codes.getD 127 none = some cj ∧ ¬ (ci <+: cj) :=
  ⟨by simp [MAX_ASCII], by decide, by decide, by decide,
    C2_prefix_code (List.replicate 128 (1 / 128 : ℚ)) 0 127 (by simp [MAX_ASCII]) (by decide)
      (by decide) (by decide)⟩

/-- C3 (full coverage): for every table of 128 probabilities, zero entries included, the
derived table has 128 slots and is the result of storing one code per leaf of the tree;
the symbols of these stores are 0..127, each exactly once; and every slot ends up
holding a non-empty code. -/
theorem C3_full_coverage (prob_table : List ℚ) (hlen : prob_table.length = MAX_ASCII) :
    ∃ tree codes, generate_huffman_tree prob_table = some tree ∧
      generate_huffman_table tree = some codes ∧ codes.length = 128 ∧
      codes = storeAll (List.replicate MAX_ASCII none) (paths tree) ∧
      ((paths tree).map (fun e => e.1)).Perm (List.range 128) ∧
      ∀ s, s < 128 → ∃ c, codes.getD s none = some c ∧ c ≠ [] := by
  obtain ⟨root, tbl, ht, hc, -, -, hroot, hperm, hl, he, hget⟩ := pipeline_spec prob_table hlen
  refine ⟨root, tbl, ht, hc, hl, he, by rw [paths_symbols]; exact hperm, ?_⟩
  intro s hs
  obtain ⟨e, hmem, hes⟩ := exists_path_of_perm root hperm s hs
  exact ⟨e.2, by rw [← hes]; exact hget e hmem, paths_ne_nil root hroot e hmem⟩

/-- Witness of C3 on the table whose entries are all zero. -/
theorem C3_full_coverage_witness :
    (List.replicate 128 (0 : ℚ)).length = MAX_ASCII ∧
    ∃ tree codes, generate_huffman_tree (List.replicate 128 (0 : ℚ)) = some tree ∧
      generate_huffman_table tree = some codes ∧ codes.length = 128 ∧
      codes = storeAll (List.replicate MAX_ASCII none) (paths tree) ∧
      ((paths tree).map (fun e => e.1)).Perm (List.range 128) ∧
      ∀ s, s < 128 → ∃ c, codes.getD s none = some c ∧ c ≠ [] :=
  ⟨by simp [MAX_ASCII], C3_full_coverage (List.replicate 128 (0 : ℚ)) (by simp [MAX_ASCII])⟩

/-- C4 (optimality), evaluated at `two_symbol_table`: the tree is built and the table is
derived with expected code length 64, while the fixed-width assignment, in which no code
is an initial segment of another, has expected code length 7. -/
theorem C4_two_symbol_table_not_optimal :
    ∃ tree codes, generate_huffman_tree two_symbol_table = some tree ∧
      generate_huffman_table tree = some codes ∧
      fixed_width_codes.length = MAX_ASCII ∧ PrefixFree fixed_width_codes ∧
      expectedLength two_symbol_table fixed_width_codes = 7 ∧
      expectedLength two_symbol_table (codes.map (fun c => c.getD [])) = 64 ∧
      expectedLength two_symbol_table fixed_width_codes
        < expectedLength two_symbol_table (codes.map (fun c => c.getD [])) := by
  obtain ⟨root, tbl, ht, hc, -⟩ :=
    pipeline_spec two_symbol_table (by simp [two_symbol_table, MAX_ASCII])
  have h := expectedLength_two_symbol_table
  unfold expectedLengthOfTree at h
  rw [ht, Option.some_bind, hc, Option.map_some'] at h
  have h64 := Option.some.inj h
  have h7 := expectedLength_fixed_width_codes
  refine ⟨root, tbl, ht, hc, by simp [fixed_width_codes], fixed_width_codes_prefixFree,
    h7, h64, ?_⟩
  rw [h7, h64]
  norm_num

/-- C5 (two-smallest selection), evaluated at the first round on `two_symbol_table`: the
scan selects slot 2 as `first` and slot 0 as `second`, although slot 3 holds a tree that is
neither of them and whose weight `0` is strictly below the weight `1/2` of `second`. -/
theorem C5_second_is_not_second_smallest :
    scan (init_character_trees two_symbol_table) = (some 2, some 0) ∧
    (init_character_trees two_symbol_table).getD 3 .null ≠ .null ∧
    ((init_character_trees two_symbol_table).getD 3 .null).probability
      < ((init_character_trees two_symbol_table).getD 0 .null).probability := by
  decide!

/-- C6 (tie-break for `first`): in every state of the array with at least two trees, the
scan sets both indices, and `first` refers to a tree of minimum weight among all trees of
the array and has the lowest index among the trees of that weight. -/
theorem C6_first_lowest_index_of_minimum (ct : List NODE) (hlen : ct.length = MAX_ASCII)
    (h2 : 2 ≤ activeCount ct) :
    ∃ first second, scan ct = (some first, some second) ∧ first < MAX_ASCII ∧
      ct.getD first .null ≠ .null ∧
      ∀ k, k < MAX_ASCII → ct.getD k .null ≠ .null →
        (ct.getD first .null).probability ≤ (ct.getD k .null).probability ∧
        ((ct.getD k .null).probability = (ct.getD first .null).probability → first ≤ k) := by
  obtain ⟨i, j, hi, hj, hij, hai, haj⟩ := exists_two_active ct h2
  rw [hlen] at hi hj
  obtain ⟨a, b, hs, hinv⟩ := scan_some ct i j hi hj hij hai haj
  obtain ⟨ha, -, -, hacta, -, -, hmin⟩ := hinv
  exact ⟨a, b, hs, ha, hacta, hmin⟩

/-- Witness of C6 on the initial array of `two_symbol_table`. -/
theorem C6_first_lowest_index_of_minimum_witness :
    (init_character_trees two_symbol_table).length = MAX_ASCII ∧
    2 ≤ activeCount (init_character_trees two_symbol_table) ∧
    ∃ first second, scan (init_character_trees two_symbol_table) = (some first, some second) ∧
      first < MAX_ASCII ∧ (init_character_trees two_symbol_table).getD first .null ≠ .null ∧
      ∀ k, k < MAX_ASCII → (init_character_trees two_symbol_table).getD k .null ≠ .null →
        ((init_character_trees two_symbol_table).getD first .null).probability
          ≤ ((init_character_trees two_symbol_table).getD k .null).probability ∧
        (((init_character_trees two_symbol_table).getD k .null).probability
          = ((init_character_trees two_symbol_table).getD first .null).probability →
          first ≤ k) :=
  ⟨by simp [init_character_trees],
    by unfold init_character_trees; rw [activeCount_init]; decide,
    C6_first_lowest_index_of_minimum (init_character_trees two_symbol_table)
      (by simp [init_character_trees])
      (by unfold init_character_trees; rw [activeCount_init]; decide)⟩

/-- C7 (merge step): in every state of the array with at least two trees, the round
selects two distinct occupied slots `first` and `second`, builds a node with left child
the tree of `first`, right child the tree of `second` and weight the sum of their weights,
stores it in slot `first`, sets slot `second` to `NULL`, keeps every other slot, and that
node is the new value of `huffman_binary_tree`. -/
theorem C7_merge_step (ct : List NODE) (hlen : ct.length = MAX_ASCII)
    (h2 : 2 ≤ activeCount ct) :
    ∃ first second ct' hbt, scan ct = (some first, some second) ∧
      merge_round ct = some (ct', hbt) ∧ first ≠ second ∧
      ct.getD first .null ≠ .null ∧ ct.getD second .null ≠ .null ∧
      ct'.length = ct.length ∧
      ct'.getD first .null
        = .mk 0 ((ct.getD first .null).probability + (ct.getD second .null).probability)
            (ct.getD first .null) (ct.getD second .null) ∧
      ct'.getD second .null = .null ∧
      (∀ k, k ≠ first → k ≠ second → ct'.getD k .null = ct.getD k .null) ∧
      hbt = ct'.getD first .null := by
  obtain ⟨i, j, hi, hj, hij, hai, haj⟩ := exists_two_active ct h2
  rw [hlen] at hi hj
  obtain ⟨a, b, hs, hinv⟩ := scan_some ct i j hi hj hij hai haj
  have hr := merge_round_eq ct a b hlen hs hinv
  obtain ⟨ha, hb, hab, hacta, hactb, -⟩ := hinv
  have hal : a < ct.length := by omega
  have hbl : b < ct.length := by omega
  have hfirst : ((ct.set a (.mk 0 ((ct.getD a .null).probability
      + (ct.getD b .null).probability) (ct.getD a .null) (ct.getD b .null))).set b .null).getD
        a .null
      = .mk 0 ((ct.getD a .null).probability + (ct.getD b .null).probability)
          (ct.getD a .null) (ct.getD b .null) := by
    rw [getD_set_ne _ b a _ _ (Ne.symm hab), getD_set_eq _ a _ _ hal]
  refine ⟨a, b, _, _, hs, hr, hab, hacta, hactb, by simp, hfirst, ?_, ?_, hfirst.symm⟩
  · exact getD_set_eq _ b _ _ (by simpa using hbl)
  · intro k hka hkb
    rw [getD_set_ne _ b k _ _ (Ne.symm hkb), getD_set_ne _ a k _ _ (Ne.symm hka)]

/-- Witness of C7 on the initial array of `two_symbol_table`. -/
theorem C7_merge_step_witness :
    (init_character_trees two_symbol_table).length = MAX_ASCII ∧
    2 ≤ activeCount (init_character_trees two_symbol_table) ∧
    ∃ first second ct' hbt,
      scan (init_character_trees two_symbol_table) = (some first, some second) ∧
      merge_round (init_character_trees two_symbol_table) = some (ct', hbt) ∧
      first ≠ second ∧
      (init_character_trees two_symbol_table).getD first .null ≠ .null ∧
      (init_character_trees two_symbol_table).getD second .null ≠ .null ∧
      ct'.length = (init_character_trees two_symbol_table).length ∧
      ct'.getD first .null
        = .mk 0 (((init_character_trees two_symbol_table).getD first .null).probability
              + ((init_character_trees two_symbol_table).getD second .null).probability)
            ((init_character_trees two_symbol_table).getD first .null)
            ((init_character_trees two_symbol_table).getD second .null) ∧
      ct'.getD second .null = .null ∧
      (∀ k, k ≠ first → k ≠ second →
        ct'.getD k .null = (init_character_trees two_symbol_table).getD k .null) ∧
      hbt = ct'.getD first .null :=
  ⟨by simp [init_character_trees],
    by unfold init_character_trees; rw [activeCount_init]; decide,
    C7_merge_step (init_character_trees two_symbol_table)
      (by simp [init_character_trees])
      (by unfold init_character_trees; rw [activeCount_init]; decide)⟩

/-- C8 (tree well-formedness): for every table of 128 probabilities the returned tree is
a full binary tree with exactly 128 leaves and 127 internal nodes, and its leaf symbols
are 0..127, each exactly once. -/
theorem C8_tree_well_formed (prob_table : List ℚ) (hlen : prob_table.length = MAX_ASCII) :
    ∃ tree, generate_huffman_tree prob_table = some tree ∧ Full tree ∧
      numLeaves tree = 128 ∧ numInternal tree = 127 ∧
      (leaves tree).Perm (List.range 128) := by
  obtain ⟨root, tbl, ht, -, hfull, -, -, hperm, -⟩ := pipeline_spec prob_table hlen
  have hn : numLeaves root = 128 := by
    rw [numLeaves_eq_length, hperm.length_eq]
    simp [MAX_ASCII]
  have hi := full_numLeaves root hfull
  exact ⟨root, ht, hfull, hn, by omega, hperm⟩

/-- Witness of C8 on the uniform table. -/
theorem C8_tree_well_formed_witness :
    (List.replicate 128 (1 / 128 : ℚ)).length = MAX_ASCII ∧
    ∃ tree, generate_huffman_tree (List.replicate 128 (1 / 128 : ℚ)) = some tree ∧
      Full tree ∧ numLeaves tree = 128 ∧ numInternal tree = 127 ∧
      (leaves tree).Perm (List.range 128) :=
  ⟨by simp [MAX_ASCII],
    C8_tree_well_formed (List.replicate 128 (1 / 128 : ℚ)) (by simp [MAX_ASCII])⟩

/-- C9 (weight invariant): for every table of 128 probabilities, every internal node of
the returned tree carries exactly the sum of the weights of its two children. -/
theorem C9_weight_invariant (prob_table : List ℚ) (hlen : prob_table.length = MAX_ASCII) :
    ∃ tree, generate_huffman_tree prob_table = some tree ∧ WeightOK tree := by
  obtain ⟨root, tbl, ht, -, -, hw, -⟩ := pipeline_spec prob_table hlen
  exact ⟨root, ht, hw⟩

/-- Witness of C9 on `two_symbol_table`. -/
theorem C9_weight_invariant_witness :
    two_symbol_table.length = MAX_ASCII ∧
    ∃ tree, generate_huffman_tree two_symbol_table = some tree ∧ WeightOK tree :=
  ⟨by simp [two_symbol_table, MAX_ASCII],
    C9_weight_invariant two_symbol_table (by simp [two_symbol_table, MAX_ASCII])⟩

/-- C10 (derivation equals the path definition): for every full binary tree with an
internal root and pairwise distinct leaf symbols in 0..127, `generate_huffman_table`
returns a table, and for every leaf it holds at the leaf's symbol exactly the
root-to-leaf path, `'0'` for each left branch and `'1'` for each right branch. -/
theorem C10_codes_are_paths (root : NODE) (hfull : Full root) (hroot : ¬ root.isLeaf)
    (hnd : (leaves root).Nodup) (hsym : ∀ c, c ∈ leaves root → c < MAX_ASCII) :
    ∃ codes, generate_huffman_table root = some codes ∧
      ∀ e, e ∈ paths root → codes.getD e.1 none = some e.2 := by
  obtain ⟨tbl, ht, -, -, hget⟩ := generate_huffman_table_full root hfull hroot hnd hsym
  exact ⟨tbl, ht, hget⟩

/-- Witness of C10 on `small_tree`. -/
theorem C10_codes_are_paths_witness :
    Full small_tree ∧ ¬ small_tree.isLeaf ∧ (leaves small_tree).Nodup ∧
    (∀ c, c ∈ leaves small_tree → c < MAX_ASCII) ∧
    ∃ codes, generate_huffman_table small_tree = some codes ∧
      ∀ e, e ∈ paths small_tree → codes.getD e.1 none = some e.2 :=
  ⟨by simp [small_tree, Full], by simp [small_tree, NODE.isLeaf],
    by simp [small_tree, leaves], by simp [small_tree, leaves, MAX_ASCII],
    C10_codes_are_paths small_tree (by simp [small_tree, Full])
      (by simp [small_tree, NODE.isLeaf]) (by simp [small_tree, leaves])
      (by simp [small_tree, leaves, MAX_ASCII])⟩

/-! ## The decoder's cursor -/

theorem null_not_mem_subtrees (root : NODE) : NODE.null ∉ subtrees root := by
  induction root with
  | null => simp [subtrees]
  | mk c p l r ihl ihr =>
    simp only [subtrees, List.mem_cons, List.mem_append, not_or]
    exact ⟨fun e => NODE.noConfusion e, ihl, ihr⟩

theorem mem_subtrees_self (t : NODE) (h : t ≠ .null) : t ∈ subtrees t := by
  cases t with
  | null => exact absurd rfl h
  | mk c p l r => exact List.mem_cons_self _ _

theorem mem_subtrees_trans (root : NODE) :
    ∀ t u, t ∈ subtrees root → u ∈ subtrees t → u ∈ subtrees root := by
  induction root with
  | null =>
    intro t u ht
    simp [subtrees] at ht
  | mk c p l r ihl ihr =>
    intro t u ht hu
    simp only [subtrees, List.mem_cons, List.mem_append] at ht ⊢
    rcases ht with rfl | ht | ht
    · simpa only [subtrees, List.mem_cons, List.mem_append] using hu
    · exact Or.inr (Or.inl (ihl t u ht hu))
    · exact Or.inr (Or.inr (ihr t u ht hu))

theorem full_of_mem_subtrees (root : NODE) :
    Full root → ∀ t, t ∈ subtrees root → Full t := by
  induction root with
  | null => intro h; exact h.elim
  | mk c p l r ihl ihr =>
    intro hfull t ht
    simp only [subtrees, List.mem_cons, List.mem_append] at ht
    rcases ht with rfl | ht | ht
    · exact hfull
    · rcases hfull with ⟨hl, -⟩ | ⟨hl, -⟩
      · rw [hl] at ht
        simp [subtrees] at ht
      · exact ihl hl t ht
    · rcases hfull with ⟨-, hr⟩ | ⟨-, hr⟩
      · rw [hr] at ht
        simp [subtrees] at ht
      · exact ihr hr t ht

/-- One step of the decoder from an internal node of a full tree: the step is defined,
the cursor ends at an internal node again, and a character other than `'0'` and `'1'`
changes nothing. -/
theorem decode_step_cursor (root cur : NODE) (out : List Nat) (bit : Char)
    (hfull : Full root) (hroot : ¬ root.isLeaf) (hcur : CursorOK root cur) :
    ∃ cur' out', decode_step root (cur, out) bit = some (cur', out') ∧ CursorOK root cur' ∧
      (bit ≠ '0' → bit ≠ '1' → cur' = cur ∧ out' = out) := by
  have hrootOK : CursorOK root root := ⟨mem_subtrees_self root (full_ne_null root hfull), hroot⟩
  obtain ⟨hmem, hnl⟩ := hcur
  have hfc := full_of_mem_subtrees root hfull cur hmem
  cases cur with
  | null => exact hfc.elim
  | mk c p l r =>
    have hnl2 : ¬ (l = .null ∧ r = .null) := hnl
    rcases hfc with h | ⟨hfl, hfr⟩
    · exact absurd h hnl2
    · have hlm : l ∈ subtrees root :=
        mem_subtrees_trans root _ l hmem
          (by simp only [subtrees, List.mem_cons, List.mem_append]
              exact Or.inr (Or.inl (mem_subtrees_self l (full_ne_null l hfl))))
      have hrm : r ∈ subtrees root :=
        mem_subtrees_trans root _ r hmem
          (by simp only [subtrees, List.mem_cons, List.mem_append]
              exact Or.inr (Or.inr (mem_subtrees_self r (full_ne_null r hfr))))
      by_cases h0 : bit = '0'
      · subst h0
        cases l with
        | null => exact hfl.elim
        | mk c2 p2 ll lr =>
          by_cases hl2 : ll = .null ∧ lr = .null
          · exact ⟨root, out ++ [c2], by simp [decode_step, hl2], hrootOK,
              fun h => absurd rfl h⟩
          · exact ⟨_, out, by simp [decode_step, hl2], ⟨hlm, hl2⟩, fun h => absurd rfl h⟩
      · by_cases h1 : bit = '1'
        · subst h1
          cases r with
          | null => exact hfr.elim
          | mk c2 p2 rl rr =>
            by_cases hr2 : rl = .null ∧ rr = .null
            · exact ⟨root, out ++ [c2], by simp [decode_step, hr2], hrootOK,
                fun _ h => absurd rfl h⟩
            · exact ⟨_, out, by simp [decode_step, hr2], ⟨hrm, hr2⟩,
                fun _ h => absurd rfl h⟩
        · exact ⟨_, out, by simp [decode_step, h0, h1, hnl2], ⟨hmem, hnl⟩,
            fun _ _ => ⟨rfl, rfl⟩⟩

/-- The decoding loop never fails from an internal node of a full tree, and it ends at an
internal node. -/
theorem decode_loop_cursor (root : NODE) (hfull : Full root) (hroot : ¬ root.isLeaf) :
    ∀ (bits : List Char) (st : NODE × List Nat), CursorOK root st.1 →
      ∃ st', decode_loop root st bits = some st' ∧ CursorOK root st'.1 := by
  intro bits
  induction bits with
  | nil => intro st h; exact ⟨st, rfl, h⟩
  | cons bit rest ih =>
    intro st h
    by_cases hb : bit.toNat = 255
    · exact ⟨st, by simp [decode_loop, hb], h⟩
    · obtain ⟨cur', out', hs, hc, -⟩ := decode_step_cursor root st.1 st.2 bit hfull hroot h
      obtain ⟨st', hl, hc'⟩ := ih (cur', out') hc
      refine ⟨st', ?_, hc'⟩
      rw [decode_loop, if_neg hb]
      have : decode_step root st bit = some (cur', out') := hs
      rw [this]
      exact hl

/-- Characters other than `'0'` and `'1'` can be removed from the input without changing
the result, as long as no character is the byte 255. -/
theorem decode_loop_filter (root : NODE) (hfull : Full root) (hroot : ¬ root.isLeaf) :
    ∀ (bits : List Char) (st : NODE × List Nat), CursorOK root st.1 →
      (∀ c, c ∈ bits → c.toNat ≠ 255) →
      decode_loop root st bits = decode_loop root st (bits.filter isBit) := by
  intro bits
  induction bits with
  | nil => intro st _ _; rfl
  | cons bit rest ih =>
    intro st h h255
    have hb : bit.toNat ≠ 255 := h255 bit (List.mem_cons_self _ _)
    have hrest : ∀ c, c ∈ rest → c.toNat ≠ 255 := fun c hc => h255 c (List.mem_cons_of_mem _ hc)
    obtain ⟨cur', out', hs, hc, hskip⟩ := decode_step_cursor root st.1 st.2 bit hfull hroot h
    have hs' : decode_step root st bit = some (cur', out') := hs
    by_cases hbit : isBit bit = true
    · rw [List.filter_cons_of_pos hbit, decode_loop, decode_loop, if_neg hb, if_neg hb, hs']
      exact ih (cur', out') hc hrest
    · rw [List.filter_cons_of_neg hbit, decode_loop, if_neg hb, hs']
      have h0 : bit ≠ '0' := by
        intro e; apply hbit; rw [e]; rfl
      have h1 : bit ≠ '1' := by
        intro e; apply hbit; rw [e]; rfl
      obtain ⟨e1, e2⟩ := hskip h0 h1
      have hst : (cur', out') = st := by rw [e1, e2]
      simp only
      rw [hst]
      exact ih st h hrest

/-- Reading a proper initial segment of the path of a leaf, from an internal node of a full
tree, emits nothing. -/
theorem decode_loop_partial (root t : NODE) :
    Full t → ¬ t.isLeaf → ∀ e, e ∈ paths t → ∀ (r : List Char), r <+: e.2 → r ≠ e.2 →
      ∀ out : List Nat, ∃ t', decode_loop root (t, out) r = some (t', out) := by
  induction t with
  | null => intro h; exact h.elim
  | mk c p l r ihl ihr =>
    intro hfull hleaf e he s hs hne out
    have hleaf2 : ¬ (l = .null ∧ r = .null) := hleaf
    cases s with
    | nil => exact ⟨_, rfl⟩
    | cons b s' =>
      rcases hfull with hfull | ⟨hfl, hfr⟩
      · exact absurd hfull hleaf2
      · unfold paths at he
        rw [if_neg hleaf2, List.mem_append, List.mem_map, List.mem_map] at he
        rcases he with ⟨x, hx, rfl⟩ | ⟨x, hx, rfl⟩
        · obtain ⟨hb, hs'⟩ := List.cons_prefix_cons.mp hs
          subst hb
          have hne' : s' ≠ x.2 := fun e => hne (by rw [e])
          cases l with
          | null => exact hfl.elim
          | mk c2 p2 ll lr =>
            by_cases hl2 : ll = .null ∧ lr = .null
            · have hx2 : x = (c2, []) := by simpa [paths, hl2] using hx
              subst hx2
              exact absurd (List.prefix_nil.mp hs') hne'
            · obtain ⟨t', ht'⟩ := ihl hfl hl2 x hx s' hs' hne' out
              refine ⟨t', ?_⟩
              simp only [decode_loop, decode_step]
              simpa [hl2] using ht'
        · obtain ⟨hb, hs'⟩ := List.cons_prefix_cons.mp hs
          subst hb
          have hne' : s' ≠ x.2 := fun e => hne (by rw [e])
          cases r with
          | null => exact hfr.elim
          | mk c2 p2 rl rr =>
            by_cases hr2 : rl = .null ∧ rr = .null
            · have hx2 : x = (c2, []) := by simpa [paths, hr2] using hx
              subst hx2
              exact absurd (List.prefix_nil.mp hs') hne'
            · obtain ⟨t', ht'⟩ := ihr hfr hr2 x hx s' hs' hne' out
              refine ⟨t', ?_⟩
              simp only [decode_loop, decode_step]
              simpa [hr2] using ht'

/-- Decoding the concatenated codes of `S` followed by further input: `S` is appended to
the output and the rest is decoded from the root. -/
theorem decode_loop_concatCodes_append (root : NODE) (tbl : List (Option (List Char)))
    (hfull : Full root) (hroot : ¬ root.isLeaf) (rest : List Char) :
    ∀ (S out : List Nat),
      (∀ b, b ∈ S → ∃ e, e ∈ paths root ∧ e.1 = b ∧ tbl.getD b none = some e.2) →
      decode_loop root (root, out) (concatCodes tbl S ++ rest)
        = decode_loop root (root, out ++ S) rest := by
  intro S
  induction S with
  | nil =>
    intro out _
    simp [concatCodes]
  | cons b bs ih =>
    intro out h
    obtain ⟨e, he, hb, hcode⟩ := h b (List.mem_cons_self _ _)
    have hc : codeOf tbl b = e.2 := by rw [codeOf, hcode]; rfl
    rw [concatCodes, hc, List.append_assoc, decode_loop_path root root hfull hroot e he out, hb,
      ih (out ++ [b]) (fun x hx => h x (List.mem_cons_of_mem _ hx))]
    simp

/-! ## Counting the rounds -/

theorem merge_loop_eq_rounds :
    ∀ (n : Nat) (st : List NODE × NODE), merge_loop (n + 1) st = rounds n st := by
  intro n
  induction n with
  | zero => intro st; rfl
  | succ m ih =>
    intro st
    rw [merge_loop, rounds]
    rcases merge_round st.1 with _ | st'
    · rfl
    · exact ih st'

/-- The first `k` rounds succeed while at least two trees remain before each of them, and
each round lowers the number of trees by one. -/
theorem rounds_inv (P : NODE → Prop)
    (hP : ∀ x y, x ≠ .null → y ≠ .null → P x → P y →
      P (.mk 0 (x.probability + y.probability) x y)) :
    ∀ (k n : Nat) (ct : List NODE) (hbt : NODE), ForestInv P ct n → k + 1 ≤ n →
      ∃ st', rounds k (ct, hbt) = some st' ∧ ForestInv P st'.1 (n - k) := by
  intro k
  induction k with
  | zero =>
    intro n ct hbt h _
    exact ⟨(ct, hbt), rfl, h⟩
  | succ j ih =>
    intro n ct hbt h hk
    obtain ⟨m, rfl⟩ : ∃ m, n = m + 2 := ⟨n - 2, by omega⟩
    obtain ⟨ct1, root1, a1, hr, hinv, -⟩ := merge_round_inv P hP ct m h
    obtain ⟨st', hs, hinv'⟩ := ih (m + 1) ct1 root1 hinv (by omega)
    refine ⟨st', ?_, ?_⟩
    · rw [rounds]
      simp only [hr]
      exact hs
    · have e : m + 2 - (j + 1) = m + 1 - j := by omega
      rw [e]
      exact hinv'

theorem getD_replicate_of_lt {α : Type} (n s : Nat) (x d : α) (h : s < n) :
    (List.replicate n x).getD s d = x := by
  rw [List.getD_eq_getElem _ _ (by rw [List.length_replicate]; exact h),
    List.getElem_replicate]

theorem leftChain_zero_chain : ∀ k, LeftChain (zero_chain k) := by
  intro k
  induction k with
  | zero => exact Or.inl ⟨rfl, rfl⟩
  | succ n ih => exact Or.inr ⟨⟨rfl, rfl⟩, ih⟩

theorem zero_chain_ne_null : ∀ k, zero_chain k ≠ .null := by
  intro k
  cases k <;> exact fun e => NODE.noConfusion e

theorem leaves_zero_chain : ∀ k, leaves (zero_chain k) = List.range (k + 1) := by
  intro k
  induction k with
  | zero => rfl
  | succ n ih =>
    have h : ¬ (zero_chain n = .null ∧ NODE.mk (n + 1) 0 .null .null = .null) :=
      fun e => zero_chain_ne_null n e.1
    rw [zero_chain, leaves, if_neg h, ih, List.range_succ (n := n + 1)]
    rfl

/-- The codes of the symbols 0 and 1 and the encoding of `[0, 1, 0]` with the table derived
from `two_symbol_tree`. -/
theorem two_symbol_tree_codes :
    (generate_huffman_table two_symbol_tree).map
        (fun codes => (codes.getD 0 none, codes.getD 1 none, encode codes [0, 1, 0]))
      = some (some ('0' :: List.replicate 63 '1'), some (List.replicate 64 '1'),
          some ('0' :: List.replicate 63 '1' ++ List.replicate 64 '1'
            ++ '0' :: List.replicate 63 '1')) := by
  decide!

/-- Every character of a path is `'0'` or `'1'`. -/
theorem paths_bits (t : NODE) :
    ∀ e, e ∈ paths t → ∀ c, c ∈ e.2 → c = '0' ∨ c = '1' := by
  induction t with
  | null =>
    intro e he
    simp [paths] at he
  | mk c p l r ihl ihr =>
    intro e he x hx
    unfold paths at he
    by_cases hleaf : l = .null ∧ r = .null
    · rw [if_pos hleaf, List.mem_singleton] at he
      rw [he] at hx
      simp at hx
    · rw [if_neg hleaf, List.mem_append, List.mem_map, List.mem_map] at he
      rcases he with ⟨y, hy, rfl⟩ | ⟨y, hy, rfl⟩
      · rcases List.mem_cons.mp hx with h | h
        · exact Or.inl h
        · exact ihl y hy x h
      · rcases List.mem_cons.mp hx with h | h
        · exact Or.inr h
        · exact ihr y hy x h

/-- In a tree with at least three leaves, two different leaves cannot both have a path of
length one: a third path would start with one of them. -/
theorem not_both_single_bit (root : NODE) (e1 e2 e3 : Nat × List Char)
    (h1 : e1 ∈ paths root) (h2 : e2 ∈ paths root) (h3 : e3 ∈ paths root)
    (h12 : e1 ≠ e2) (h13 : e1 ≠ e3) (h23 : e2 ≠ e3) (hne : e3.2 ≠ []) :
    ¬ (e1.2.length = 1 ∧ e2.2.length = 1) := by
  rintro ⟨hl1, hl2⟩
  obtain ⟨b1, hb1⟩ := List.length_eq_one.mp hl1
  obtain ⟨b2, hb2⟩ := List.length_eq_one.mp hl2
  obtain ⟨b3, rest, hb3⟩ := List.exists_cons_of_ne_nil hne
  have hbit1 := paths_bits root e1 h1 b1 (by rw [hb1]; exact List.mem_singleton.mpr rfl)
  have hbit2 := paths_bits root e2 h2 b2 (by rw [hb2]; exact List.mem_singleton.mpr rfl)
  have hbit3 := paths_bits root e3 h3 b3 (by rw [hb3]; exact List.mem_cons_self _ _)
  have hp13 : b1 ≠ b3 := by
    intro e
    apply h13
    apply paths_no_initial_segment root e1 e3 h1 h3
    rw [hb1, hb3, e]
    exact List.cons_prefix_cons.mpr ⟨rfl, List.nil_prefix⟩
  have hp23 : b2 ≠ b3 := by
    intro e
    apply h23
    apply paths_no_initial_segment root e2 e3 h2 h3
    rw [hb2, hb3, e]
    exact List.cons_prefix_cons.mpr ⟨rfl, List.nil_prefix⟩
  have hp12 : b1 ≠ b2 := by
    intro e
    apply h12
    apply paths_no_initial_segment root e1 e2 h1 h2
    rw [hb1, hb2, e]
  rcases hbit1 with rfl | rfl <;> rcases hbit2 with rfl | rfl <;>
    rcases hbit3 with rfl | rfl <;> simp at hp12 hp13 hp23

/-! ## What the scan selects as `lowestIndex2` -/

theorem scanSecond_step (ct : List NODE) (k : Nat) (s : Option Nat × Option Nat)
    (h : ScanInv ct k s) (h2 : ∀ a b, s = (some a, some b) → ScanSecond ct k a b) :
    ∀ a b, scan_step ct s k = (some a, some b) → ScanSecond ct (k + 1) a b := by
  intro a b he
  unfold scan_step at he
  by_cases hk : ct.getD k .null = .null
  · rw [if_pos hk] at he
    rcases h2 a b he with hE | ⟨hG1, hG2⟩
    · exact Or.inl hE
    · refine Or.inr ⟨hG1, ?_⟩
      intro j hj hact hlt
      rcases Nat.lt_succ_iff_lt_or_eq.mp hj with h3 | h3
      · exact hG2 j h3 hact hlt
      · rw [h3] at hact
        exact absurd hk hact
  · rw [if_neg hk] at he
    rcases s with ⟨_ | a0, _ | b0⟩
    · simp at he
    · exact h.elim
    · obtain ⟨h1, hact0, h3⟩ := h
      have honly : ∀ j, j < k + 1 → ct.getD j .null ≠ .null → j = a0 ∨ j = k := by
        intro j hj hact
        by_cases hja : j = a0
        · exact Or.inl hja
        · right
          by_contra hne
          exact hact (h3 j (by omega) hja)
      dsimp only at he
      split_ifs at he with hlt
      · simp only [Prod.mk.injEq, Option.some.injEq] at he
        obtain ⟨rfl, rfl⟩ := he
        refine Or.inr ⟨hlt, ?_⟩
        intro j hj hact hlt2
        rcases honly j hj hact with e | e
        · rw [e]
          exact ⟨le_refl _, fun _ => le_refl _⟩
        · rw [e] at hlt2
          exact absurd hlt2 (lt_irrefl _)
      · simp only [Prod.mk.injEq, Option.some.injEq] at he
        obtain ⟨rfl, rfl⟩ := he
        rcases eq_or_lt_of_le (not_lt.mp hlt) with heq | hlt2
        · exact Or.inl ⟨heq.symm, h1, fun j hj hja => h3 j hj hja⟩
        · refine Or.inr ⟨hlt2, ?_⟩
          intro j hj hact hlt3
          rcases honly j hj hact with e | e
          · rw [e] at hlt3
            exact absurd hlt3 (lt_irrefl _)
          · rw [e]
            exact ⟨le_refl _, fun _ => le_refl _⟩
    · have hsec := h2 a0 b0 rfl
      obtain ⟨h1, h2', h3, h4, h5, h6, h7⟩ := h
      dsimp only at he
      split_ifs at he with hlt hbet
      · simp only [Prod.mk.injEq, Option.some.injEq] at he
        obtain ⟨rfl, rfl⟩ := he
        refine Or.inr ⟨hlt, ?_⟩
        intro j hj hact hlt2
        rcases Nat.lt_succ_iff_lt_or_eq.mp hj with h8 | h8
        · exact h7 j h8 hact
        · rw [h8] at hlt2
          exact absurd hlt2 (lt_irrefl _)
      · simp only [Prod.mk.injEq, Option.some.injEq] at he
        obtain ⟨rfl, rfl⟩ := he
        refine Or.inr ⟨hbet.2, ?_⟩
        intro j hj hact hlt2
        rcases Nat.lt_succ_iff_lt_or_eq.mp hj with h8 | h8
        · rcases hsec with ⟨hE, -⟩ | ⟨-, hG⟩
          · rw [hE] at hbet
            exact absurd hbet.1 (not_lt.mpr (le_of_lt hbet.2))
          · have := (hG j h8 hact hlt2).1
            have hlt3 := lt_of_lt_of_le hbet.1 this
            exact ⟨le_of_lt hlt3, fun e => absurd hlt3 (by rw [e]; exact lt_irrefl _)⟩
        · rw [h8]
          exact ⟨le_refl _, fun _ => le_refl _⟩
      · simp only [Prod.mk.injEq, Option.some.injEq] at he
        obtain ⟨rfl, rfl⟩ := he
        rcases hsec with hE | ⟨hG1, hG2⟩
        · exact Or.inl hE
        · refine Or.inr ⟨hG1, ?_⟩
          intro j hj hact hlt2
          rcases Nat.lt_succ_iff_lt_or_eq.mp hj with h8 | h8
          · exact hG2 j h8 hact hlt2
          · rw [h8] at hlt2 ⊢
            have hge : (ct.getD b0 .null).probability ≤ (ct.getD k .null).probability := by
              by_contra hc
              exact hbet ⟨not_le.mp hc, hlt2⟩
            exact ⟨hge, fun _ => by omega⟩

theorem scanSecond_range (ct : List NODE) (k : Nat) :
    ∀ a b, (List.range k).foldl (scan_step ct) (none, none) = (some a, some b) →
      ScanSecond ct k a b := by
  induction k with
  | zero =>
    intro a b he
    simp at he
  | succ n ih =>
    intro a b he
    rw [List.range_succ, List.foldl_append] at he
    exact scanSecond_step ct n _ (scanInv_range ct n) ih a b he

/-- With two distinct active slots the scan ends with both indices set; they satisfy the
scan invariant and the characterisation of `lowestIndex2`. -/
theorem scan_some_second (ct : List NODE) (h2 : 2 ≤ activeCount ct)
    (hlen : ct.length = MAX_ASCII) :
    ∃ a b, scan ct = (some a, some b) ∧ ScanInv ct MAX_ASCII (some a, some b) ∧
      ScanSecond ct MAX_ASCII a b := by
  obtain ⟨i, j, hi, hj, hij, hai, haj⟩ := exists_two_active ct h2
  rw [hlen] at hi hj
  obtain ⟨a, b, hs, hinv⟩ := scan_some ct i j hi hj hij hai haj
  exact ⟨a, b, hs, hinv, scanSecond_range ct MAX_ASCII a b hs⟩

/-! ## Invariants of the whole array -/

/-- The array after a merge of the slots `a` and `b`, slot by slot. -/
theorem getD_merged (ct : List NODE) (a b : Nat) (N : NODE) (ha : a < ct.length)
    (j : Nat) :
    ((ct.set a N).set b .null).getD j .null
      = if j = b then .null else if j = a then N else ct.getD j .null := by
  by_cases hjb : j = b
  · rw [if_pos hjb, hjb]
    by_cases hbl : b < ct.length
    · exact getD_set_eq _ b _ _ (by simpa using hbl)
    · exact List.getD_eq_default _ _ (by simp; omega)
  · rw [if_neg hjb, getD_set_ne _ b j _ _ (Ne.symm hjb)]
    by_cases hja : j = a
    · rw [if_pos hja, hja]
      exact getD_set_eq _ a _ _ ha
    · rw [if_neg hja, getD_set_ne _ a j _ _ (Ne.symm hja)]

theorem lt_length_of_getD_ne_null (ct : List NODE) (j : Nat)
    (h : ct.getD j .null ≠ .null) : j < ct.length := by
  by_contra hge
  exact h (List.getD_eq_default _ _ (by omega))

/-- A property of the array that every merge round keeps holds when the loop ends. -/
theorem merge_loop_state_inv (I : List NODE → Prop)
    (hstep : ∀ ct a b, ct.length = MAX_ASCII → 2 ≤ activeCount ct →
      scan ct = (some a, some b) → ScanInv ct MAX_ASCII (some a, some b) →
      ScanSecond ct MAX_ASCII a b → I ct →
      I ((ct.set a (.mk 0 ((ct.getD a .null).probability + (ct.getD b .null).probability)
          (ct.getD a .null) (ct.getD b .null))).set b .null)) :
    ∀ (n : Nat) (ct : List NODE) (hbt : NODE) (st' : List NODE × NODE),
      ForestInv (fun _ => True) ct (n + 2) → I ct →
      merge_loop (n + 2) (ct, hbt) = some st' → I st'.1 := by
  intro n
  induction n with
  | zero =>
    intro ct hbt st' hF hI hl
    obtain ⟨a, b, hs, hinv, hsec⟩ := scan_some_second ct (by rw [hF.2.1]) hF.1
    have hr := merge_round_eq ct a b hF.1 hs hinv
    rw [merge_loop] at hl
    simp only [hr] at hl
    have := Option.some.inj hl
    rw [← this]
    exact hstep ct a b hF.1 (by rw [hF.2.1]) hs hinv hsec hI
  | succ m ih =>
    intro ct hbt st' hF hI hl
    obtain ⟨a, b, hs, hinv, hsec⟩ := scan_some_second ct (by rw [hF.2.1]; omega) hF.1
    have hr := merge_round_eq ct a b hF.1 hs hinv
    obtain ⟨ct1, root1, a1, hr1, hF1, -⟩ :=
      merge_round_inv (fun _ => True) (fun _ _ _ _ _ _ => trivial) ct (m + 1) hF
    have he := Option.some.inj (hr.symm.trans hr1)
    simp only [Prod.mk.injEq] at he
    rw [merge_loop] at hl
    simp only [hr] at hl
    refine ih _ _ st' ?_ ?_ hl
    · rw [he.1]
      exact hF1
    · exact hstep ct a b hF.1 (by rw [hF.2.1]; omega) hs hinv hsec hI

/-! ## Maximally skewed trees -/

theorem isLeaf_facts (t : NODE) (h : t.isLeaf) :
    t ≠ .null ∧ Full t ∧ height t = 0 ∧ numLeaves t = 1 := by
  cases t with
  | null => exact h.elim
  | mk c p l r =>
    have h2 : l = .null ∧ r = .null := h
    exact ⟨fun e => NODE.noConfusion e, Or.inl h2, by simp [height, h2],
      by simp [numLeaves, h2]⟩

theorem caterpillar_leaf (t : NODE) (h : t.isLeaf) : Caterpillar t := by
  obtain ⟨-, hf, hh, hn⟩ := isLeaf_facts t h
  exact ⟨hf, by rw [hh, hn]⟩

theorem caterpillar_merge_left (c : Nat) (p : ℚ) (x y : NODE) (hx : Caterpillar x)
    (hy : y.isLeaf) : Caterpillar (.mk c p x y) := by
  obtain ⟨-, hfy, hhy, hny⟩ := isLeaf_facts y hy
  have hxn := full_ne_null x hx.1
  have hnl : ¬ (x = .null ∧ y = .null) := fun e => hxn e.1
  refine ⟨Or.inr ⟨hx.1, hfy⟩, ?_⟩
  rw [height, numLeaves, if_neg hnl, if_neg hnl, hhy, hny, Nat.max_eq_left (Nat.zero_le _)]
  have := hx.2
  omega

theorem caterpillar_merge_right (c : Nat) (p : ℚ) (x y : NODE) (hx : x.isLeaf)
    (hy : Caterpillar y) : Caterpillar (.mk c p x y) := by
  obtain ⟨hxn, hfx, hhx, hnx⟩ := isLeaf_facts x hx
  have hnl : ¬ (x = .null ∧ y = .null) := fun e => hxn e.1
  refine ⟨Or.inr ⟨hfx, hy.1⟩, ?_⟩
  rw [height, numLeaves, if_neg hnl, if_neg hnl, hhx, hnx, Nat.max_eq_right (Nat.zero_le _)]
  have := hy.2
  omega

theorem skewNeg_step (x : ℚ) (k : Nat) (hx : x < 0) (ct : List NODE) (a b : Nat)
    (hlen : ct.length = MAX_ASCII) (hinv : ScanInv ct MAX_ASCII (some a, some b))
    (hI : SkewNeg x k ct) :
    SkewNeg x k ((ct.set a (.mk 0
      ((ct.getD a .null).probability + (ct.getD b .null).probability)
      (ct.getD a .null) (ct.getD b .null))).set b .null) := by
  obtain ⟨ha, hb, hab, hacta, hactb, -, hmin⟩ := hinv
  obtain ⟨hcat, hwk, hothers⟩ := hI
  have hkact : ct.getD k .null ≠ .null := full_ne_null _ hcat.1
  have hkl : k < MAX_ASCII := by
    rw [← hlen]
    exact lt_length_of_getD_ne_null ct k hkact
  have hak : a = k := by
    by_contra hne
    rcases hothers a hne with h | ⟨-, h⟩
    · exact hacta h
    · have := (hmin k hkl hkact).1
      rw [h, hwk] at this
      exact absurd this (not_le.mpr hx)
  subst hak
  have hbl : (ct.getD b .null).isLeaf ∧ (ct.getD b .null).probability = 0 := by
    rcases hothers b (Ne.symm hab) with h | h
    · exact absurd h hactb
    · exact h
  have hget := getD_merged ct a b (.mk 0
      ((ct.getD a .null).probability + (ct.getD b .null).probability)
      (ct.getD a .null) (ct.getD b .null)) (by omega)
  refine ⟨?_, ?_, ?_⟩
  · rw [hget a, if_neg hab, if_pos rfl]
    exact caterpillar_merge_left _ _ _ _ hcat hbl.1
  · rw [hget a, if_neg hab, if_pos rfl]
    show (ct.getD a .null).probability + (ct.getD b .null).probability = x
    rw [hbl.2, hwk, add_zero]
  · intro j hj
    rw [hget j, if_neg hj]
    by_cases hjb : j = b
    · rw [if_pos hjb]
      exact Or.inl rfl
    · rw [if_neg hjb]
      exact hothers j hj

theorem skewPos_step (x : ℚ) (hx : 0 < x) (ct : List NODE) (a b : Nat)
    (hlen : ct.length = MAX_ASCII) (h2 : 2 ≤ activeCount ct)
    (hinv : ScanInv ct MAX_ASCII (some a, some b)) (hsec : ScanSecond ct MAX_ASCII a b)
    (hI : SkewPos x ct) :
    SkewPos x ((ct.set a (.mk 0
      ((ct.getD a .null).probability + (ct.getD b .null).probability)
      (ct.getD a .null) (ct.getD b .null))).set b .null) := by
  obtain ⟨ha, hb, hab, hacta, hactb, -, hmin⟩ := hinv
  obtain ⟨c, hc, hnull, hcat, hleaf, hw, huniq⟩ := hI
  have hcact : ct.getD c .null ≠ .null := full_ne_null _ hcat.1
  have hge : ∀ j, ct.getD j .null ≠ .null → c ≤ j := by
    intro j hj
    by_contra hlt
    exact hj (hnull j (by omega))
  have hlt128 : ∀ j, ct.getD j .null ≠ .null → j < MAX_ASCII := by
    intro j hj
    rw [← hlen]
    exact lt_length_of_getD_ne_null ct j hj
  have hget := getD_merged ct a b (.mk 0
      ((ct.getD a .null).probability + (ct.getD b .null).probability)
      (ct.getD a .null) (ct.getD b .null)) (by omega)
  have hpa : (ct.getD a .null).probability = 0 ∨ (ct.getD a .null).probability = x := hw a hacta
  rcases hw c hcact with hc0 | hcx
  · -- the first tree weighs 0: it is `first`
    have hpa0 : (ct.getD a .null).probability = 0 := by
      rcases hpa with h | h
      · exact h
      · have := (hmin c hc hcact).1
        rw [h, hc0] at this
        exact absurd this (not_le.mpr hx)
    have hac : a = c := by
      have h1 := (hmin c hc hcact).2 (by rw [hc0, hpa0])
      have h2 := hge a hacta
      omega
    subst hac
    have hbgt : a < b := by
      have := hge b hactb
      omega
    have hbleaf : (ct.getD b .null).isLeaf := by
      rcases hleaf b hbgt with h | h
      · exact absurd h hactb
      · exact h
    refine ⟨a, ha, ?_, ?_, ?_, ?_, ?_⟩
    · intro j hj
      rw [hget j, if_neg (by omega), if_neg (by omega)]
      exact hnull j hj
    · rw [hget a, if_neg hab, if_pos rfl]
      exact caterpillar_merge_left _ _ _ _ hcat hbleaf
    · intro j hj
      rw [hget j]
      by_cases hjb : j = b
      · rw [if_pos hjb]
        exact Or.inl rfl
      · rw [if_neg hjb, if_neg (by omega)]
        exact hleaf j hj
    · intro j hj
      rw [hget j] at hj ⊢
      by_cases hjb : j = b
      · rw [if_pos hjb] at hj
        exact absurd rfl hj
      · rw [if_neg hjb] at hj ⊢
        by_cases hja : j = a
        · rw [if_pos hja]
          show (ct.getD a .null).probability + (ct.getD b .null).probability = 0 ∨
            (ct.getD a .null).probability + (ct.getD b .null).probability = x
          rw [hpa0, zero_add]
          exact hw b hactb
        · rw [if_neg hja] at hj ⊢
          exact hw j hj
    · have key : ∀ j, j ≠ a →
          ((ct.set a (.mk 0 ((ct.getD a .null).probability + (ct.getD b .null).probability)
            (ct.getD a .null) (ct.getD b .null))).set b .null).getD j .null ≠ .null →
          (((ct.set a (.mk 0 ((ct.getD a .null).probability + (ct.getD b .null).probability)
            (ct.getD a .null) (ct.getD b .null))).set b .null).getD j .null).probability = x →
          j ≠ b ∧ ct.getD j .null ≠ .null ∧ (ct.getD j .null).probability = x := by
        intro j hja hj hjx
        rw [hget j] at hj hjx
        by_cases hjb : j = b
        · rw [if_pos hjb] at hj
          exact absurd rfl hj
        · rw [if_neg hjb, if_neg hja] at hj hjx
          exact ⟨hjb, hj, hjx⟩
      have hnew : (((ct.set a (.mk 0
            ((ct.getD a .null).probability + (ct.getD b .null).probability)
            (ct.getD a .null) (ct.getD b .null))).set b .null).getD a .null).probability = x →
          (ct.getD b .null).probability = x := by
        intro h
        rw [hget a, if_neg hab, if_pos rfl] at h
        have h' : (ct.getD a .null).probability + (ct.getD b .null).probability = x := h
        rw [hpa0, zero_add] at h'
        exact h'
      intro i j hi hj hix hjx
      by_cases hia : i = a
      · by_cases hja : j = a
        · rw [hia, hja]
        · obtain ⟨hjb, hj', hjx'⟩ := key j hja hj hjx
          rw [hia] at hix
          exact absurd (huniq j b hj' hactb hjx' (hnew hix)) hjb
      · obtain ⟨hib, hi', hix'⟩ := key i hia hi hix
        by_cases hja : j = a
        · rw [hja] at hjx
          exact absurd (huniq i b hi' hactb hix' (hnew hjx)) hib
        · obtain ⟨-, hj', hjx'⟩ := key j hja hj hjx
          exact huniq i j hi' hj' hix' hjx'
  · -- the first tree weighs `x`: `first` is the first single leaf, `second` is the first tree
    obtain ⟨i0, j0, hi0, hj0, hij0, hai0, haj0⟩ := exists_two_active ct h2
    have hother : ∃ j, j ≠ c ∧ ct.getD j .null ≠ .null := by
      by_cases h : i0 = c
      · exact ⟨j0, fun e => hij0 (h.trans e.symm), haj0⟩
      · exact ⟨i0, h, hai0⟩
    obtain ⟨j1, hj1c, hj1⟩ := hother
    have hj1w : (ct.getD j1 .null).probability = 0 := by
      rcases hw j1 hj1 with h | h
      · exact h
      · exact absurd (huniq j1 c hj1 hcact h hcx) hj1c
    have hpa0 : (ct.getD a .null).probability = 0 := by
      rcases hpa with h | h
      · exact h
      · have := (hmin j1 (hlt128 j1 hj1) hj1).1
        rw [h, hj1w] at this
        exact absurd this (not_le.mpr hx)
    have hac : a ≠ c := by
      intro e
      rw [e, hcx] at hpa0
      exact absurd hpa0 (ne_of_gt hx)
    have hca : c < a := by
      have := hge a hacta
      omega
    have hbc : b = c := by
      rcases hsec with ⟨-, hab', hE⟩ | ⟨hG, -⟩
      · exact absurd (hE c (by omega) (Ne.symm hac)) hcact
      · rw [hpa0] at hG
        rcases hw b hactb with h | h
        · rw [h] at hG
          exact absurd hG (lt_irrefl _)
        · exact huniq b c hactb hcact h hcx
    subst hbc
    have haleaf : (ct.getD a .null).isLeaf := by
      rcases hleaf a hca with h | h
      · exact absurd h hacta
      · exact h
    refine ⟨a, ha, ?_, ?_, ?_, ?_, ?_⟩
    · intro j hj
      rw [hget j]
      by_cases hjb : j = b
      · rw [if_pos hjb]
      · rw [if_neg hjb, if_neg (by omega)]
        by_contra hjact
        have hjw : (ct.getD j .null).probability = 0 := by
          rcases hw j hjact with h | h
          · exact h
          · exact absurd (huniq j b hjact hcact h hcx) hjb
        have := (hmin j (hlt128 j hjact) hjact).2 (by rw [hjw, hpa0])
        omega
    · rw [hget a, if_neg hab, if_pos rfl]
      exact caterpillar_merge_right _ _ _ _ haleaf hcat
    · intro j hj
      rw [hget j, if_neg (by omega), if_neg (by omega)]
      exact hleaf j (by omega)
    · intro j hj
      rw [hget j] at hj ⊢
      by_cases hjb : j = b
      · rw [if_pos hjb] at hj
        exact absurd rfl hj
      · rw [if_neg hjb] at hj ⊢
        by_cases hja : j = a
        · rw [if_pos hja]
          show (ct.getD a .null).probability + (ct.getD b .null).probability = 0 ∨
            (ct.getD a .null).probability + (ct.getD b .null).probability = x
          rw [hpa0, zero_add]
          exact Or.inr hcx
        · rw [if_neg hja] at hj ⊢
          exact hw j hj
    · have key : ∀ j, j ≠ a →
          ((ct.set a (.mk 0 ((ct.getD a .null).probability + (ct.getD b .null).probability)
            (ct.getD a .null) (ct.getD b .null))).set b .null).getD j .null ≠ .null →
          (((ct.set a (.mk 0 ((ct.getD a .null).probability + (ct.getD b .null).probability)
            (ct.getD a .null) (ct.getD b .null))).set b .null).getD j .null).probability = x →
          False := by
        intro j hja hj hjx
        rw [hget j] at hj hjx
        by_cases hjb : j = b
        · rw [if_pos hjb] at hj
          exact absurd rfl hj
        · rw [if_neg hjb, if_neg hja] at hj hjx
          exact hjb (huniq j b hj hcact hjx hcx)
      intro i j hi hj hix hjx
      by_cases hia : i = a
      · by_cases hja : j = a
        · rw [hia, hja]
        · exact (key j hja hj hjx).elim
      · exact (key i hia hi hix).elim

theorem init_getD_lt (prob_table : List ℚ) (j : Nat) (hj : j < MAX_ASCII) :
    (init_character_trees prob_table).getD j .null
      = .mk j (prob_table.getD j 0) .null .null := by
  unfold init_character_trees
  rw [List.getD_eq_getElem _ _ (by simpa using hj)]
  simp

theorem init_active_lt (prob_table : List ℚ) (j : Nat)
    (h : (init_character_trees prob_table).getD j .null ≠ .null) : j < MAX_ASCII := by
  have := lt_length_of_getD_ne_null _ j h
  simpa [init_character_trees] using this

theorem skewNeg_init (prob_table : List ℚ) (k : Nat) (hk : k < MAX_ASCII)
    (hz : ∀ s, s < MAX_ASCII → s ≠ k → prob_table.getD s 0 = 0) :
    SkewNeg (prob_table.getD k 0) k (init_character_trees prob_table) := by
  refine ⟨?_, ?_, ?_⟩
  · rw [init_getD_lt _ k hk]
    exact caterpillar_leaf _ ⟨rfl, rfl⟩
  · rw [init_getD_lt _ k hk]
    rfl
  · intro j hj
    by_cases hjl : j < MAX_ASCII
    · right
      rw [init_getD_lt _ j hjl]
      exact ⟨⟨rfl, rfl⟩, hz j hjl hj⟩
    · left
      by_contra hact
      exact hjl (init_active_lt _ j hact)

theorem skewPos_init (prob_table : List ℚ) (k : Nat)
    (hx : prob_table.getD k 0 ≠ 0)
    (hz : ∀ s, s < MAX_ASCII → s ≠ k → prob_table.getD s 0 = 0) :
    SkewPos (prob_table.getD k 0) (init_character_trees prob_table) := by
  have hw : ∀ j, j < MAX_ASCII →
      ((init_character_trees prob_table).getD j .null).probability = prob_table.getD j 0 := by
    intro j hj
    rw [init_getD_lt _ j hj]
    rfl
  refine ⟨0, by decide, fun j hj => absurd hj (Nat.not_lt_zero j), ?_, ?_, ?_, ?_⟩
  · rw [init_getD_lt _ 0 (by decide)]
    exact caterpillar_leaf _ ⟨rfl, rfl⟩
  · intro j _
    by_cases hjl : j < MAX_ASCII
    · right
      rw [init_getD_lt _ j hjl]
      exact ⟨rfl, rfl⟩
    · left
      by_contra hact
      exact hjl (init_active_lt _ j hact)
  · intro j hj
    have hjl := init_active_lt _ j hj
    rw [hw j hjl]
    by_cases hjk : j = k
    · right; rw [hjk]
    · left; exact hz j hjl hjk
  · intro i j hi hj hix hjx
    have hil := init_active_lt _ i hi
    have hjl := init_active_lt _ j hj
    rw [hw i hil] at hix
    rw [hw j hjl] at hjx
    have hik : i = k := by
      by_contra hne
      rw [hz i hil hne] at hix
      exact hx hix.symm
    have hjk : j = k := by
      by_contra hne
      rw [hz j hjl hne] at hjx
      exact hx hjx.symm
    rw [hik, hjk]

theorem skewPos_caterpillar (x : ℚ) (ct : List NODE) (h : SkewPos x ct) (j : Nat)
    (hj : ct.getD j .null ≠ .null) : Caterpillar (ct.getD j .null) := by
  obtain ⟨c, -, hnull, hcat, hleaf, -⟩ := h
  rcases Nat.lt_trichotomy j c with h1 | h1 | h1
  · exact absurd (hnull j h1) hj
  · rw [h1]; exact hcat
  · rcases hleaf j h1 with h2 | h2
    · exact absurd h2 hj
    · exact caterpillar_leaf _ h2

theorem skewNeg_caterpillar (x : ℚ) (k : Nat) (ct : List NODE) (h : SkewNeg x k ct) (j : Nat)
    (hj : ct.getD j .null ≠ .null) : Caterpillar (ct.getD j .null) := by
  obtain ⟨hcat, -, hothers⟩ := h
  by_cases hjk : j = k
  · rw [hjk]; exact hcat
  · rcases hothers j hjk with h2 | h2
    · exact absurd h2 hj
    · exact caterpillar_leaf _ h2.1

/-- The tree built from a table with a single non-zero entry is maximally skewed. -/
theorem single_nonzero_caterpillar (prob_table : List ℚ) (k : Nat)
    (hlen : prob_table.length = MAX_ASCII) (hk : k < MAX_ASCII)
    (hx : prob_table.getD k 0 ≠ 0)
    (hz : ∀ s, s < MAX_ASCII → s ≠ k → prob_table.getD s 0 = 0)
    (ct : List NODE) (root : NODE) (a : Nat)
    (hst : generate_huffman_tree_state prob_table = some (ct, root))
    (hget : ct.getD a .null = root) (hroot : root ≠ .null) : Caterpillar root := by
  unfold generate_huffman_tree_state at hst
  rw [if_neg (by omega)] at hst
  have hF : ForestInv (fun _ => True) (init_character_trees prob_table) (126 + 2) :=
    forestInv_init (fun _ => True) prob_table (fun _ _ => trivial)
  rcases lt_or_gt_of_ne hx with hneg | hpos
  · have hI := merge_loop_state_inv (SkewNeg (prob_table.getD k 0) k)
      (fun ct a b hl _ _ hinv _ hI => skewNeg_step _ k hneg ct a b hl hinv hI)
      126 _ .null (ct, root) hF (skewNeg_init prob_table k hk hz) hst
    rw [← hget]
    exact skewNeg_caterpillar _ k ct hI a (by rw [hget]; exact hroot)
  · have hI := merge_loop_state_inv (SkewPos (prob_table.getD k 0))
      (fun ct a b hl h2 _ hinv hsec hI => skewPos_step _ hpos ct a b hl h2 hinv hsec hI)
      126 _ .null (ct, root) hF (skewPos_init prob_table k hx hz) hst
    rw [← hget]
    exact skewPos_caterpillar _ ct hI a (by rw [hget]; exact hroot)

/-! ## Heights and code lengths -/

theorem path_length_le_height (t : NODE) :
    ∀ e, e ∈ paths t → e.2.length ≤ height t := by
  induction t with
  | null =>
    intro e he
    simp [paths] at he
  | mk c p l r ihl ihr =>
    intro e he
    unfold paths at he
    unfold height
    by_cases hleaf : l = .null ∧ r = .null
    · rw [if_pos hleaf, List.mem_singleton] at he
      rw [he]
      exact Nat.zero_le _
    · rw [if_neg hleaf, List.mem_append, List.mem_map, List.mem_map] at he
      rw [if_neg hleaf]
      rcases he with ⟨x, hx, rfl⟩ | ⟨x, hx, rfl⟩
      · have := ihl x hx
        have := le_max_left (height l) (height r)
        simp only [List.length_cons]
        omega
      · have := ihr x hx
        have := le_max_right (height l) (height r)
        simp only [List.length_cons]
        omega

theorem exists_path_of_height (t : NODE) :
    Full t → ∃ e, e ∈ paths t ∧ e.2.length = height t := by
  induction t with
  | null => intro h; exact h.elim
  | mk c p l r ihl ihr =>
    intro hfull
    unfold paths height
    by_cases hleaf : l = .null ∧ r = .null
    · rw [if_pos hleaf, if_pos hleaf]
      exact ⟨(c, []), List.mem_singleton.mpr rfl, rfl⟩
    · rw [if_neg hleaf, if_neg hleaf]
      rcases hfull with h | ⟨hfl, hfr⟩
      · exact absurd h hleaf
      · rcases Nat.le_total (height l) (height r) with h3 | h3
        · obtain ⟨e, he, hlen⟩ := ihr hfr
          refine ⟨(e.1, '1' :: e.2), ?_, ?_⟩
          · exact List.mem_append_right _ (List.mem_map_of_mem _ he)
          · rw [Nat.max_eq_right h3]
            simp only [List.length_cons]
            omega
        · obtain ⟨e, he, hlen⟩ := ihl hfl
          refine ⟨(e.1, '0' :: e.2), ?_, ?_⟩
          · exact List.mem_append_left _ (List.mem_map_of_mem _ he)
          · rw [Nat.max_eq_left h3]
            simp only [List.length_cons]
            omega

theorem single_symbol_table_zero :
    ∀ s, s < MAX_ASCII → s ≠ 0 → single_symbol_table.getD s 0 = 0 := by
  intro s hs hs0
  obtain ⟨m, rfl⟩ : ∃ m, s = m + 1 := ⟨s - 1, by omega⟩
  rw [single_symbol_table, List.getD_cons_succ]
  exact getD_replicate_of_lt 127 m 0 0 (by unfold MAX_ASCII at hs; omega)

theorem single_symbol_table_length : single_symbol_table.length = MAX_ASCII := by
  rw [single_symbol_table, List.length_cons, List.length_replicate]
  rfl

theorem single_symbol_table_head : single_symbol_table.getD 0 0 ≠ 0 := by
  rw [single_symbol_table, List.getD_cons_zero]
  exact one_ne_zero

/-! ## The claims, continued -/

/-- C11 (encoder output): for every code table whose 128 slots hold a string and every
input with all bytes in 0..127, `encode` writes exactly the concatenation, in input order,
of the table entries of the input bytes, and the length of the output is the sum of the
lengths of these entries. -/
theorem C11_encoder_output (codes : List (Option (List Char))) (S : List Nat)
    (hcodes : ∀ s, s < MAX_ASCII → codes.getD s none ≠ none)
    (hS : ∀ b, b ∈ S → b < MAX_ASCII) :
    encode codes S = some (concatCodes codes S) ∧
      concatCodes codes S = (S.map (codeOf codes)).flatten ∧
      (concatCodes codes S).length = (S.map (fun b => (codeOf codes b).length)).sum := by
  refine ⟨encode_eq_concatCodes codes S (fun b hb => ⟨hS b hb, hcodes b (hS b hb)⟩), ?_, ?_⟩
  · clear hS
    induction S with
    | nil => rfl
    | cons b rest ih => rw [concatCodes, ih]; rfl
  · clear hS
    induction S with
    | nil => rfl
    | cons b rest ih =>
      rw [concatCodes, List.length_append, ih]
      rfl

/-- Witness of C11 on the table that holds `"01"` in every slot and the bytes `H`, `i`. -/
theorem C11_encoder_output_witness :
    (∀ s, s < MAX_ASCII → (List.replicate 128 (some ['0', '1'])).getD s none ≠ none) ∧
    (∀ b, b ∈ [72, 105] → b < MAX_ASCII) ∧
    encode (List.replicate 128 (some ['0', '1'])) [72, 105]
      = some (concatCodes (List.replicate 128 (some ['0', '1'])) [72, 105]) ∧
    concatCodes (List.replicate 128 (some ['0', '1'])) [72, 105]
      = (([72, 105] : List Nat).map (codeOf (List.replicate 128 (some ['0', '1'])))).flatten ∧
    (concatCodes (List.replicate 128 (some ['0', '1'])) [72, 105]).length
      = (([72, 105] : List Nat).map
          (fun b => (codeOf (List.replicate 128 (some ['0', '1'])) b).length)).sum :=
  ⟨fun s hs => by rw [getD_replicate_of_lt 128 s _ none hs]; exact Option.some_ne_none _,
    by decide,
    C11_encoder_output (List.replicate 128 (some ['0', '1'])) [72, 105]
      (fun s hs => by rw [getD_replicate_of_lt 128 s _ none hs]; exact Option.some_ne_none _)
      (by decide)⟩

/-- C12 (two-symbol example), evaluated: for `two_symbol_table` the derived codes of the
symbols 0 and 1 are `0` followed by 63 times `1`, and 64 times `1`; both have length 64,
not 1, and encoding `[0, 1, 0]` gives 192 characters, not `010`. -/
theorem C12_two_symbol_codes_are_64_bits :
    ∃ tree codes, generate_huffman_tree two_symbol_table = some tree ∧
      generate_huffman_table tree = some codes ∧
      codes.getD 0 none = some ('0' :: List.replicate 63 '1') ∧
      codes.getD 1 none = some (List.replicate 64 '1') ∧
      encode codes [0, 1, 0]
        = some ('0' :: List.replicate 63 '1' ++ List.replicate 64 '1'
            ++ '0' :: List.replicate 63 '1') ∧
      encode codes [0, 1, 0] ≠ some ['0', '1', '0'] := by
  obtain ⟨root, tbl, ht, hc, -⟩ :=
    pipeline_spec two_symbol_table (by simp [two_symbol_table, MAX_ASCII])
  have hroot : root = two_symbol_tree :=
    Option.some.inj (ht.symm.trans generate_huffman_tree_two_symbol_table)
  have h := two_symbol_tree_codes
  rw [← hroot, hc, Option.map_some'] at h
  have h2 := Option.some.inj h
  simp only [Prod.mk.injEq] at h2
  obtain ⟨h0, h1, he⟩ := h2
  refine ⟨root, tbl, ht, hc, h0, h1, he, ?_⟩
  rw [he]
  decide!

/-- C12 (two-symbol example), as amended: for `two_symbol_table` the symbols 0 and 1
receive non-empty codes, neither of which is an initial segment of the other; the two
codes do not both have length 1; encoding `[0, 1, 0]` gives the code of 0, the code of 1
and the code of 0 again, and decoding that text gives back `[0, 1, 0]`. -/
theorem C12_two_symbol_example :
    ∃ tree codes c0 c1, generate_huffman_tree two_symbol_table = some tree ∧
      generate_huffman_table tree = some codes ∧
      codes.getD 0 none = some c0 ∧ codes.getD 1 none = some c1 ∧
      c0 ≠ [] ∧ c1 ≠ [] ∧ ¬ (c0 <+: c1) ∧ ¬ (c1 <+: c0) ∧
      ¬ (c0.length = 1 ∧ c1.length = 1) ∧
      encode codes [0, 1, 0] = some (c0 ++ c1 ++ c0) ∧
      decode tree (c0 ++ c1 ++ c0) = some [0, 1, 0] := by
  obtain ⟨root, tbl, ht, hc, hfull, -, hroot, hperm, -, -, hget⟩ :=
    pipeline_spec two_symbol_table (by simp [two_symbol_table, MAX_ASCII])
  obtain ⟨e0, he0, h0⟩ := exists_path_of_perm root hperm 0 (by decide)
  obtain ⟨e1, he1, h1⟩ := exists_path_of_perm root hperm 1 (by decide)
  obtain ⟨e2, he2, h2⟩ := exists_path_of_perm root hperm 2 (by decide)
  have g0 : tbl.getD 0 none = some e0.2 := by rw [← h0]; exact hget e0 he0
  have g1 : tbl.getD 1 none = some e1.2 := by rw [← h1]; exact hget e1 he1
  have n01 : e0 ≠ e1 := fun e => by rw [e, h1] at h0; exact absurd h0 (by decide)
  have n02 : e0 ≠ e2 := fun e => by rw [e, h2] at h0; exact absurd h0 (by decide)
  have n12 : e1 ≠ e2 := fun e => by rw [e, h2] at h1; exact absurd h1 (by decide)
  have hpath : ∀ b, b ∈ [0, 1, 0] →
      ∃ e, e ∈ paths root ∧ e.1 = b ∧ tbl.getD b none = some e.2 := by
    intro b hb
    simp only [List.mem_cons, List.mem_singleton, List.not_mem_nil, or_false] at hb
    rcases hb with rfl | rfl | rfl
    · exact ⟨e0, he0, h0, g0⟩
    · exact ⟨e1, he1, h1, g1⟩
    · exact ⟨e0, he0, h0, g0⟩
  have hcc : concatCodes tbl [0, 1, 0] = e0.2 ++ e1.2 ++ e0.2 := by
    show codeOf tbl 0 ++ (codeOf tbl 1 ++ (codeOf tbl 0 ++ [])) = _
    rw [codeOf, codeOf, g0, g1]
    simp only [Option.getD_some, List.append_nil, List.append_assoc]
  refine ⟨root, tbl, e0.2, e1.2, ht, hc, g0, g1, paths_ne_nil root hroot e0 he0,
    paths_ne_nil root hroot e1 he1,
    fun hp => n01 (paths_no_initial_segment root e0 e1 he0 he1 hp),
    fun hp => n01 (paths_no_initial_segment root e1 e0 he1 he0 hp).symm,
    not_both_single_bit root e0 e1 e2 he0 he1 he2 n01 n02 n12 (paths_ne_nil root hroot e2 he2),
    ?_, ?_⟩
  · rw [← hcc]
    apply encode_eq_concatCodes
    intro b hb
    obtain ⟨e, -, -, h3⟩ := hpath b hb
    simp only [List.mem_cons, List.mem_singleton, List.not_mem_nil, or_false] at hb
    refine ⟨by rcases hb with rfl | rfl | rfl <;> decide, ?_⟩
    rw [h3]
    exact Option.some_ne_none _
  · rw [← hcc, decode, decode_loop_concatCodes root tbl hfull hroot [0, 1, 0] [] hpath]
    rfl

/-- C13 (all-equal edge case), evaluated at `uniform_table`: the built tree is
`uniform_chain 127`, whose root has the leaf of symbol 127 as left child and an internal
node as right child, so it is not a left-leaning chain. -/
theorem C13_uniform_table_is_not_left_chain :
    ∃ tree, generate_huffman_tree uniform_table = some tree ∧
      tree = .mk 0 1 (.mk 127 (1 / 128) .null .null) (uniform_chain 126) ∧
      ¬ (uniform_chain 126).isLeaf ∧ ¬ LeftChain tree := by
  refine ⟨uniform_chain 127, generate_huffman_tree_uniform_table, ?_, ?_, ?_⟩
  · rw [show (127 : Nat) = 125 + 2 from rfl, uniform_chain]
    norm_num
  · rw [show (126 : Nat) = 124 + 2 from rfl, uniform_chain]
    simp [NODE.isLeaf]
  · rw [show (127 : Nat) = 125 + 2 from rfl, uniform_chain, LeftChain,
      show (125 + 1 : Nat) = 124 + 2 from rfl, uniform_chain]
    simp [NODE.isLeaf]

/-- C13 (all-equal edge case), as amended: for every table whose 128 entries are all zero,
the built tree is a left-leaning chain (the right child of every internal node is a leaf
and the chain continues through the left child), and its leaves, read along the chain from
the bottom, are the symbols 0, 1, ..., 127 in index order. -/
theorem C13_all_zero_left_chain (prob_table : List ℚ)
    (hlen : prob_table.length = MAX_ASCII) (hzero : ∀ p, p ∈ prob_table → p = 0) :
    ∃ tree, generate_huffman_tree prob_table = some tree ∧ LeftChain tree ∧
      leaves tree = List.range 128 := by
  have htbl : prob_table = zero_table := List.eq_replicate_iff.mpr ⟨hlen, hzero⟩
  rw [htbl]
  exact ⟨zero_chain 127, generate_huffman_tree_zero_table, leftChain_zero_chain 127,
    leaves_zero_chain 127⟩

/-- Witness of C13 on `zero_table`. -/
theorem C13_all_zero_left_chain_witness :
    zero_table.length = MAX_ASCII ∧ (∀ p, p ∈ zero_table → p = 0) ∧
    ∃ tree, generate_huffman_tree zero_table = some tree ∧ LeftChain tree ∧
      leaves tree = List.range 128 :=
  ⟨by simp [zero_table, MAX_ASCII], fun p hp => (List.mem_replicate.mp hp).2,
    C13_all_zero_left_chain zero_table (by simp [zero_table, MAX_ASCII])
      (fun p hp => (List.mem_replicate.mp hp).2)⟩

/-- C14 (single non-zero entry): for every table of 128 entries in which the entry of one
symbol `k` is non-zero and the other 127 are zero, the built tree is a full binary tree
whose leaves are the symbols 0..127, each once, and it is maximally skewed: its height is
127, no derived code is longer than 127 bits and some code has exactly 127 bits; every
symbol has a non-empty code made of `'0'` and `'1'`. -/
theorem C14_single_nonzero (prob_table : List ℚ) (k : Nat)
    (hlen : prob_table.length = MAX_ASCII) (hk : k < MAX_ASCII)
    (hx : prob_table.getD k 0 ≠ 0)
    (hz : ∀ s, s < MAX_ASCII → s ≠ k → prob_table.getD s 0 = 0) :
    ∃ tree codes, generate_huffman_tree prob_table = some tree ∧
      generate_huffman_table tree = some codes ∧
      Full tree ∧ (leaves tree).Perm (List.range 128) ∧ height tree = 127 ∧
      (∀ s, s < 128 → ∃ c, codes.getD s none = some c ∧ c ≠ [] ∧ c.length ≤ 127 ∧
        ∀ ch, ch ∈ c → ch = '0' ∨ ch = '1') ∧
      (∃ s c, s < 128 ∧ codes.getD s none = some c ∧ c.length = 127) := by
  obtain ⟨ct, root, a, hst, -, hroot, -, hget, hgood, hleaves⟩ :=
    generate_huffman_tree_state_spec GoodTree goodTree_merge prob_table hlen
      (fun i _ => goodTree_leaf i _)
  have hcat := single_nonzero_caterpillar prob_table k hlen hk hx hz ct root a hst hget hroot
  have hperm : (leaves root).Perm (List.range MAX_ASCII) := Multiset.coe_eq_coe.mp hleaves
  have hn : numLeaves root = 128 := by
    rw [numLeaves_eq_length, hperm.length_eq]
    simp [MAX_ASCII]
  have hh : height root = 127 := by
    have := hcat.2
    omega
  have hnl : ¬ root.isLeaf := by
    intro hl
    have := (isLeaf_facts root hl).2.2.2
    omega
  have hnd : (leaves root).Nodup := hperm.nodup_iff.mpr (List.nodup_range _)
  have hsym : ∀ c, c ∈ leaves root → c < MAX_ASCII := fun c hc =>
    List.mem_range.mp (hperm.mem_iff.mp hc)
  obtain ⟨tbl, ht, -, -, hgetc⟩ := generate_huffman_table_full root hgood.1 hnl hnd hsym
  refine ⟨root, tbl, by rw [generate_huffman_tree, hst]; rfl, ht, hgood.1, hperm, hh, ?_, ?_⟩
  · intro s hs
    obtain ⟨e, he, hes⟩ := exists_path_of_perm root hperm s hs
    refine ⟨e.2, by rw [← hes]; exact hgetc e he, paths_ne_nil root hnl e he, ?_,
      paths_bits root e he⟩
    rw [← hh]
    exact path_length_le_height root e he
  · obtain ⟨e, he, hel⟩ := exists_path_of_height root hgood.1
    refine ⟨e.1, e.2, ?_, hgetc e he, by rw [hel, hh]⟩
    apply hsym
    rw [← paths_symbols]
    exact List.mem_map_of_mem _ he

/-- Witness of C14 on `single_symbol_table`, where symbol 0 has probability 1. -/
theorem C14_single_nonzero_witness :
    single_symbol_table.length = MAX_ASCII ∧ 0 < MAX_ASCII ∧
    single_symbol_table.getD 0 0 ≠ 0 ∧
    (∀ s, s < MAX_ASCII → s ≠ 0 → single_symbol_table.getD s 0 = 0) ∧
    ∃ tree codes, generate_huffman_tree single_symbol_table = some tree ∧
      generate_huffman_table tree = some codes ∧
      Full tree ∧ (leaves tree).Perm (List.range 128) ∧ height tree = 127 ∧
      (∀ s, s < 128 → ∃ c, codes.getD s none = some c ∧ c ≠ [] ∧ c.length ≤ 127 ∧
        ∀ ch, ch ∈ c → ch = '0' ∨ ch = '1') ∧
      (∃ s c, s < 128 ∧ codes.getD s none = some c ∧ c.length = 127) :=
  ⟨single_symbol_table_length, by decide,
    single_symbol_table_head, single_symbol_table_zero,
    C14_single_nonzero single_symbol_table 0 single_symbol_table_length
      (by decide) single_symbol_table_head single_symbol_table_zero⟩

/-- C15 (truncated input), evaluated on the tree of `zero_table` and the input `0`: the
cursor ends at the left child of the root, which is not the root, and `decode` returns the
empty output without any error. -/
theorem C15_truncated_input_is_accepted :
    ∃ tree cursor, generate_huffman_tree zero_table = some tree ∧
      decode_loop tree (tree, []) ['0'] = some (cursor, []) ∧ cursor ≠ tree ∧
      decode tree ['0'] = some [] := by
  refine ⟨zero_chain 127, zero_chain 126, generate_huffman_tree_zero_table, ?_, ?_, ?_⟩
  · decide!
  · decide!
  · decide!

/-- C15 (truncated input), as amended: for every table of 128 probabilities, `decode`
reports no error on any input over `'0'` and `'1'`, wherever the cursor ends: it returns
the symbols decoded so far. In particular the encoding of a byte sequence `S` followed by
a proper initial segment of the code of a symbol decodes to `S`. -/
theorem C15_truncated_input (prob_table : List ℚ) (hlen : prob_table.length = MAX_ASCII) :
    ∃ tree codes, generate_huffman_tree prob_table = some tree ∧
      generate_huffman_table tree = some codes ∧
      (∀ bits : List Char, (∀ c, c ∈ bits → c = '0' ∨ c = '1') →
        ∃ cursor out, decode_loop tree (tree, []) bits = some (cursor, out) ∧
          decode tree bits = some out) ∧
      (∀ (S : List Nat) (s : Nat) (r : List Char), (∀ b, b ∈ S → b < MAX_ASCII) →
        s < MAX_ASCII → r <+: codeOf codes s → r ≠ codeOf codes s →
        decode tree (concatCodes codes S ++ r) = some S) := by
  obtain ⟨root, tbl, ht, hc, hfull, -, hroot, hperm, -, -, hget⟩ := pipeline_spec prob_table hlen
  refine ⟨root, tbl, ht, hc, ?_, ?_⟩
  · intro bits _
    obtain ⟨st', hl, -⟩ := decode_loop_cursor root hfull hroot bits (root, [])
      ⟨mem_subtrees_self root (full_ne_null root hfull), hroot⟩
    exact ⟨st'.1, st'.2, hl, by rw [decode, hl]; rfl⟩
  · intro S s r hS hs hr hne
    have hpath : ∀ b, b ∈ S → ∃ e, e ∈ paths root ∧ e.1 = b ∧ tbl.getD b none = some e.2 := by
      intro b hb
      obtain ⟨e, he, heb⟩ := exists_path_of_perm root hperm b (hS b hb)
      exact ⟨e, he, heb, by rw [← heb]; exact hget e he⟩
    obtain ⟨e, he, hes⟩ := exists_path_of_perm root hperm s hs
    have hcode : codeOf tbl s = e.2 := by
      rw [codeOf, ← hes, hget e he]
      rfl
    rw [hcode] at hr hne
    obtain ⟨t', ht'⟩ := decode_loop_partial root root hfull hroot e he r hr hne ([] ++ S)
    rw [decode, decode_loop_concatCodes_append root tbl hfull hroot r S [] hpath, ht']
    rfl

/-- Witness of C15 on `zero_table`. -/
theorem C15_truncated_input_witness :
    zero_table.length = MAX_ASCII ∧
    ∃ tree codes, generate_huffman_tree zero_table = some tree ∧
      generate_huffman_table tree = some codes ∧
      (∀ bits : List Char, (∀ c, c ∈ bits → c = '0' ∨ c = '1') →
        ∃ cursor out, decode_loop tree (tree, []) bits = some (cursor, out) ∧
          decode tree bits = some out) ∧
      (∀ (S : List Nat) (s : Nat) (r : List Char), (∀ b, b ∈ S → b < MAX_ASCII) →
        s < MAX_ASCII → r <+: codeOf codes s → r ≠ codeOf codes s →
        decode tree (concatCodes codes S ++ r) = some S) :=
  ⟨by simp [zero_table, MAX_ASCII],
    C15_truncated_input zero_table (by simp [zero_table, MAX_ASCII])⟩

/-- C16 (invalid bit characters), evaluated on the tree of `zero_table` and the input
`0x1`: the character `x` is skipped and `decode` returns the symbol 126 without any
error. -/
theorem C16_invalid_character_is_skipped :
    ∃ tree, generate_huffman_tree zero_table = some tree ∧
      decode tree ['0', 'x', '1'] = some [126] ∧ decode tree ['0', '1'] = some [126] := by
  refine ⟨zero_chain 127, generate_huffman_tree_zero_table, ?_, ?_⟩
  · decide!
  · decide!

/-- C16 (invalid bit characters), as amended: for every table of 128 probabilities,
`decode` reports no error on any input; and when no input character is the byte 255 (which
ends the loop like the end of the file), the result is the result on the input with every
character other than `'0'` and `'1'` removed. -/
theorem C16_invalid_characters (prob_table : List ℚ)
    (hlen : prob_table.length = MAX_ASCII) :
    ∃ tree, generate_huffman_tree prob_table = some tree ∧
      (∀ input : List Char, ∃ out, decode tree input = some out) ∧
      (∀ input : List Char, (∀ c, c ∈ input → c.toNat ≠ 255) →
        decode tree input = decode tree (input.filter isBit)) := by
  obtain ⟨root, tbl, ht, -, hfull, -, hroot, -⟩ := pipeline_spec prob_table hlen
  have hOK : CursorOK root root := ⟨mem_subtrees_self root (full_ne_null root hfull), hroot⟩
  refine ⟨root, ht, ?_, ?_⟩
  · intro input
    obtain ⟨st', hl, -⟩ := decode_loop_cursor root hfull hroot input (root, []) hOK
    exact ⟨st'.2, by rw [decode, hl]; rfl⟩
  · intro input h255
    rw [decode, decode, decode_loop_filter root hfull hroot input (root, []) hOK h255]

/-- Witness of C16 on `zero_table`. -/
theorem C16_invalid_characters_witness :
    zero_table.length = MAX_ASCII ∧
    ∃ tree, generate_huffman_tree zero_table = some tree ∧
      (∀ input : List Char, ∃ out, decode tree input = some out) ∧
      (∀ input : List Char, (∀ c, c ∈ input → c.toNat ≠ 255) →
        decode tree input = decode tree (input.filter isBit)) :=
  ⟨by simp [zero_table, MAX_ASCII],
    C16_invalid_characters zero_table (by simp [zero_table, MAX_ASCII])⟩

/-- C17 (encoder range check), evaluated on inputs with a byte above 127: for every code
table, a byte 200 makes `encode` index the table outside its bounds, which has no defined
result, and a byte 255 ends the encoding without any error, the rest of the input being
dropped. -/
theorem C17_encode_has_no_range_check (codes : List (Option (List Char)))
    (rest : List Nat) :
    encode codes (200 :: rest) = none ∧ encode codes (255 :: rest) = some [] := by
  constructor
  · simp [encode, MAX_ASCII]
  · simp [encode]

/-- C18 (empty streams): for every code table, encoding the empty byte sequence gives the
empty text, and for every tree, decoding the empty text gives the empty byte sequence. -/
theorem C18_empty_streams (codes : List (Option (List Char))) (tree : NODE) :
    encode codes [] = some [] ∧ decode tree [] = some [] :=
  ⟨rfl, rfl⟩

/-- C19 (decoder cursor invariant): for every table of 128 probabilities and every
sequence of input characters processed so far, the decoding loop has not failed and the
cursor is a node of the built tree that is not a leaf and has both children. -/
theorem C19_decoder_cursor_invariant (prob_table : List ℚ)
    (hlen : prob_table.length = MAX_ASCII) :
    ∃ tree, generate_huffman_tree prob_table = some tree ∧
      ∀ processed : List Char, ∃ cursor out,
        decode_loop tree (tree, []) processed = some (cursor, out) ∧
        cursor ∈ subtrees tree ∧ ¬ cursor.isLeaf ∧
        ∃ c p l r, cursor = .mk c p l r ∧ l ≠ .null ∧ r ≠ .null := by
  obtain ⟨root, tbl, ht, -, hfull, -, hroot, -⟩ := pipeline_spec prob_table hlen
  refine ⟨root, ht, ?_⟩
  intro processed
  obtain ⟨st', hl, hmem, hnl⟩ := decode_loop_cursor root hfull hroot processed (root, [])
    ⟨mem_subtrees_self root (full_ne_null root hfull), hroot⟩
  refine ⟨st'.1, st'.2, hl, hmem, hnl, ?_⟩
  have hf := full_of_mem_subtrees root hfull st'.1 hmem
  rcases hc : st'.1 with _ | ⟨c, p, l, r⟩
  · rw [hc] at hf
    exact hf.elim
  · rw [hc] at hf hnl
    have hnl2 : ¬ (l = .null ∧ r = .null) := hnl
    rcases hf with h | ⟨hfl, hfr⟩
    · exact absurd h hnl2
    · exact ⟨c, p, l, r, rfl, full_ne_null l hfl, full_ne_null r hfr⟩

/-- Witness of C19 on the uniform table. -/
theorem C19_decoder_cursor_invariant_witness :
    (List.replicate 128 (1 / 128 : ℚ)).length = MAX_ASCII ∧
    ∃ tree, generate_huffman_tree (List.replicate 128 (1 / 128 : ℚ)) = some tree ∧
      ∀ processed : List Char, ∃ cursor out,
        decode_loop tree (tree, []) processed = some (cursor, out) ∧
        cursor ∈ subtrees tree ∧ ¬ cursor.isLeaf ∧
        ∃ c p l r, cursor = .mk c p l r ∧ l ≠ .null ∧ r ≠ .null :=
  ⟨by simp [MAX_ASCII],
    C19_decoder_cursor_invariant (List.replicate 128 (1 / 128 : ℚ)) (by simp [MAX_ASCII])⟩

/-- C20 (termination of construction): for every table of 128 probabilities the loop of
`generate_huffman_tree` is exactly 127 rounds; each of these rounds succeeds and after `k`
rounds `128 - k` trees are left; on exit one slot of the array holds a tree, every other
slot is `NULL`, and that tree is the returned root. -/
theorem C20_termination (prob_table : List ℚ) (hlen : prob_table.length = MAX_ASCII) :
    ∃ ct root a,
      generate_huffman_tree_state prob_table
        = rounds 127 (init_character_trees prob_table, .null) ∧
      (∀ k, k ≤ 127 → ∃ st, rounds k (init_character_trees prob_table, .null) = some st ∧
        activeCount st.1 = 128 - k) ∧
      generate_huffman_tree_state prob_table = some (ct, root) ∧
      generate_huffman_tree prob_table = some root ∧
      activeCount ct = 1 ∧ a < 128 ∧ ct.getD a .null = root ∧ root ≠ .null ∧
      ∀ j, j ≠ a → ct.getD j .null = .null := by
  obtain ⟨ct, root, a, hst, hinv, hroot, ha, hget, -⟩ :=
    generate_huffman_tree_state_spec GoodTree goodTree_merge prob_table hlen
      (fun i _ => goodTree_leaf i _)
  obtain ⟨hl, hc, -⟩ := hinv
  refine ⟨ct, root, a, ?_, ?_, hst, by rw [generate_huffman_tree, hst]; rfl, hc, ha, hget,
    hroot, ?_⟩
  · unfold generate_huffman_tree_state
    rw [if_neg (by omega)]
    exact merge_loop_eq_rounds 127 _
  · intro k hk
    obtain ⟨st, hs, hi⟩ := rounds_inv GoodTree goodTree_merge k MAX_ASCII
      (init_character_trees prob_table) .null
      (forestInv_init GoodTree prob_table (fun i _ => goodTree_leaf i _))
      (by unfold MAX_ASCII; omega)
    exact ⟨st, hs, hi.2.1⟩
  · intro j hj
    exact getD_null_of_single ct a (by omega) (by rw [hget]; exact hroot) hc j hj

/-- Witness of C20 on the table whose entries are all zero. -/
theorem C20_termination_witness :
    (List.replicate 128 (0 : ℚ)).length = MAX_ASCII ∧
    ∃ ct root a,
      generate_huffman_tree_state (List.replicate 128 (0 : ℚ))
        = rounds 127 (init_character_trees (List.replicate 128 (0 : ℚ)), .null) ∧
      (∀ k, k ≤ 127 →
        ∃ st, rounds k (init_character_trees (List.replicate 128 (0 : ℚ)), .null) = some st ∧
          activeCount st.1 = 128 - k) ∧
      generate_huffman_tree_state (List.replicate 128 (0 : ℚ)) = some (ct, root) ∧
      generate_huffman_tree (List.replicate 128 (0 : ℚ)) = some root ∧
      activeCount ct = 1 ∧ a < 128 ∧ ct.getD a .null = root ∧ root ≠ .null ∧
      ∀ j, j ≠ a → ct.getD j .null = .null :=
  ⟨by simp [MAX_ASCII], C20_termination (List.replicate 128 (0 : ℚ)) (by simp [MAX_ASCII])⟩

/-! ## Node weights as sums over leaves -/

theorem leafSum_leaf (prob_table : List ℚ) (c : Nat) (w : ℚ) :
    leafSum prob_table (.mk c w .null .null) = prob_table.getD c 0 := by
  simp [leafSum, leaves]

theorem leafSum_node (prob_table : List ℚ) (c : Nat) (w : ℚ) (x y : NODE)
    (h : ¬ (x = .null ∧ y = .null)) :
    leafSum prob_table (.mk c w x y) = leafSum prob_table x + leafSum prob_table y := by
  have hl : leaves (.mk c w x y) = leaves x ++ leaves y := by
    rw [leaves, if_neg h]
  unfold leafSum
  rw [hl, List.map_append, List.sum_append]

theorem leafSumOK_leaf (prob_table : List ℚ) (i : Nat) :
    LeafSumOK prob_table (.mk i (prob_table.getD i 0) .null .null) := by
  intro n hn
  simp only [subtrees, List.append_nil, List.mem_singleton] at hn
  rw [hn, leafSum_leaf]
  rfl

theorem leafSumOK_merge (prob_table : List ℚ) (x y : NODE) (hx : x ≠ .null) (_ : y ≠ .null)
    (hPx : LeafSumOK prob_table x) (hPy : LeafSumOK prob_table y) :
    LeafSumOK prob_table (.mk 0 (x.probability + y.probability) x y) := by
  intro n hn
  simp only [subtrees, List.mem_cons, List.mem_append] at hn
  rcases hn with rfl | hn | hn
  · rw [leafSum_node _ _ _ _ _ (fun h => hx h.1)]
    have h1 := hPx x (mem_subtrees_self x hx)
    have h2 := hPy y (mem_subtrees_self y (by assumption))
    show x.probability + y.probability = _
    rw [h1, h2]
  · exact hPx n hn
  · exact hPy n hn

theorem unique_min_table_weight (j : Nat) (hj : j < MAX_ASCII) :
    ((init_character_trees unique_min_table).getD j .null).probability
      = if j = 0 then 0 else 1 := by
  rw [init_getD_lt _ j hj]
  show unique_min_table.getD j 0 = _
  cases j with
  | zero => rfl
  | succ k =>
    rw [if_neg (Nat.succ_ne_zero k)]
    show (List.replicate 127 (1 : ℚ)).getD k 0 = 1
    exact getD_replicate_of_lt 127 k 1 0 (by unfold MAX_ASCII at hj; omega)

/-- In the initial array of `unique_min_table` only the tree of symbol 0 attains the minimum
weight. -/
theorem unique_min_table_unique :
    ∃! i, i < MAX_ASCII ∧ (init_character_trees unique_min_table).getD i .null ≠ .null ∧
      ∀ k, k < MAX_ASCII → (init_character_trees unique_min_table).getD k .null ≠ .null →
        ((init_character_trees unique_min_table).getD i .null).probability
          ≤ ((init_character_trees unique_min_table).getD k .null).probability := by
  refine ⟨0, ⟨by decide, ?_, ?_⟩, ?_⟩
  · rw [init_getD_lt _ 0 (by decide)]
    exact fun h => NODE.noConfusion h
  · intro k hk _
    rw [unique_min_table_weight 0 (by decide), unique_min_table_weight k hk, if_pos rfl]
    split <;> norm_num
  · rintro j ⟨hj, -, hmin⟩
    by_contra hne
    have h := hmin 0 (by decide)
      (by rw [init_getD_lt _ 0 (by decide)]; exact fun h => NODE.noConfusion h)
    rw [unique_min_table_weight 0 (by decide), unique_min_table_weight j hj, if_pos rfl,
      if_neg hne] at h
    norm_num at h

/-! ## Reading the probability table -/

theorem take_succ_set {α : Type} : ∀ (l : List α) (i : Nat) (v : α), i < l.length →
    (l.set i v).take (i + 1) = l.take i ++ [v] := by
  intro l
  induction l with
  | nil => intro i v h; simp at h
  | cons x xs ih =>
    intro i v h
    cases i with
    | zero => simp
    | succ k =>
      simp only [List.set_cons_succ, List.take_succ_cons, List.cons_append, List.cons.injEq,
        true_and]
      exact ih k v (by simpa using h)

/-- While the stores stay inside the table, the reading loop overwrites the entries from
`i` on with the values of the file and keeps every other entry. -/
theorem get_prob_table_loop_eq : ∀ (values : List ℚ) (i : Nat) (prob_table : List ℚ),
    prob_table.length = MAX_ASCII → i + values.length ≤ MAX_ASCII →
    get_prob_table_loop values i prob_table
      = some (prob_table.take i ++ values ++ prob_table.drop (i + values.length)) := by
  intro values
  induction values with
  | nil =>
    intro i prob_table _ _
    simp [get_prob_table_loop]
  | cons v values ih =>
    intro i prob_table hlen hi
    rw [List.length_cons] at hi
    unfold get_prob_table_loop
    rw [if_pos (by omega), ih (i + 1) _ (by rw [List.length_set]; exact hlen) (by omega)]
    congr 1
    rw [take_succ_set _ _ _ (by omega), List.drop_set_of_lt _ _ (by omega), List.length_cons,
      show i + 1 + values.length = i + (values.length + 1) by omega]
    simp only [List.append_assoc, List.singleton_append, List.cons_append, List.nil_append]

/-- A file with more values than the table has entries makes the loop store past the
table. -/
theorem get_prob_table_loop_overflow : ∀ (values : List ℚ) (i : Nat) (prob_table : List ℚ),
    i ≤ MAX_ASCII → MAX_ASCII < i + values.length →
    get_prob_table_loop values i prob_table = none := by
  intro values
  induction values with
  | nil =>
    intro i prob_table hi h
    rw [List.length_nil] at h
    omega
  | cons v values ih =>
    intro i prob_table _ h
    rw [List.length_cons] at h
    unfold get_prob_table_loop
    by_cases hi : i < MAX_ASCII
    · rw [if_pos hi]
      exact ih (i + 1) _ (by omega) (by omega)
    · rw [if_neg hi]

/-! ## The estimator -/

theorem char_of_byte_lt (byte : Nat) (h : byte < 128) : char_of_byte byte = (byte : Int) := by
  unfold char_of_byte
  rw [Nat.mod_eq_of_lt (by omega), if_pos h]

/-- A `char` never holds a value of `MAX_ASCII` or more. -/
theorem char_of_byte_lt_MAX_ASCII (byte : Nat) : char_of_byte byte < (MAX_ASCII : Int) := by
  unfold char_of_byte MAX_ASCII
  have h := Nat.mod_lt byte (show 0 < 256 by decide)
  split <;> omega

/-- On a sample of bytes below 128 that the `int` counters can count, `count_characters`
returns with every counter raised by the number of occurrences of its byte and the total
raised by the length of the sample. -/
theorem count_characters_spec : ∀ (sample : List Nat) (count_char : List Int)
    (count_total : Int),
    count_char.length = MAX_ASCII → (∀ b, b ∈ sample → b < 128) →
    (∀ s, count_char.getD s 0 ≤ count_total) →
    count_total + sample.length ≤ INT_MAX →
    ∃ count_char', count_characters sample (count_char, count_total)
        = .returned (count_char', count_total + sample.length) ∧
      count_char'.length = MAX_ASCII ∧
      ∀ s, count_char'.getD s 0 = count_char.getD s 0 + sample.count s := by
  intro sample
  induction sample with
  | nil =>
    intro cc ct hlen _ _ _
    exact ⟨cc, by simp [count_characters], hlen, by simp⟩
  | cons b rest ih =>
    intro cc ct hlen hb hle hmax
    have hb128 : b < 128 := hb b (List.mem_cons_self _ _)
    have hc := char_of_byte_lt b hb128
    rw [List.length_cons] at hmax
    push_cast at hmax
    have hct : ct < INT_MAX := by omega
    unfold count_characters
    rw [hc, if_neg (by unfold EOF; omega), if_neg (by unfold MAX_ASCII; omega),
      if_neg (by rw [hlen]; unfold MAX_ASCII; simp only [Int.toNat_ofNat]; omega),
      if_neg (by have := hle b; simp only [Int.toNat_ofNat]; omega),
      if_neg (by omega)]
    simp only [Int.toNat_ofNat]
    obtain ⟨cc', h1, h2, h3⟩ := ih (cc.set b (cc.getD b 0 + 1)) (ct + 1)
      (by rw [List.length_set]; exact hlen)
      (fun x hx => hb x (List.mem_cons_of_mem _ hx))
      (by
        intro s
        by_cases hs : b = s
        · rw [← hs, getD_set_eq _ _ _ _ (by rw [hlen]; unfold MAX_ASCII; omega)]
          have := hle b
          omega
        · rw [getD_set_ne _ _ _ _ _ hs]
          have := hle s
          omega)
      (by omega)
    refine ⟨cc', ?_, h2, ?_⟩
    · rw [h1, List.length_cons]
      push_cast
      congr 2
      ring
    · intro s
      rw [h3 s, List.count_cons]
      by_cases hs : b = s
      · rw [← hs, getD_set_eq _ _ _ _ (by rw [hlen]; unfold MAX_ASCII; omega)]
        simp
        ring
      · rw [getD_set_ne _ _ _ _ _ hs]
        simp [hs]

/-- A sample longer than `INT_MAX` bytes makes a counter overflow. -/
theorem count_characters_overflow : ∀ (sample : List Nat) (count_char : List Int)
    (count_total : Int),
    count_char.length = MAX_ASCII → (∀ b, b ∈ sample → b < 128) →
    (∀ s, count_char.getD s 0 ≤ INT_MAX) → count_total ≤ INT_MAX →
    INT_MAX < count_total + sample.length →
    count_characters sample (count_char, count_total) = .undefined := by
  intro sample
  induction sample with
  | nil =>
    intro cc ct _ _ _ hct hmax
    rw [List.length_nil] at hmax
    push_cast at hmax
    omega
  | cons b rest ih =>
    intro cc ct hlen hb hle hct hmax
    have hb128 : b < 128 := hb b (List.mem_cons_self _ _)
    have hc := char_of_byte_lt b hb128
    rw [List.length_cons] at hmax
    push_cast at hmax
    unfold count_characters
    rw [hc, if_neg (by unfold EOF; omega), if_neg (by unfold MAX_ASCII; omega),
      if_neg (by rw [hlen]; unfold MAX_ASCII; simp only [Int.toNat_ofNat]; omega)]
    simp only [Int.toNat_ofNat]
    by_cases h1 : cc.getD b 0 = INT_MAX
    · rw [if_pos h1]
    · rw [if_neg h1]
      by_cases h2 : ct = INT_MAX
      · rw [if_pos h2]
      · rw [if_neg h2]
        refine ih _ _ (by rw [List.length_set]; exact hlen)
          (fun x hx => hb x (List.mem_cons_of_mem _ hx)) ?_ (by omega) (by omega)
        intro s
        by_cases hs : b = s
        · rw [← hs, getD_set_eq _ _ _ _ (by rw [hlen]; unfold MAX_ASCII; omega)]
          have := hle b
          omega
        · rw [getD_set_ne _ _ _ _ _ hs]
          exact hle s

/-- The test `character >= MAX_ASCII` of `count_characters` never succeeds: no run ends
with the error message. -/
theorem count_characters_never_exits : ∀ (sample : List Nat) (st : List Int × Int)
    (message : String), count_characters sample st ≠ .exited message := by
  intro sample
  induction sample with
  | nil =>
    intro st message h
    simp [count_characters] at h
  | cons b rest ih =>
    intro st message
    obtain ⟨cc, ct⟩ := st
    unfold count_characters
    have hlt := char_of_byte_lt_MAX_ASCII b
    split
    · exact fun h => Run.noConfusion h
    · rw [if_neg (by omega)]
      split
      · exact fun h => Run.noConfusion h
      · split
        · exact fun h => Run.noConfusion h
        · split
          · exact fun h => Run.noConfusion h
          · exact ih _ message

theorem sum_indicator_range (b : Nat) : ∀ n,
    ((List.range n).map (fun s => if b = s then 1 else 0)).sum = if b < n then 1 else 0 := by
  intro n
  induction n with
  | zero => rfl
  | succ k ih =>
    rw [List.range_succ, List.map_append, List.sum_append, ih]
    simp only [List.map_cons, List.map_nil, List.sum_cons, List.sum_nil, add_zero]
    by_cases h1 : b < k
    · rw [if_pos h1, if_neg (by omega), if_pos (by omega)]
    · rw [if_neg h1]
      by_cases h2 : b = k
      · rw [if_pos h2, if_pos (by omega)]
      · rw [if_neg h2, if_neg (by omega)]

/-- The occurrence counts of the bytes below `n` add up to the length of a sample whose
bytes are all below `n`. -/
theorem sum_count_range (n : Nat) : ∀ (sample : List Nat), (∀ b, b ∈ sample → b < n) →
    ((List.range n).map (fun s => sample.count s)).sum = sample.length := by
  intro sample
  induction sample with
  | nil =>
    intro _
    simp
  | cons b rest ih =>
    intro hb
    have h1 : ((List.range n).map (fun s => (b :: rest).count s))
        = (List.range n).map (fun s => rest.count s + (if b = s then 1 else 0)) := by
      apply List.map_congr_left
      intro s _
      rw [List.count_cons]
      simp
    rw [h1, List.sum_map_add, ih (fun x hx => hb x (List.mem_cons_of_mem _ hx)),
      sum_indicator_range, if_pos (hb b (List.mem_cons_self _ _)), List.length_cons]

theorem getD_replicate_zero (n s : Nat) : (List.replicate n (0 : Int)).getD s 0 = 0 := by
  by_cases h : s < n
  · exact getD_replicate_of_lt n s 0 0 h
  · exact List.getD_eq_default _ _ (by rw [List.length_replicate]; omega)

/-- The table computed by the estimator on a non-empty sample of bytes below 128 whose
length an `int` can hold: entry `s` is the relative frequency of `s` in the sample. -/
theorem generate_prob_table_spec (sample : List Nat) (hne : sample ≠ [])
    (hb : ∀ b, b ∈ sample → b < 128) (hmax : (sample.length : Int) ≤ INT_MAX) :
    generate_prob_table sample = .returned
      ((List.range MAX_ASCII).map (fun s => (sample.count s : ℚ) / (sample.length : ℚ))) := by
  obtain ⟨cc, h1, -, h3⟩ := count_characters_spec sample (List.replicate MAX_ASCII 0) 0
    (List.length_replicate _ _) hb (fun s => le_of_eq (getD_replicate_zero _ s))
    (by omega)
  have hpos : 0 < sample.length := List.length_pos.mpr hne
  unfold generate_prob_table
  rw [h1]
  simp only
  unfold calc_probability
  rw [if_neg (by omega)]
  simp only
  congr 1
  apply List.map_congr_left
  intro s _
  rw [h3 s, getD_replicate_zero]
  push_cast
  rw [zero_add, zero_add]

theorem sum_relative_frequencies (sample : List Nat) (hne : sample ≠ [])
    (hb : ∀ b, b ∈ sample → b < MAX_ASCII) :
    ((List.range MAX_ASCII).map
      (fun s => (sample.count s : ℚ) / (sample.length : ℚ))).sum = 1 := by
  have hpos : (0 : ℚ) < (sample.length : ℚ) := by
    exact_mod_cast List.length_pos.mpr hne
  have h1 : ((List.range MAX_ASCII).map
      (fun s => (sample.count s : ℚ) / (sample.length : ℚ)))
      = ((List.range MAX_ASCII).map (fun s => (sample.count s : ℚ))).map
          (fun x => x * (1 / (sample.length : ℚ))) := by
    rw [List.map_map]
    apply List.map_congr_left
    intro s _
    simp only [Function.comp]
    ring
  have h2 : ((List.range MAX_ASCII).map (fun s => (sample.count s : ℚ))).sum
      = ((((List.range MAX_ASCII).map (fun s => sample.count s)).sum : Nat) : ℚ) := by
    rw [Nat.cast_list_sum, List.map_map]
    rfl
  rw [h1, List.sum_map_mul_right, List.map_id', h2, sum_count_range MAX_ASCII sample hb]
  field_simp

/-- If the counting has no defined result, neither has the estimator. -/
theorem generate_prob_table_undefined (sample : List Nat)
    (h : count_characters sample (List.replicate MAX_ASCII 0, 0) = .undefined) :
    generate_prob_table sample = .undefined := by
  unfold generate_prob_table
  rw [h]

theorem char_of_byte_ge (byte : Nat) (h1 : 128 ≤ byte) (h2 : byte < 256) :
    char_of_byte byte = (byte : Int) - 256 := by
  unfold char_of_byte
  rw [Nat.mod_eq_of_lt h2, if_neg (by omega)]

/-! ## The claims, third part -/

/-- C21 (table-length check), evaluated on a file that holds a single value: the file is
not rejected; with an allocated table that happens to hold zeros, `generate_huffman_tree`
builds the tree `zero_chain 127` from it. -/
theorem C21_short_source_is_accepted :
    [(0 : ℚ)].length ≠ MAX_ASCII ∧
    generate_huffman_tree_from_file zero_table [0] = some (zero_chain 127) := by
  refine ⟨by decide, ?_⟩
  have h : get_prob_table zero_table [0] = some zero_table := by
    unfold get_prob_table
    rw [get_prob_table_loop_eq _ _ _ (by simp [zero_table, MAX_ASCII]) (by decide)]
    have hz : zero_table = 0 :: List.replicate 127 0 := rfl
    rw [hz]
    rfl
  rw [generate_huffman_tree_from_file, h, Option.some_bind]
  exact generate_huffman_tree_zero_table

/-- C21 (table-length check), as amended: the number of values is not checked. A file with
at most 128 values always yields a tree; the table it is built from is the values read,
followed by what the allocated table held in the entries that were not read. A file with
more than 128 values makes the reading loop store past the 128 entries of the table, which
has no defined result. -/
theorem C21_no_table_length_check (block values : List ℚ)
    (hblock : block.length = MAX_ASCII) :
    (values.length ≤ MAX_ASCII →
      get_prob_table block values = some (values ++ block.drop values.length) ∧
      ∃ root, generate_huffman_tree_from_file block values = some root ∧
        generate_huffman_tree (values ++ block.drop values.length) = some root) ∧
    (MAX_ASCII < values.length → get_prob_table block values = none ∧
      generate_huffman_tree_from_file block values = none) := by
  constructor
  · intro hv
    have h : get_prob_table block values = some (values ++ block.drop values.length) := by
      unfold get_prob_table
      rw [get_prob_table_loop_eq _ _ _ hblock (by omega)]
      simp
    have hlen : (values ++ block.drop values.length).length = MAX_ASCII := by
      rw [List.length_append, List.length_drop]
      omega
    obtain ⟨root, -, ht, -⟩ := pipeline_spec _ hlen
    refine ⟨h, root, ?_, ht⟩
    rw [generate_huffman_tree_from_file, h, Option.some_bind]
    exact ht
  · intro hv
    have h : get_prob_table block values = none :=
      get_prob_table_loop_overflow values 0 block (Nat.zero_le _) (by omega)
    refine ⟨h, ?_⟩
    rw [generate_huffman_tree_from_file, h]
    rfl

/-- Witness of C21 on a file with the two values `1/2`, `1/2` and a table that holds
zeros. -/
theorem C21_no_table_length_check_witness :
    zero_table.length = MAX_ASCII ∧
    ([(1 / 2 : ℚ), 1 / 2].length ≤ MAX_ASCII →
      get_prob_table zero_table [1 / 2, 1 / 2]
        = some ([1 / 2, 1 / 2] ++ zero_table.drop [(1 / 2 : ℚ), 1 / 2].length) ∧
      ∃ root, generate_huffman_tree_from_file zero_table [1 / 2, 1 / 2] = some root ∧
        generate_huffman_tree ([1 / 2, 1 / 2] ++ zero_table.drop [(1 / 2 : ℚ), 1 / 2].length)
          = some root) ∧
    (MAX_ASCII < [(1 / 2 : ℚ), 1 / 2].length →
      get_prob_table zero_table [1 / 2, 1 / 2] = none ∧
      generate_huffman_tree_from_file zero_table [1 / 2, 1 / 2] = none) :=
  ⟨by simp [zero_table, MAX_ASCII],
    C21_no_table_length_check zero_table [1 / 2, 1 / 2] (by simp [zero_table, MAX_ASCII])⟩

/-- C22 (estimator), evaluated on a sample of 2147483648 bytes `a` followed by one byte
`b`: the counters, which are `int`s, are incremented past `INT_MAX`, and no table is
produced. -/
theorem C22_sample_longer_than_INT_MAX :
    generate_prob_table (List.replicate 2147483648 97 ++ [98]) = .undefined := by
  apply generate_prob_table_undefined
  apply count_characters_overflow _ _ _ (List.length_replicate _ _)
  · intro b hb
    rcases List.mem_append.mp hb with h | h
    · rw [List.eq_of_mem_replicate h]
      decide
    · rw [List.mem_singleton.mp h]
      decide
  · intro s
    rw [getD_replicate_zero]
    decide
  · decide
  · rw [List.length_append, List.length_replicate, List.length_singleton]
    decide

/-- C22 (estimator), as amended: for every non-empty sample of at most `INT_MAX` bytes, all
in 0..127, `count_characters` followed by `calc_probability` yields a table of
128 entries in which entry `s` is the number of occurrences of `s` divided by the length of
the sample; the entries lie between 0 and 1 and add up to exactly 1. -/
theorem C22_estimator (sample : List Nat) (hne : sample ≠ [])
    (hb : ∀ b, b ∈ sample → b < 128) (hmax : (sample.length : Int) ≤ INT_MAX) :
    ∃ prob_table, generate_prob_table sample = .returned prob_table ∧
      prob_table.length = MAX_ASCII ∧
      (∀ s, s < MAX_ASCII →
        prob_table.getD s 0 = (sample.count s : ℚ) / (sample.length : ℚ)) ∧
      (∀ s, s < MAX_ASCII → 0 ≤ prob_table.getD s 0 ∧ prob_table.getD s 0 ≤ 1) ∧
      prob_table.sum = 1 := by
  have hget : ∀ s, s < MAX_ASCII →
      ((List.range MAX_ASCII).map
        (fun s => (sample.count s : ℚ) / (sample.length : ℚ))).getD s 0
        = (sample.count s : ℚ) / (sample.length : ℚ) := by
    intro s hs
    rw [List.getD_eq_getElem _ _ (by rw [List.length_map, List.length_range]; exact hs),
      List.getElem_map, List.getElem_range]
  have hpos : (0 : ℚ) < (sample.length : ℚ) := by
    exact_mod_cast List.length_pos.mpr hne
  refine ⟨_, generate_prob_table_spec sample hne hb hmax,
    by rw [List.length_map, List.length_range], hget, ?_,
    sum_relative_frequencies sample hne hb⟩
  intro s hs
  rw [hget s hs]
  constructor
  · exact div_nonneg (Nat.cast_nonneg _) (le_of_lt hpos)
  · rw [div_le_one hpos]
    exact_mod_cast List.count_le_length _ _

/-- Witness of C22 on the sample `abca`. -/
theorem C22_estimator_witness :
    [97, 98, 99, 97] ≠ [] ∧ (∀ b, b ∈ [97, 98, 99, 97] → b < 128) ∧
    (([97, 98, 99, 97] : List Nat).length : Int) ≤ INT_MAX ∧
    ∃ prob_table, generate_prob_table [97, 98, 99, 97] = .returned prob_table ∧
      prob_table.length = MAX_ASCII ∧
      (∀ s, s < MAX_ASCII →
        prob_table.getD s 0
          = (([97, 98, 99, 97] : List Nat).count s : ℚ)
            / (([97, 98, 99, 97] : List Nat).length : ℚ)) ∧
      (∀ s, s < MAX_ASCII → 0 ≤ prob_table.getD s 0 ∧ prob_table.getD s 0 ≤ 1) ∧
      prob_table.sum = 1 :=
  ⟨by decide, by decide, by decide,
    C22_estimator [97, 98, 99, 97] (by decide) (by decide) (by decide)⟩

/-- C23 (estimator range check), evaluated on samples with a byte above 127: the test
`character >= MAX_ASCII` of `count_characters` cannot stop a run, because `character` is a
`char` and never holds a value of 128 or more, so no sample ends the function with the
error message. A byte 200 is read as -56 and used as the index of a counter in front of the
array, which has no defined result; a byte 255 compares equal to `EOF` and ends the count
as if the file ended there. -/
theorem C23_range_check_never_fires :
    (∀ (sample : List Nat) (st : List Int × Int) (message : String),
      count_characters sample st ≠ .exited message) ∧
    (∀ (rest : List Nat) (st : List Int × Int),
      count_characters (200 :: rest) st = .undefined) ∧
    (∀ (rest : List Nat) (st : List Int × Int),
      count_characters (255 :: rest) st = .returned st) := by
  refine ⟨count_characters_never_exits, ?_, ?_⟩
  · intro rest st
    obtain ⟨cc, ct⟩ := st
    unfold count_characters
    rw [char_of_byte_ge 200 (by omega) (by omega), if_neg (by decide), if_neg (by decide),
      if_pos (Or.inl (by decide))]
  · intro rest st
    obtain ⟨cc, ct⟩ := st
    unfold count_characters
    rw [if_pos (by decide)]

/-- C27 (node weights are sums of leaf probabilities): in the tree built from a table of
128 entries every node weighs the sum of the table entries `p[s]` over the leaf symbols `s`
of its subtree; a leaf for symbol `s` weighs `p[s]`, and the root weighs the sum of all 128
entries. -/
theorem C27_node_weights_are_leaf_sums (prob_table : List ℚ)
    (hlen : prob_table.length = MAX_ASCII) :
    ∃ root, generate_huffman_tree prob_table = some root ∧
      (∀ n, n ∈ subtrees root → n.probability = leafSum prob_table n) ∧
      (∀ s w, NODE.mk s w .null .null ∈ subtrees root → w = prob_table.getD s 0) ∧
      root.probability = ((List.range MAX_ASCII).map (fun s => prob_table.getD s 0)).sum := by
  obtain ⟨ct, root, a, hst, -, hroot, -, -, hP, hleaves⟩ :=
    generate_huffman_tree_state_spec (LeafSumOK prob_table) (leafSumOK_merge prob_table)
      prob_table hlen (fun i _ => leafSumOK_leaf prob_table i)
  refine ⟨root, by rw [generate_huffman_tree, hst]; rfl, hP, ?_, ?_⟩
  · intro s w hmem
    have h := hP _ hmem
    rw [leafSum_leaf] at h
    exact h
  · rw [hP root (mem_subtrees_self root hroot)]
    unfold leafSum
    exact ((Multiset.coe_eq_coe.mp hleaves).map _).sum_eq

/-- Witness of C27 on `two_symbol_table`. -/
theorem C27_node_weights_are_leaf_sums_witness :
    two_symbol_table.length = MAX_ASCII ∧
    ∃ root, generate_huffman_tree two_symbol_table = some root ∧
      (∀ n, n ∈ subtrees root → n.probability = leafSum two_symbol_table n) ∧
      (∀ s w, NODE.mk s w .null .null ∈ subtrees root → w = two_symbol_table.getD s 0) ∧
      root.probability
        = ((List.range MAX_ASCII).map (fun s => two_symbol_table.getD s 0)).sum :=
  ⟨by simp [two_symbol_table, MAX_ASCII],
    C27_node_weights_are_leaf_sums two_symbol_table (by simp [two_symbol_table, MAX_ASCII])⟩

/-- C28 (the scan result is well defined): in every state of the array with at least two
trees the scan ends with `lowestIndex1` and `lowestIndex2` both set, both below 128,
different from each other, both referring to slots that hold a tree, and the tree at
`lowestIndex1` weighs at most as much as the tree at `lowestIndex2`. -/
theorem C28_scan_result_well_defined (ct : List NODE) (hlen : ct.length = MAX_ASCII)
    (h2 : 2 ≤ activeCount ct) :
    ∃ lowestIndex1 lowestIndex2, scan ct = (some lowestIndex1, some lowestIndex2) ∧
      lowestIndex1 < MAX_ASCII ∧ lowestIndex2 < MAX_ASCII ∧ lowestIndex1 ≠ lowestIndex2 ∧
      ct.getD lowestIndex1 .null ≠ .null ∧ ct.getD lowestIndex2 .null ≠ .null ∧
      (ct.getD lowestIndex1 .null).probability ≤ (ct.getD lowestIndex2 .null).probability := by
  obtain ⟨a, b, hs, hinv, -⟩ := scan_some_second ct h2 hlen
  obtain ⟨ha, hb, hab, hacta, hactb, hle, -⟩ := hinv
  exact ⟨a, b, hs, ha, hb, hab, hacta, hactb, hle⟩

/-- Witness of C28 on the initial array of `uniform_table`. -/
theorem C28_scan_result_well_defined_witness :
    (init_character_trees uniform_table).length = MAX_ASCII ∧
    2 ≤ activeCount (init_character_trees uniform_table) ∧
    ∃ lowestIndex1 lowestIndex2,
      scan (init_character_trees uniform_table) = (some lowestIndex1, some lowestIndex2) ∧
      lowestIndex1 < MAX_ASCII ∧ lowestIndex2 < MAX_ASCII ∧ lowestIndex1 ≠ lowestIndex2 ∧
      (init_character_trees uniform_table).getD lowestIndex1 .null ≠ .null ∧
      (init_character_trees uniform_table).getD lowestIndex2 .null ≠ .null ∧
      ((init_character_trees uniform_table).getD lowestIndex1 .null).probability
        ≤ ((init_character_trees uniform_table).getD lowestIndex2 .null).probability :=
  ⟨by simp [init_character_trees],
    by unfold init_character_trees; rw [activeCount_init]; decide,
    C28_scan_result_well_defined (init_character_trees uniform_table)
      (by simp [init_character_trees])
      (by unfold init_character_trees; rw [activeCount_init]; decide)⟩

/-- C29 (selection when the minimum is unique): in every state of the array with at least
two trees in which exactly one tree attains the minimum weight, the scan sets `first` and
`second`, `second` is a tree other than `first`, and no tree other than `first` weighs less
than the tree at `second`. -/
theorem C29_second_when_minimum_unique (ct : List NODE) (hlen : ct.length = MAX_ASCII)
    (h2 : 2 ≤ activeCount ct)
    (huniq : ∃! i, i < MAX_ASCII ∧ ct.getD i .null ≠ .null ∧
      ∀ k, k < MAX_ASCII → ct.getD k .null ≠ .null →
        (ct.getD i .null).probability ≤ (ct.getD k .null).probability) :
    ∃ first second, scan ct = (some first, some second) ∧ second < MAX_ASCII ∧
      second ≠ first ∧ ct.getD second .null ≠ .null ∧
      ∀ k, k < MAX_ASCII → k ≠ first → ct.getD k .null ≠ .null →
        (ct.getD second .null).probability ≤ (ct.getD k .null).probability := by
  obtain ⟨a, b, hs, hinv, hsec⟩ := scan_some_second ct h2 hlen
  obtain ⟨ha, hb, hab, hacta, hactb, hle, hmin⟩ := hinv
  obtain ⟨m, -, hm⟩ := huniq
  have hamin : a = m := hm a ⟨ha, hacta, fun k hk hk' => (hmin k hk hk').1⟩
  have hstrict : ∀ k, k < MAX_ASCII → k ≠ a → ct.getD k .null ≠ .null →
      (ct.getD a .null).probability < (ct.getD k .null).probability := by
    intro k hk hka hactk
    rcases lt_or_eq_of_le (hmin k hk hactk).1 with h | h
    · exact h
    · exfalso
      apply hka
      rw [hamin]
      refine hm k ⟨hk, hactk, fun j hj hj' => ?_⟩
      rw [← h]
      exact (hmin j hj hj').1
  refine ⟨a, b, hs, hb, Ne.symm hab, hactb, ?_⟩
  intro k hk hka hactk
  rcases hsec with ⟨heq, -, -⟩ | ⟨-, hall⟩
  · exact absurd heq (ne_of_gt (hstrict b hb (Ne.symm hab) hactb))
  · exact (hall k hk hactk (hstrict k hk hka hactk)).1

/-- Witness of C29 on the initial array of `unique_min_table`. -/
theorem C29_second_when_minimum_unique_witness :
    (init_character_trees unique_min_table).length = MAX_ASCII ∧
    2 ≤ activeCount (init_character_trees unique_min_table) ∧
    (∃! i, i < MAX_ASCII ∧ (init_character_trees unique_min_table).getD i .null ≠ .null ∧
      ∀ k, k < MAX_ASCII → (init_character_trees unique_min_table).getD k .null ≠ .null →
        ((init_character_trees unique_min_table).getD i .null).probability
          ≤ ((init_character_trees unique_min_table).getD k .null).probability) ∧
    ∃ first second,
      scan (init_character_trees unique_min_table) = (some first, some second) ∧
      second < MAX_ASCII ∧ second ≠ first ∧
      (init_character_trees unique_min_table).getD second .null ≠ .null ∧
      ∀ k, k < MAX_ASCII → k ≠ first →
        (init_character_trees unique_min_table).getD k .null ≠ .null →
        ((init_character_trees unique_min_table).getD second .null).probability
          ≤ ((init_character_trees unique_min_table).getD k .null).probability :=
  ⟨by simp [init_character_trees],
    by unfold init_character_trees; rw [activeCount_init]; decide,
    unique_min_table_unique,
    C29_second_when_minimum_unique (init_character_trees unique_min_table)
      (by simp [init_character_trees])
      (by unfold init_character_trees; rw [activeCount_init]; decide)
      unique_min_table_unique⟩

/-- C30 (code length bound): for every table of 128 entries the traversal that derives the
codes never needs more than the 128 characters of its working buffer, and every symbol
gets a code of at most 127 characters, which leaves room for the terminator. -/
theorem C30_code_length_bound (prob_table : List ℚ) (hlen : prob_table.length = MAX_ASCII) :
    ∃ root codes, generate_huffman_tree prob_table = some root ∧
      generate_huffman_table root = some codes ∧
      ∀ s, s < MAX_ASCII → ∃ code, codes.getD s none = some code ∧
        code.length ≤ 127 ∧ code.length + 1 ≤ MAX_ASCII := by
  obtain ⟨root, tbl, ht, htbl, hfull, -, -, hperm, -, -, hget⟩ := pipeline_spec prob_table hlen
  refine ⟨root, tbl, ht, htbl, ?_⟩
  intro s hs
  obtain ⟨e, he, hes⟩ := exists_path_of_perm root hperm s hs
  have h1 := path_length_le_height root e he
  have h2 := full_height_lt root hfull
  have h3 : numLeaves root = MAX_ASCII := by
    rw [numLeaves_eq_length, hperm.length_eq, List.length_range]
  rw [h3] at h2
  refine ⟨e.2, ?_, ?_, ?_⟩
  · rw [← hes]
    exact hget e he
  · unfold MAX_ASCII at h2
    omega
  · omega

/-- Witness of C30 on `uniform_table`. -/
theorem C30_code_length_bound_witness :
    uniform_table.length = MAX_ASCII ∧
    ∃ root codes, generate_huffman_tree uniform_table = some root ∧
      generate_huffman_table root = some codes ∧
      ∀ s, s < MAX_ASCII → ∃ code, codes.getD s none = some code ∧
        code.length ≤ 127 ∧ code.length + 1 ≤ MAX_ASCII :=
  ⟨by simp [uniform_table, MAX_ASCII],
    C30_code_length_bound uniform_table (by simp [uniform_table, MAX_ASCII])⟩

/-! ## Decoding in two parts -/

/-- Decoding an input in two parts: the second part is decoded from the state the first
part ends in, as long as the first part holds no byte 255. -/
theorem decode_loop_append (root : NODE) :
    ∀ (a b : List Char) (st : NODE × List Nat), (∀ c, c ∈ a → c.toNat ≠ 255) →
      decode_loop root st (a ++ b)
        = (decode_loop root st a).bind (fun st' => decode_loop root st' b) := by
  intro a
  induction a with
  | nil => intro b st _; rfl
  | cons c rest ih =>
    intro b st h
    have hc : c.toNat ≠ 255 := h c (List.mem_cons_self _ _)
    rw [List.cons_append, decode_loop, decode_loop, if_neg hc, if_neg hc]
    cases hs : decode_step root st c with
    | none => rfl
    | some st' =>
      simp only
      exact ih b st' (fun x hx => h x (List.mem_cons_of_mem _ hx))

/-! ## The cursor as a path from the root -/

theorem walk_append : ∀ (a b : List Char) (t : NODE),
    walk t (a ++ b) = (walk t a).bind (fun n => walk n b) := by
  intro a
  induction a with
  | nil => intro b t; cases t <;> rfl
  | cons c rest ih =>
    intro b t
    cases t with
    | null => rfl
    | mk ch p l r =>
      rw [List.cons_append, walk, walk]
      by_cases h0 : c = '0'
      · rw [if_pos h0, if_pos h0]
        exact ih b l
      · rw [if_neg h0, if_neg h0]
        by_cases h1 : c = '1'
        · rw [if_pos h1, if_pos h1]
          exact ih b r
        · rw [if_neg h1, if_neg h1]
          rfl

/-- The paths of the leaves below a node that is reached by `r` are, with `r` put in
front, paths of the tree. -/
theorem walk_paths : ∀ (r : List Char) (t n : NODE), walk t r = some n →
    ∀ e, e ∈ paths n → (e.1, r ++ e.2) ∈ paths t := by
  intro r
  induction r with
  | nil =>
    intro t n h e he
    cases t with
    | null =>
      simp only [walk, Option.some.injEq] at h
      rw [← h] at he
      exact he
    | mk ch p l rr =>
      simp only [walk, Option.some.injEq] at h
      rw [← h] at he
      exact he
  | cons c rest ih =>
    intro t n h e he
    cases t with
    | null => simp [walk] at h
    | mk ch p l rr =>
      rw [walk] at h
      have hnl : ¬ (l = .null ∧ rr = .null) := by
        rintro ⟨hl, hr⟩
        rw [hl, hr] at h
        have hn : n ≠ .null := by
          intro hn
          rw [hn] at he
          simp [paths] at he
        split at h
        · cases rest with
          | nil => simp only [walk, Option.some.injEq] at h; exact hn h.symm
          | cons _ _ => simp [walk] at h
        · split at h
          · cases rest with
            | nil => simp only [walk, Option.some.injEq] at h; exact hn h.symm
            | cons _ _ => simp [walk] at h
          · exact Option.noConfusion h
      unfold paths
      rw [if_neg hnl, List.mem_append, List.mem_map, List.mem_map]
      by_cases h0 : c = '0'
      · rw [if_pos h0] at h
        exact Or.inl ⟨(e.1, rest ++ e.2), ih l n h e he, by rw [h0]; rfl⟩
      · rw [if_neg h0] at h
        by_cases h1 : c = '1'
        · rw [if_pos h1] at h
          exact Or.inr ⟨(e.1, rest ++ e.2), ih rr n h e he, by rw [h1]; rfl⟩
        · rw [if_neg h1] at h
          exact Option.noConfusion h

/-- A node reached by a non-empty string of bits has fewer nodes than the tree. -/
theorem walk_subtrees_length : ∀ (r : List Char) (t n : NODE), walk t r = some n →
    (subtrees n).length ≤ (subtrees t).length ∧
      (r ≠ [] → n ≠ .null → (subtrees n).length < (subtrees t).length) := by
  intro r
  induction r with
  | nil =>
    intro t n h
    have : n = t := by
      cases t <;> simp only [walk, Option.some.injEq] at h <;> exact h.symm
    rw [this]
    exact ⟨le_refl _, fun h => absurd rfl h⟩
  | cons c rest ih =>
    intro t n h
    cases t with
    | null => simp [walk] at h
    | mk ch p l rr =>
      rw [walk] at h
      have hlen : (subtrees (NODE.mk ch p l rr)).length
          = 1 + ((subtrees l).length + (subtrees rr).length) := by
        simp [subtrees]
        omega
      by_cases h0 : c = '0'
      · rw [if_pos h0] at h
        have := (ih l n h).1
        exact ⟨by omega, fun _ _ => by omega⟩
      · rw [if_neg h0] at h
        by_cases h1 : c = '1'
        · rw [if_pos h1] at h
          have := (ih rr n h).1
          exact ⟨by omega, fun _ _ => by omega⟩
        · rw [if_neg h1] at h
          exact Option.noConfusion h

theorem concatCodes_append (tbl : List (Option (List Char))) :
    ∀ (a b : List Nat), concatCodes tbl (a ++ b) = concatCodes tbl a ++ concatCodes tbl b := by
  intro a
  induction a with
  | nil => intro b; rfl
  | cons x xs ih =>
    intro b
    rw [List.cons_append, concatCodes, concatCodes, ih, List.append_assoc]

/-- Decoding a string of bits from a cursor position that the string `r` leads to: the
loop does not fail, and the codes of the symbols written so far followed by `r` and the
bits read are the codes of the symbols written at the end followed by the string that
leads to the final cursor position. -/
theorem decode_loop_walk (root : NODE) (tbl : List (Option (List Char)))
    (hfull : Full root) (hroot : ¬ root.isLeaf)
    (htbl : ∀ e, e ∈ paths root → tbl.getD e.1 none = some e.2) :
    ∀ (b : List Char), (∀ c, c ∈ b → c = '0' ∨ c = '1') →
      ∀ (cur : NODE) (out : List Nat) (r : List Char), CursorOK root cur →
        walk root r = some cur →
        ∃ cur' out' r', decode_loop root (cur, out) b = some (cur', out') ∧
          CursorOK root cur' ∧ walk root r' = some cur' ∧
          (∃ added, out' = out ++ added ∧ ∀ s, s ∈ added → ∃ e, e ∈ paths root ∧ e.1 = s) ∧
          concatCodes tbl out ++ r ++ b = concatCodes tbl out' ++ r' := by
  have hrootOK : CursorOK root root :=
    ⟨mem_subtrees_self root (full_ne_null root hfull), hroot⟩
  intro b
  induction b with
  | nil =>
    intro _ cur out r hcur hwalk
    exact ⟨cur, out, r, rfl, hcur, hwalk, ⟨[], by simp, by simp⟩, by simp⟩
  | cons c rest ih =>
    intro hb cur out r hcur hwalk
    have hc := hb c (List.mem_cons_self _ _)
    have hrest : ∀ x, x ∈ rest → x = '0' ∨ x = '1' :=
      fun x hx => hb x (List.mem_cons_of_mem _ hx)
    have hc255 : c.toNat ≠ 255 := by
      rcases hc with h | h <;> rw [h] <;> decide
    obtain ⟨hmem, hnl⟩ := hcur
    have hfc := full_of_mem_subtrees root hfull cur hmem
    cases cur with
    | null => exact hfc.elim
    | mk ch p l rr =>
      have hnl2 : ¬ (l = .null ∧ rr = .null) := hnl
      rcases hfc with h | ⟨hfl, hfr⟩
      · exact absurd h hnl2
      · -- the child that the bit selects
        obtain ⟨next, hnext, hfnext, hmemnext, hwnext⟩ :
            ∃ next, (if c = '0' then l else if c = '1' then rr else NODE.mk ch p l rr) = next ∧
              Full next ∧ next ∈ subtrees root ∧ walk root (r ++ [c]) = some next := by
          rcases hc with h | h
          · refine ⟨l, by rw [if_pos h], hfl, ?_, ?_⟩
            · exact mem_subtrees_trans root _ l hmem
                (by
                  simp only [subtrees, List.mem_cons, List.mem_append]
                  exact Or.inr (Or.inl (mem_subtrees_self l (full_ne_null l hfl))))
            · rw [walk_append, hwalk, Option.some_bind, h]
              cases l with
              | null => exact hfl.elim
              | mk _ _ _ _ => simp [walk]
          · have h0 : c ≠ '0' := by rw [h]; decide
            refine ⟨rr, by rw [if_neg h0, if_pos h], hfr, ?_, ?_⟩
            · exact mem_subtrees_trans root _ rr hmem
                (by
                  simp only [subtrees, List.mem_cons, List.mem_append]
                  exact Or.inr (Or.inr (mem_subtrees_self rr (full_ne_null rr hfr))))
            · rw [walk_append, hwalk, Option.some_bind, h]
              cases rr with
              | null => exact hfr.elim
              | mk _ _ _ _ => simp [walk]
        cases next with
        | null => exact hfnext.elim
        | mk ch' p' l' r' =>
          by_cases hleaf : l' = .null ∧ r' = .null
          · -- a leaf: its symbol is written and the cursor returns to the root
            have hstep : decode_step root (NODE.mk ch p l rr, out) c
                = some (root, out ++ [ch']) := by
              unfold decode_step
              simp only
              rw [hnext]
              simp only
              rw [if_pos hleaf]
            have hpath : (ch', r ++ [c]) ∈ paths root := by
              have := walk_paths (r ++ [c]) root _ hwnext (ch', [])
                (by unfold paths; rw [if_pos hleaf]; exact List.mem_singleton_self _)
              simpa using this
            have hcode : codeOf tbl ch' = r ++ [c] := by
              rw [codeOf, htbl _ hpath]
              rfl
            obtain ⟨cur2, out2, r2, h1, h2, h3, ⟨added, h4, h5⟩, h6⟩ :=
              ih hrest root (out ++ [ch']) [] hrootOK (by cases root <;> rfl)
            refine ⟨cur2, out2, r2, ?_, h2, h3, ⟨ch' :: added, ?_, ?_⟩, ?_⟩
            · rw [decode_loop, if_neg hc255, hstep]
              exact h1
            · rw [h4, List.append_assoc]
              rfl
            · intro s hs
              rcases List.mem_cons.mp hs with rfl | hs
              · exact ⟨_, hpath, rfl⟩
              · exact h5 s hs
            · rw [← h6, concatCodes_append]
              show concatCodes tbl out ++ r ++ c :: rest
                = concatCodes tbl out ++ (codeOf tbl ch' ++ []) ++ [] ++ rest
              rw [hcode]
              simp
          · -- an internal node: the cursor moves there
            have hstep : decode_step root (NODE.mk ch p l rr, out) c
                = some (NODE.mk ch' p' l' r', out) := by
              unfold decode_step
              simp only
              rw [hnext]
              simp only
              rw [if_neg hleaf]
            obtain ⟨cur2, out2, r2, h1, h2, h3, h4, h6⟩ :=
              ih hrest (NODE.mk ch' p' l' r') out (r ++ [c]) ⟨hmemnext, hleaf⟩ hwnext
            refine ⟨cur2, out2, r2, ?_, h2, h3, h4, ?_⟩
            · rw [decode_loop, if_neg hc255, hstep]
              exact h1
            · rw [← h6]
              simp

/-! ## The Kraft sum -/

/-- The leaves of a full tree have Kraft sum 1. -/
theorem kraft_paths (t : NODE) :
    Full t → ((paths t).map (fun e => (1 / 2 : ℚ) ^ e.2.length)).sum = 1 := by
  induction t with
  | null => intro h; exact h.elim
  | mk c p l r ihl ihr =>
    intro hfull
    unfold paths
    by_cases hleaf : l = .null ∧ r = .null
    · rw [if_pos hleaf]
      simp
    · rw [if_neg hleaf]
      rcases hfull with h | ⟨hfl, hfr⟩
      · exact absurd h hleaf
      · have hmap : ∀ (b : Char) (ps : List (Nat × List Char)),
            ((ps.map (fun e => (e.1, b :: e.2))).map
              (fun e => (1 / 2 : ℚ) ^ e.2.length)).sum
            = (1 / 2) * (ps.map (fun e => (1 / 2 : ℚ) ^ e.2.length)).sum := by
          intro b ps
          rw [List.map_map, ← List.sum_map_mul_left]
          congr 1
          apply List.map_congr_left
          intro e _
          simp only [Function.comp, List.length_cons, pow_succ]
          ring
        rw [List.map_append, List.sum_append, hmap, hmap, ihl hfl, ihr hfr]
        norm_num

/-! ## The claims, fourth part -/

/-- C31 (non-bit characters are skipped): for every table of 128 probabilities and every
input of characters in 0..127, decoding the input gives the same result as decoding the
input with every character other than `'0'` and `'1'` removed; and wherever such a
character stands in the input, the state of the decoder (cursor and output) after it is
the state before it. -/
theorem C31_non_bit_characters_skipped (prob_table : List ℚ)
    (hlen : prob_table.length = MAX_ASCII) (x : List Char)
    (hx : ∀ c, c ∈ x → c.toNat < 128) :
    ∃ tree, generate_huffman_tree prob_table = some tree ∧
      decode tree x = decode tree (x.filter isBit) ∧
      ∀ (before after : List Char) (c : Char), x = before ++ c :: after →
        isBit c = false →
        ∃ st, decode_loop tree (tree, []) before = some st ∧
          decode_loop tree (tree, []) (before ++ [c]) = some st := by
  obtain ⟨root, tbl, ht, -, hfull, -, hroot, -⟩ := pipeline_spec prob_table hlen
  have hOK : CursorOK root root := ⟨mem_subtrees_self root (full_ne_null root hfull), hroot⟩
  have h255 : ∀ c, c ∈ x → c.toNat ≠ 255 := fun c hc => by
    have := hx c hc
    omega
  refine ⟨root, ht, ?_, ?_⟩
  · rw [decode, decode, decode_loop_filter root hfull hroot x (root, []) hOK h255]
  · intro before after c hsplit hc
    have hbefore : ∀ d, d ∈ before → d.toNat ≠ 255 := fun d hd =>
      h255 d (by rw [hsplit]; exact List.mem_append_left _ hd)
    have hc255 : c.toNat ≠ 255 :=
      h255 c (by rw [hsplit]; exact List.mem_append_right _ (List.mem_cons_self _ _))
    obtain ⟨st, hst, hcur⟩ := decode_loop_cursor root hfull hroot before (root, []) hOK
    obtain ⟨cur', out', hs, -, hskip⟩ :=
      decode_step_cursor root st.1 st.2 c hfull hroot hcur
    have hne : c ≠ '0' ∧ c ≠ '1' := by
      unfold isBit at hc
      constructor
      · intro h; rw [h] at hc; exact absurd hc (by decide)
      · intro h; rw [h] at hc; exact absurd hc (by decide)
    obtain ⟨h1, h2⟩ := hskip hne.1 hne.2
    refine ⟨st, hst, ?_⟩
    rw [decode_loop_append root before [c] (root, []) hbefore, hst, Option.some_bind,
      decode_loop, if_neg hc255]
    have hs' : decode_step root st c = some (cur', out') := hs
    rw [hs', h1, h2]
    rfl

/-- Witness of C31 on `zero_table` and the input `0x1`. -/
theorem C31_non_bit_characters_skipped_witness :
    zero_table.length = MAX_ASCII ∧ (∀ c, c ∈ ['0', 'x', '1'] → c.toNat < 128) ∧
    ∃ tree, generate_huffman_tree zero_table = some tree ∧
      decode tree ['0', 'x', '1'] = decode tree (['0', 'x', '1'].filter isBit) ∧
      ∀ (before after : List Char) (c : Char), ['0', 'x', '1'] = before ++ c :: after →
        isBit c = false →
        ∃ st, decode_loop tree (tree, []) before = some st ∧
          decode_loop tree (tree, []) (before ++ [c]) = some st :=
  ⟨by simp [zero_table, MAX_ASCII], by decide,
    C31_non_bit_characters_skipped zero_table (by simp [zero_table, MAX_ASCII])
      ['0', 'x', '1'] (by decide)⟩

/-- C32 (decode, then encode): for every table of 128 probabilities and every string `b`
of characters `'0'` and `'1'`, decoding `b` does not fail; encoding the decoded symbols
gives `b` without a final part `r`, so that `b` is that text followed by `r`; `r` leads from
the root to the final position of the cursor, it is an initial segment of the code of some
symbol without being the whole code, and it is empty exactly when the cursor ends at the
root. -/
theorem C32_decode_then_encode (prob_table : List ℚ)
    (hlen : prob_table.length = MAX_ASCII) (b : List Char)
    (hb : ∀ c, c ∈ b → c = '0' ∨ c = '1') :
    ∃ tree codes cursor out text r,
      generate_huffman_tree prob_table = some tree ∧
      generate_huffman_table tree = some codes ∧
      decode_loop tree (tree, []) b = some (cursor, out) ∧ decode tree b = some out ∧
      encode codes out = some text ∧ b = text ++ r ∧ walk tree r = some cursor ∧
      (∃ s code, s < MAX_ASCII ∧ codes.getD s none = some code ∧ r <+: code ∧ r ≠ code) ∧
      (r = [] ↔ cursor = tree) := by
  obtain ⟨root, tbl, ht, htbl, hfull, -, hroot, hperm, -, -, hget⟩ :=
    pipeline_spec prob_table hlen
  have hrootOK : CursorOK root root :=
    ⟨mem_subtrees_self root (full_ne_null root hfull), hroot⟩
  have hsym : ∀ e, e ∈ paths root → e.1 < MAX_ASCII := by
    intro e he
    have h1 : e.1 ∈ leaves root := by
      rw [← paths_symbols]
      exact List.mem_map_of_mem _ he
    exact List.mem_range.mp (hperm.mem_iff.mp h1)
  obtain ⟨cur, out, r, h1, h2, h3, ⟨added, h4, h5⟩, h6⟩ :=
    decode_loop_walk root tbl hfull hroot hget b hb root [] [] hrootOK
      (by cases root <;> rfl)
  have hout : out = added := by rw [h4]; rfl
  have henc : encode tbl out = some (concatCodes tbl out) := by
    apply encode_eq_concatCodes
    intro s hs
    rw [hout] at hs
    obtain ⟨e, he, hes⟩ := h5 s hs
    rw [← hes]
    refine ⟨hsym e he, ?_⟩
    rw [hget e he]
    exact fun h => Option.noConfusion h
  have hcurfull : Full cur := full_of_mem_subtrees root hfull cur h2.1
  obtain ⟨e, he, -⟩ := exists_path_of_height cur hcurfull
  have hene : e.2 ≠ [] := paths_ne_nil cur h2.2 e he
  have hpath := walk_paths r root cur h3 e he
  refine ⟨root, tbl, cur, out, concatCodes tbl out, r, ht, htbl, h1,
    by rw [decode, h1]; rfl, henc, ?_, h3, ?_, ?_⟩
  · have := h6
    simp only [concatCodes, List.nil_append] at this
    exact this
  · refine ⟨e.1, r ++ e.2, hsym (e.1, r ++ e.2) hpath, hget (e.1, r ++ e.2) hpath,
      ⟨e.2, rfl⟩, ?_⟩
    intro h
    apply hene
    have h' : r ++ [] = r ++ e.2 := by rw [List.append_nil]; exact h
    exact (List.append_cancel_left h').symm
  · constructor
    · intro hr
      rw [hr] at h3
      have : walk root [] = some root := by cases root <;> rfl
      rw [this] at h3
      exact (Option.some.inj h3).symm
    · intro hcur
      by_contra hr
      have hlt := (walk_subtrees_length r root cur h3).2 hr (full_ne_null cur hcurfull)
      rw [hcur] at hlt
      exact Nat.lt_irrefl _ hlt

/-- Witness of C32 on `zero_table` and the string `01`. -/
theorem C32_decode_then_encode_witness :
    zero_table.length = MAX_ASCII ∧ (∀ c, c ∈ ['0', '1'] → c = '0' ∨ c = '1') ∧
    ∃ tree codes cursor out text r,
      generate_huffman_tree zero_table = some tree ∧
      generate_huffman_table tree = some codes ∧
      decode_loop tree (tree, []) ['0', '1'] = some (cursor, out) ∧
      decode tree ['0', '1'] = some out ∧
      encode codes out = some text ∧ ['0', '1'] = text ++ r ∧ walk tree r = some cursor ∧
      (∃ s code, s < MAX_ASCII ∧ codes.getD s none = some code ∧ r <+: code ∧ r ≠ code) ∧
      (r = [] ↔ cursor = tree) :=
  ⟨by simp [zero_table, MAX_ASCII], by decide,
    C32_decode_then_encode zero_table (by simp [zero_table, MAX_ASCII]) ['0', '1']
      (by decide)⟩

/-- C33 (Kraft equality): for every table of 128 probabilities the lengths of the derived
codes satisfy `Σ 2^(-length(code[s])) = 1`, the sum taken over the symbols 0..127. -/
theorem C33_kraft_equality (prob_table : List ℚ) (hlen : prob_table.length = MAX_ASCII) :
    ∃ tree codes, generate_huffman_tree prob_table = some tree ∧
      generate_huffman_table tree = some codes ∧ kraftSum codes = 1 := by
  obtain ⟨root, tbl, ht, htbl, hfull, -, -, hperm, -, -, hget⟩ :=
    pipeline_spec prob_table hlen
  have hk : kraftSum tbl = 1 := by
    unfold kraftSum
    have h1 : (leaves root).map (fun s => (1 / 2 : ℚ) ^ (codeOf tbl s).length)
        = (paths root).map (fun e => (1 / 2 : ℚ) ^ e.2.length) := by
      rw [← paths_symbols, List.map_map]
      apply List.map_congr_left
      intro e he
      simp only [Function.comp]
      rw [codeOf, hget e he]
      rfl
    rw [← (hperm.map _).sum_eq, h1]
    exact kraft_paths root hfull
  exact ⟨root, tbl, ht, htbl, hk⟩

/-- Witness of C33 on `uniform_table`. -/
theorem C33_kraft_equality_witness :
    uniform_table.length = MAX_ASCII ∧
    ∃ tree codes, generate_huffman_tree uniform_table = some tree ∧
      generate_huffman_table tree = some codes ∧ kraftSum codes = 1 :=
  ⟨by simp [uniform_table, MAX_ASCII],
    C33_kraft_equality uniform_table (by simp [uniform_table, MAX_ASCII])⟩

end Hw3

namespace Hw1

/-! ## The game-over test -/

theorem cell_cast (board : Board) (i j : Fin 5) :
    cell board ((i : Nat) : Int) ((j : Nat) : Int) = some (board i j) := by
  unfold cell
  rw [dif_pos ⟨by omega, by omega, by omega, by omega⟩]
  simp

theorem cell_eq_some_iff (board : Board) (i j : Int) (c : Char) :
    cell board i j = some c ↔
      ∃ d : Fin 5 × Fin 5, ((d.1 : Nat) : Int) = i ∧ ((d.2 : Nat) : Int) = j ∧
        board d.1 d.2 = c := by
  constructor
  · intro h
    unfold cell at h
    by_cases hb : 0 ≤ i ∧ i < 5 ∧ 0 ≤ j ∧ j < 5
    · rw [dif_pos hb] at h
      refine ⟨(⟨i.toNat, by omega⟩, ⟨j.toNat, by omega⟩), ?_, ?_, Option.some.inj h⟩
      · simp only
        omega
      · simp only
        omega
    · rw [dif_neg hb] at h
      exact Option.noConfusion h
  · rintro ⟨d, rfl, rfl, rfl⟩
    exact cell_cast board d.1 d.2

/-- The four tests of `check_game_over` for a Musketeer on cell `m` succeed exactly when a
neighbouring cell of the board holds `'o'`. -/
theorem can_move_iff (board : Board) (m : Fin 5 × Fin 5) :
    can_move board (((m.1 : Nat) : Int), ((m.2 : Nat) : Int)) = true ↔
      ∃ d, Adjacent m d ∧ board d.1 d.2 = 'o' := by
  unfold can_move
  rw [decide_eq_true_iff]
  simp only [cell_eq_some_iff, N]
  constructor
  · rintro (⟨-, d, h1, h2, h3⟩ | ⟨-, d, h1, h2, h3⟩ | ⟨-, d, h1, h2, h3⟩ | ⟨-, d, h1, h2, h3⟩)
    · exact ⟨d, Or.inl ⟨Fin.ext (by omega), Or.inl (by omega)⟩, h3⟩
    · exact ⟨d, Or.inl ⟨Fin.ext (by omega), Or.inr (by omega)⟩, h3⟩
    · exact ⟨d, Or.inr ⟨Fin.ext (by omega), Or.inl (by omega)⟩, h3⟩
    · exact ⟨d, Or.inr ⟨Fin.ext (by omega), Or.inr (by omega)⟩, h3⟩
  · rintro ⟨d, (⟨h1, h2 | h2⟩ | ⟨h1, h2 | h2⟩), h3⟩
    · have := d.1.isLt
      exact Or.inl ⟨by omega, d, by omega, by rw [h1], h3⟩
    · exact Or.inr (Or.inl ⟨by omega, d, by omega, by rw [h1], h3⟩)
    · have := d.2.isLt
      exact Or.inr (Or.inr (Or.inl ⟨by omega, d, by rw [h1], by omega, h3⟩))
    · exact Or.inr (Or.inr (Or.inr ⟨by omega, d, by rw [h1], by omega, h3⟩))

/-- With exactly three Musketeers on the board the search loops fill the three entries of
`musketeers` with their cells. -/
theorem find_musketeers_three (board : Board) (h3 : (musketeers board).card = 3) :
    ∃ a b c : Fin 5 × Fin 5,
      (∀ x, x ∈ musketeers board ↔ x = a ∨ x = b ∨ x = c) ∧
      find_musketeers board
        = [(((a.1 : Nat) : Int), ((a.2 : Nat) : Int)), (((b.1 : Nat) : Int), ((b.2 : Nat) : Int)),
            (((c.1 : Nat) : Int), ((c.2 : Nat) : Int))] := by
  have hnd : ((List.product (List.finRange 5) (List.finRange 5)).filter
      (fun c => board c.1 c.2 = 'M')).Nodup :=
    ((List.nodup_finRange 5).product (List.nodup_finRange 5)).filter _
  have hmem : ∀ x, x ∈ (List.product (List.finRange 5) (List.finRange 5)).filter
      (fun c => board c.1 c.2 = 'M') ↔ x ∈ musketeers board := by
    intro x
    have hx : x ∈ List.product (List.finRange 5) (List.finRange 5) :=
      List.mem_product.mpr ⟨List.mem_finRange _, List.mem_finRange _⟩
    simp [musketeers, List.mem_filter, hx]
  have hlen : ((List.product (List.finRange 5) (List.finRange 5)).filter
      (fun c => board c.1 c.2 = 'M')).length = 3 := by
    rw [← List.toFinset_card_of_nodup hnd, ← h3]
    congr 1
    ext x
    rw [List.mem_toFinset]
    exact hmem x
  unfold find_musketeers
  generalize (List.product (List.finRange 5) (List.finRange 5)).filter
      (fun c => board c.1 c.2 = 'M') = L at hmem hlen
  match L, hlen with
  | [a, b, c], _ =>
    refine ⟨a, b, c, ?_, rfl⟩
    intro x
    rw [← hmem x]
    simp

/-! ## The claims on the game -/

/-- C25 (game-over test): on every board with exactly three `'M'`, `check_game_over`
returns a state; it is `ENEMY_WON` exactly when the three Musketeers share one row or share
one column; it is `PLAYING` exactly when they do not and some Musketeer has an `'o'` on an
orthogonally adjacent cell of the board; it is `MUSKETEERS_WON` exactly when neither is the
case. -/
theorem C25_game_over_test (board : Board) (h3 : (musketeers board).card = 3) :
    ∃ state, check_game_over board = some state ∧
      (state = .ENEMY_WON ↔ ShareRow board ∨ ShareColumn board) ∧
      (state = .PLAYING ↔
        ¬ (ShareRow board ∨ ShareColumn board) ∧ MusketeerCanMove board) ∧
      (state = .MUSKETEERS_WON ↔
        ¬ (ShareRow board ∨ ShareColumn board) ∧ ¬ MusketeerCanMove board) := by
  obtain ⟨a, b, c, hm, hf⟩ := find_musketeers_three board h3
  have hrow : ShareRow board ↔
      (((b.1 : Nat) : Int) = ((a.1 : Nat) : Int) ∧ ((c.1 : Nat) : Int) = ((a.1 : Nat) : Int)) := by
    constructor
    · rintro ⟨r, hr⟩
      have ha := hr a ((hm a).mpr (Or.inl rfl))
      have hb := hr b ((hm b).mpr (Or.inr (Or.inl rfl)))
      have hc := hr c ((hm c).mpr (Or.inr (Or.inr rfl)))
      rw [ha, hb, hc]
      exact ⟨rfl, rfl⟩
    · rintro ⟨h1, h2⟩
      refine ⟨a.1, fun x hx => ?_⟩
      rcases (hm x).mp hx with rfl | rfl | rfl
      · rfl
      · exact Fin.ext (by omega)
      · exact Fin.ext (by omega)
  have hcol : ShareColumn board ↔
      (((b.2 : Nat) : Int) = ((a.2 : Nat) : Int) ∧ ((c.2 : Nat) : Int) = ((a.2 : Nat) : Int)) := by
    constructor
    · rintro ⟨r, hr⟩
      have ha := hr a ((hm a).mpr (Or.inl rfl))
      have hb := hr b ((hm b).mpr (Or.inr (Or.inl rfl)))
      have hc := hr c ((hm c).mpr (Or.inr (Or.inr rfl)))
      rw [ha, hb, hc]
      exact ⟨rfl, rfl⟩
    · rintro ⟨h1, h2⟩
      refine ⟨a.2, fun x hx => ?_⟩
      rcases (hm x).mp hx with rfl | rfl | rfl
      · rfl
      · exact Fin.ext (by omega)
      · exact Fin.ext (by omega)
  have hmove : MusketeerCanMove board ↔
      (can_move board (((a.1 : Nat) : Int), ((a.2 : Nat) : Int)) = true ∨
        can_move board (((b.1 : Nat) : Int), ((b.2 : Nat) : Int)) = true ∨
        can_move board (((c.1 : Nat) : Int), ((c.2 : Nat) : Int)) = true) := by
    rw [can_move_iff, can_move_iff, can_move_iff]
    constructor
    · rintro ⟨x, hx, hd⟩
      rcases (hm x).mp hx with rfl | rfl | rfl
      · exact Or.inl hd
      · exact Or.inr (Or.inl hd)
      · exact Or.inr (Or.inr hd)
    · rintro (hd | hd | hd)
      · exact ⟨a, (hm a).mpr (Or.inl rfl), hd⟩
      · exact ⟨b, (hm b).mpr (Or.inr (Or.inl rfl)), hd⟩
      · exact ⟨c, (hm c).mpr (Or.inr (Or.inr rfl)), hd⟩
  unfold check_game_over
  rw [hf]
  simp only
  by_cases h1 : ((b.1 : Nat) : Int) = ((a.1 : Nat) : Int) ∧
      ((c.1 : Nat) : Int) = ((a.1 : Nat) : Int)
  · rw [if_pos h1]
    have h1' := hrow.mpr h1
    exact ⟨_, rfl, by simp [h1'], by simp [h1'], by simp [h1']⟩
  · rw [if_neg h1]
    have h1' : ¬ ShareRow board := fun h => h1 (hrow.mp h)
    by_cases h2 : ((b.2 : Nat) : Int) = ((a.2 : Nat) : Int) ∧
        ((c.2 : Nat) : Int) = ((a.2 : Nat) : Int)
    · rw [if_pos h2]
      have h2' := hcol.mpr h2
      exact ⟨_, rfl, by simp [h2'], by simp [h2'], by simp [h2']⟩
    · rw [if_neg h2]
      have h2' : ¬ ShareColumn board := fun h => h2 (hcol.mp h)
      by_cases h4 : can_move board (((a.1 : Nat) : Int), ((a.2 : Nat) : Int)) = true ∨
          can_move board (((b.1 : Nat) : Int), ((b.2 : Nat) : Int)) = true ∨
          can_move board (((c.1 : Nat) : Int), ((c.2 : Nat) : Int)) = true
      · rw [if_pos h4]
        have h4' := hmove.mpr h4
        exact ⟨_, rfl, by simp [h1', h2'], by simp [h1', h2', h4'], by simp [h4']⟩
      · rw [if_neg h4]
        have h4' : ¬ MusketeerCanMove board := fun h => h4 (hmove.mp h)
        exact ⟨_, rfl, by simp [h1', h2'], by simp [h4'], by simp [h1', h2', h4']⟩

/-- Witness of C25 on `corner_board`. -/
theorem C25_game_over_test_witness :
    (musketeers corner_board).card = 3 ∧
    ∃ state, check_game_over corner_board = some state ∧
      (state = .ENEMY_WON ↔ ShareRow corner_board ∨ ShareColumn corner_board) ∧
      (state = .PLAYING ↔
        ¬ (ShareRow corner_board ∨ ShareColumn corner_board) ∧
          MusketeerCanMove corner_board) ∧
      (state = .MUSKETEERS_WON ↔
        ¬ (ShareRow corner_board ∨ ShareColumn corner_board) ∧
          ¬ MusketeerCanMove corner_board) :=
  ⟨by decide, C25_game_over_test corner_board (by decide)⟩

/-- C26 (bound check): for every row letter in `A..E` or `a..e`, column digit in `1..5` and
direction letter `L`, `R`, `U`, `D` in either case, `check_valid_bound_move` returns true
exactly when the cell one step in that direction lies inside the board; whenever it returns
true, the cell that `check_legal_musketeer_move` and `check_legal_enemy_move` read is an
element of the board, and both functions have a result. -/
theorem C26_bound_check (row column direction : Char) (board : Board)
    (hrow : row ∈ ['A', 'B', 'C', 'D', 'E', 'a', 'b', 'c', 'd', 'e'])
    (hcol : column ∈ ['1', '2', '3', '4', '5'])
    (hdir : direction ∈ ['L', 'l', 'R', 'r', 'U', 'u', 'D', 'd']) :
    (check_valid_bound_move row column direction board = true ↔
      (0 ≤ (new_indices (row_index row) (col_index column) direction).1 ∧
        (new_indices (row_index row) (col_index column) direction).1 < N ∧
        0 ≤ (new_indices (row_index row) (col_index column) direction).2 ∧
        (new_indices (row_index row) (col_index column) direction).2 < N)) ∧
    (check_valid_bound_move row column direction board = true →
      (cell board (new_indices (row_index row) (col_index column) direction).1
        (new_indices (row_index row) (col_index column) direction).2).isSome = true ∧
      (check_legal_musketeer_move (row_index row) (col_index column) direction
        board).isSome = true ∧
      (check_legal_enemy_move (row_index row) (col_index column) direction
        board).isSome = true) := by
  have hiff : check_valid_bound_move row column direction board = true ↔
      (0 ≤ (new_indices (row_index row) (col_index column) direction).1 ∧
        (new_indices (row_index row) (col_index column) direction).1 < N ∧
        0 ≤ (new_indices (row_index row) (col_index column) direction).2 ∧
        (new_indices (row_index row) (col_index column) direction).2 < N) := by
    have h0 : check_valid_bound_move row column direction board
        = check_valid_bound_move row column direction (fun _ _ => '.') := rfl
    rw [h0]
    simp only [List.mem_cons, List.mem_singleton, List.mem_nil_iff, or_false] at hrow hcol hdir
    rcases hrow with rfl | rfl | rfl | rfl | rfl | rfl | rfl | rfl | rfl | rfl <;>
    rcases hcol with rfl | rfl | rfl | rfl | rfl <;>
    rcases hdir with rfl | rfl | rfl | rfl | rfl | rfl | rfl | rfl <;>
    decide
  have hidx : 0 ≤ row_index row ∧ row_index row < 5 ∧ 0 ≤ col_index column ∧
      col_index column < 5 := by
    simp only [List.mem_cons, List.mem_singleton, List.mem_nil_iff, or_false] at hrow hcol
    rcases hrow with rfl | rfl | rfl | rfl | rfl | rfl | rfl | rfl | rfl | rfl <;>
    rcases hcol with rfl | rfl | rfl | rfl | rfl <;>
    decide
  refine ⟨hiff, fun h => ?_⟩
  have hb := hiff.mp h
  unfold N at hb
  obtain ⟨c, hc⟩ : ∃ c, cell board (new_indices (row_index row) (col_index column) direction).1
      (new_indices (row_index row) (col_index column) direction).2 = some c := by
    unfold cell
    rw [dif_pos hb]
    exact ⟨_, rfl⟩
  obtain ⟨p, hp⟩ : ∃ p, cell board (row_index row) (col_index column) = some p := by
    unfold cell
    rw [dif_pos hidx]
    exact ⟨_, rfl⟩
  have hplay : (play_move (row_index row) (col_index column)
      (new_indices (row_index row) (col_index column) direction).1
      (new_indices (row_index row) (col_index column) direction).2 board).isSome = true := by
    unfold play_move
    rw [hp]
    simp only
    unfold set_cell
    rw [dif_pos hb]
    simp only
    rw [dif_pos hidx]
    rfl
  refine ⟨by rw [hc]; rfl, ?_, ?_⟩
  · unfold check_legal_musketeer_move
    rw [hc]
    simp only
    split
    · rfl
    · rw [Option.isSome_map']
      exact hplay
  · unfold check_legal_enemy_move
    rw [hc]
    simp only
    split
    · rfl
    · rw [Option.isSome_map']
      exact hplay

/-- Witness of C26 on the move `A,5=D` of the rules text, on `corner_board`. -/
theorem C26_bound_check_witness :
    'A' ∈ ['A', 'B', 'C', 'D', 'E', 'a', 'b', 'c', 'd', 'e'] ∧
    '5' ∈ ['1', '2', '3', '4', '5'] ∧
    'D' ∈ ['L', 'l', 'R', 'r', 'U', 'u', 'D', 'd'] ∧
    (check_valid_bound_move 'A' '5' 'D' corner_board = true ↔
      (0 ≤ (new_indices (row_index 'A') (col_index '5') 'D').1 ∧
        (new_indices (row_index 'A') (col_index '5') 'D').1 < N ∧
        0 ≤ (new_indices (row_index 'A') (col_index '5') 'D').2 ∧
        (new_indices (row_index 'A') (col_index '5') 'D').2 < N)) ∧
    (check_valid_bound_move 'A' '5' 'D' corner_board = true →
      (cell corner_board (new_indices (row_index 'A') (col_index '5') 'D').1
        (new_indices (row_index 'A') (col_index '5') 'D').2).isSome = true ∧
      (check_legal_musketeer_move (row_index 'A') (col_index '5') 'D'
        corner_board).isSome = true ∧
      (check_legal_enemy_move (row_index 'A') (col_index '5') 'D'
        corner_board).isSome = true) :=
  ⟨by decide, by decide, by decide,
    C26_bound_check 'A' '5' 'D' corner_board (by decide) (by decide) (by decide)⟩

/-! ## Moves -/

theorem set_cell_cast (board : Board) (p : Fin 5 × Fin 5) (c : Char) :
    set_cell board ((p.1 : Nat) : Int) ((p.2 : Nat) : Int) c = some (with_cell board p c) := by
  unfold set_cell
  rw [dif_pos ⟨by omega, by omega, by omega, by omega⟩]
  congr 1
  funext i j
  unfold with_cell
  simp only [Int.toNat_ofNat, Fin.eta]
  by_cases hi : i = p.1
  · subst hi
    rw [Function.update_same]
    by_cases hj : j = p.2
    · subst hj
      rw [Function.update_same, if_pos rfl]
    · rw [Function.update_noteq hj, if_neg (fun h => hj (congrArg Prod.snd h))]
  · rw [Function.update_noteq hi, if_neg (fun h => hi (congrArg Prod.fst h))]

/-- The function `play_move` between two cells of the board. -/
theorem play_move_cast (board : Board) (src dst : Fin 5 × Fin 5) :
    play_move ((src.1 : Nat) : Int) ((src.2 : Nat) : Int) ((dst.1 : Nat) : Int)
        ((dst.2 : Nat) : Int) board
      = some (with_cell (with_cell board dst (board src.1 src.2)) src '.') := by
  unfold play_move
  rw [cell_cast]
  simp only
  rw [set_cell_cast]
  simp only
  rw [set_cell_cast]

/-- Writing one cell changes the count of a character by what leaves and what enters the
cell. -/
theorem count_pieces_with_cell (board : Board) (p : Fin 5 × Fin 5) (a c : Char) :
    count_pieces (with_cell board p a) c + (if board p.1 p.2 = c then 1 else 0)
      = count_pieces board c + (if a = c then 1 else 0) := by
  unfold count_pieces
  rw [Finset.card_filter, Finset.card_filter,
    ← Finset.add_sum_erase Finset.univ _ (Finset.mem_univ p),
    ← Finset.add_sum_erase Finset.univ (fun x => if board x.1 x.2 = c then 1 else 0)
      (Finset.mem_univ p)]
  have hrest : ∑ x ∈ Finset.univ.erase p, (if with_cell board p a x.1 x.2 = c then 1 else 0)
      = ∑ x ∈ Finset.univ.erase p, (if board x.1 x.2 = c then 1 else 0) := by
    apply Finset.sum_congr rfl
    intro x hx
    have hxp : x ≠ p := (Finset.mem_erase.mp hx).1
    unfold with_cell
    rw [if_neg hxp]
  have hp : with_cell board p a p.1 p.2 = a := by
    unfold with_cell
    rw [if_pos rfl]
  rw [hrest, hp]
  omega

/-- The board after a piece has moved from `src` to another cell `dst`: `src` holds `'.'`,
`dst` holds the piece, every other cell is as before, and the count of every character
changes by what `dst` held and the `'.'` left behind. -/
theorem moved_board (board : Board) (src dst : Fin 5 × Fin 5) (hne : src ≠ dst) :
    with_cell (with_cell board dst (board src.1 src.2)) src '.' src.1 src.2 = '.' ∧
    with_cell (with_cell board dst (board src.1 src.2)) src '.' dst.1 dst.2
      = board src.1 src.2 ∧
    (∀ x : Fin 5 × Fin 5, x ≠ src → x ≠ dst →
      with_cell (with_cell board dst (board src.1 src.2)) src '.' x.1 x.2 = board x.1 x.2) ∧
    ∀ c, count_pieces (with_cell (with_cell board dst (board src.1 src.2)) src '.') c
        + (if board dst.1 dst.2 = c then 1 else 0)
      = count_pieces board c + (if '.' = c then 1 else 0) := by
  refine ⟨?_, ?_, ?_, ?_⟩
  · unfold with_cell
    rw [if_pos rfl]
  · unfold with_cell
    rw [if_neg (Ne.symm hne), if_pos rfl]
  · intro x h1 h2
    unfold with_cell
    rw [if_neg h1, if_neg h2]
  · intro c
    have h1 := count_pieces_with_cell (with_cell board dst (board src.1 src.2)) src '.' c
    have h2 := count_pieces_with_cell board dst (board src.1 src.2) c
    have h3 : with_cell board dst (board src.1 src.2) src.1 src.2 = board src.1 src.2 := by
      unfold with_cell
      rw [if_neg hne]
    rw [h3] at h1
    omega

/-- The indices computed from a row letter and a column digit name a cell of the board. -/
theorem index_cell (row column : Char)
    (hrow : row ∈ ['A', 'B', 'C', 'D', 'E', 'a', 'b', 'c', 'd', 'e'])
    (hcol : column ∈ ['1', '2', '3', '4', '5']) :
    ∃ src : Fin 5 × Fin 5, ((src.1 : Nat) : Int) = row_index row ∧
      ((src.2 : Nat) : Int) = col_index column := by
  have hidx : 0 ≤ row_index row ∧ row_index row < 5 ∧ 0 ≤ col_index column ∧
      col_index column < 5 := by
    simp only [List.mem_cons, List.mem_singleton, List.mem_nil_iff, or_false] at hrow hcol
    rcases hrow with rfl | rfl | rfl | rfl | rfl | rfl | rfl | rfl | rfl | rfl <;>
    rcases hcol with rfl | rfl | rfl | rfl | rfl <;>
    decide
  refine ⟨(⟨(row_index row).toNat, by omega⟩, ⟨(col_index column).toNat, by omega⟩), ?_, ?_⟩
  · simp only
    omega
  · simp only
    omega

/-- When `check_valid_bound_move` returns true, the indices computed by the four updates
name a cell of the board next to the cell of the piece. -/
theorem destination_cell (row column direction : Char) (board : Board)
    (src : Fin 5 × Fin 5)
    (hrow : row ∈ ['A', 'B', 'C', 'D', 'E', 'a', 'b', 'c', 'd', 'e'])
    (hcol : column ∈ ['1', '2', '3', '4', '5'])
    (hdir : direction ∈ ['L', 'l', 'R', 'r', 'U', 'u', 'D', 'd'])
    (h1 : ((src.1 : Nat) : Int) = row_index row)
    (h2 : ((src.2 : Nat) : Int) = col_index column)
    (hb : check_valid_bound_move row column direction board = true) :
    ∃ dst : Fin 5 × Fin 5,
      ((dst.1 : Nat) : Int) = (new_indices (row_index row) (col_index column) direction).1 ∧
      ((dst.2 : Nat) : Int) = (new_indices (row_index row) (col_index column) direction).2 ∧
      Adjacent src dst := by
  have h0 : check_valid_bound_move row column direction board
      = check_valid_bound_move row column direction (fun _ _ => '.') := rfl
  rw [h0] at hb
  have hgeo : 0 ≤ (new_indices (row_index row) (col_index column) direction).1 ∧
      (new_indices (row_index row) (col_index column) direction).1 < 5 ∧
      0 ≤ (new_indices (row_index row) (col_index column) direction).2 ∧
      (new_indices (row_index row) (col_index column) direction).2 < 5 ∧
      (((new_indices (row_index row) (col_index column) direction).2 = col_index column ∧
          (row_index row + 1 = (new_indices (row_index row) (col_index column) direction).1 ∨
            (new_indices (row_index row) (col_index column) direction).1 + 1
              = row_index row)) ∨
        ((new_indices (row_index row) (col_index column) direction).1 = row_index row ∧
          (col_index column + 1 = (new_indices (row_index row) (col_index column) direction).2 ∨
            (new_indices (row_index row) (col_index column) direction).2 + 1
              = col_index column))) := by
    revert hb
    simp only [List.mem_cons, List.mem_singleton, List.mem_nil_iff, or_false] at hrow hcol hdir
    rcases hrow with rfl | rfl | rfl | rfl | rfl | rfl | rfl | rfl | rfl | rfl <;>
    rcases hcol with rfl | rfl | rfl | rfl | rfl <;>
    rcases hdir with rfl | rfl | rfl | rfl | rfl | rfl | rfl | rfl <;>
    decide
  obtain ⟨g1, g2, g3, g4, g5⟩ := hgeo
  refine ⟨(⟨(new_indices (row_index row) (col_index column) direction).1.toNat, by omega⟩,
    ⟨(new_indices (row_index row) (col_index column) direction).2.toNat, by omega⟩),
    ?_, ?_, ?_⟩
  · simp only
    omega
  · simp only
    omega
  · unfold Adjacent
    simp only
    rcases g5 with ⟨e1, e2⟩ | ⟨e1, e2⟩
    · left
      refine ⟨Fin.ext ?_, ?_⟩
      · simp only
        omega
      · omega
    · right
      refine ⟨Fin.ext ?_, ?_⟩
      · simp only
        omega
      · omega

theorem adjacent_ne (a b : Fin 5 × Fin 5) (h : Adjacent a b) : a ≠ b := by
  intro e
  rw [e] at h
  unfold Adjacent at h
  omega

/-- The function `check_valid_musketeer_move` on a well-formed input: it has a result; a
rejected move leaves the board as it is, and an accepted move takes the `'M'` of the named
cell to a neighbouring cell that held `'o'`. -/
theorem check_valid_musketeer_move_spec (row column direction : Char) (board : Board)
    (hrow : row ∈ ['A', 'B', 'C', 'D', 'E', 'a', 'b', 'c', 'd', 'e'])
    (hcol : column ∈ ['1', '2', '3', '4', '5'])
    (hdir : direction ∈ ['L', 'l', 'R', 'r', 'U', 'u', 'D', 'd']) :
    ∃ ok board', check_valid_musketeer_move row column direction board = some (ok, board') ∧
      (ok = false → board' = board) ∧
      (ok = true → ∃ src dst : Fin 5 × Fin 5,
        ((src.1 : Nat) : Int) = row_index row ∧ ((src.2 : Nat) : Int) = col_index column ∧
        Adjacent src dst ∧ board src.1 src.2 = 'M' ∧ board dst.1 dst.2 = 'o' ∧
        board' = with_cell (with_cell board dst (board src.1 src.2)) src '.') := by
  obtain ⟨src, h1, h2⟩ := index_cell row column hrow hcol
  unfold check_valid_musketeer_move
  rw [← h1, ← h2, cell_cast]
  simp only
  by_cases hM : board src.1 src.2 ≠ 'M'
  · rw [if_pos hM]
    exact ⟨false, board, rfl, fun _ => rfl, fun h => Bool.noConfusion h⟩
  · rw [if_neg hM]
    by_cases hb : check_valid_bound_move row column direction board = false
    · rw [if_pos hb]
      exact ⟨false, board, rfl, fun _ => rfl, fun h => Bool.noConfusion h⟩
    · rw [if_neg hb]
      have hb' : check_valid_bound_move row column direction board = true := by
        cases h : check_valid_bound_move row column direction board
        · exact absurd h hb
        · rfl
      obtain ⟨dst, d1, d2, hadj⟩ :=
        destination_cell row column direction board src hrow hcol hdir h1 h2 hb'
      unfold check_legal_musketeer_move
      rw [h1, h2, ← d1, ← d2, cell_cast]
      simp only
      by_cases ho : board dst.1 dst.2 ≠ 'o'
      · rw [if_pos ho]
        exact ⟨false, board, rfl, fun _ => rfl, fun h => Bool.noConfusion h⟩
      · rw [if_neg ho, ← h1, ← h2, play_move_cast]
        refine ⟨true, _, rfl, fun h => Bool.noConfusion h, fun _ => ?_⟩
        exact ⟨src, dst, rfl, rfl, hadj, not_not.mp hM, not_not.mp ho, rfl⟩

/-- The function `check_valid_enemy_move` on a well-formed input: it has a result; a
rejected move leaves the board as it is, and an accepted move takes the `'o'` of the named
cell to a neighbouring cell that held `'.'`. -/
theorem check_valid_enemy_move_spec (row column direction : Char) (board : Board)
    (hrow : row ∈ ['A', 'B', 'C', 'D', 'E', 'a', 'b', 'c', 'd', 'e'])
    (hcol : column ∈ ['1', '2', '3', '4', '5'])
    (hdir : direction ∈ ['L', 'l', 'R', 'r', 'U', 'u', 'D', 'd']) :
    ∃ ok board', check_valid_enemy_move row column direction board = some (ok, board') ∧
      (ok = false → board' = board) ∧
      (ok = true → ∃ src dst : Fin 5 × Fin 5,
        ((src.1 : Nat) : Int) = row_index row ∧ ((src.2 : Nat) : Int) = col_index column ∧
        Adjacent src dst ∧ board src.1 src.2 = 'o' ∧ board dst.1 dst.2 = '.' ∧
        board' = with_cell (with_cell board dst (board src.1 src.2)) src '.') := by
  obtain ⟨src, h1, h2⟩ := index_cell row column hrow hcol
  unfold check_valid_enemy_move
  rw [← h1, ← h2, cell_cast]
  simp only
  by_cases hM : board src.1 src.2 ≠ 'o'
  · rw [if_pos hM]
    exact ⟨false, board, rfl, fun _ => rfl, fun h => Bool.noConfusion h⟩
  · rw [if_neg hM]
    by_cases hb : check_valid_bound_move row column direction board = false
    · rw [if_pos hb]
      exact ⟨false, board, rfl, fun _ => rfl, fun h => Bool.noConfusion h⟩
    · rw [if_neg hb]
      have hb' : check_valid_bound_move row column direction board = true := by
        cases h : check_valid_bound_move row column direction board
        · exact absurd h hb
        · rfl
      obtain ⟨dst, d1, d2, hadj⟩ :=
        destination_cell row column direction board src hrow hcol hdir h1 h2 hb'
      unfold check_legal_enemy_move
      rw [h1, h2, ← d1, ← d2, cell_cast]
      simp only
      by_cases ho : board dst.1 dst.2 ≠ '.'
      · rw [if_pos ho]
        exact ⟨false, board, rfl, fun _ => rfl, fun h => Bool.noConfusion h⟩
      · rw [if_neg ho, ← h1, ← h2, play_move_cast]
        refine ⟨true, _, rfl, fun h => Bool.noConfusion h, fun _ => ?_⟩
        exact ⟨src, dst, rfl, rfl, hadj, not_not.mp hM, not_not.mp ho, rfl⟩

/-- What one call of `check_valid_musketeer_move` does to the pieces. -/
theorem musketeer_move_counts (row column direction : Char) (board : Board)
    (hrow : row ∈ ['A', 'B', 'C', 'D', 'E', 'a', 'b', 'c', 'd', 'e'])
    (hcol : column ∈ ['1', '2', '3', '4', '5'])
    (hdir : direction ∈ ['L', 'l', 'R', 'r', 'U', 'u', 'D', 'd']) :
    ∃ ok board', check_valid_musketeer_move row column direction board = some (ok, board') ∧
      (ok = false → board' = board) ∧
      (ok = true →
        count_pieces board' 'M' = count_pieces board 'M' ∧
        count_pieces board' 'o' + 1 = count_pieces board 'o' ∧
        ∃ src dst : Fin 5 × Fin 5, Adjacent src dst ∧
          board src.1 src.2 = 'M' ∧ board dst.1 dst.2 = 'o' ∧
          board' src.1 src.2 = '.' ∧ board' dst.1 dst.2 = 'M' ∧
          ∀ x : Fin 5 × Fin 5, x ≠ src → x ≠ dst → board' x.1 x.2 = board x.1 x.2) := by
  obtain ⟨ok, board', h, hrej, hacc⟩ :=
    check_valid_musketeer_move_spec row column direction board hrow hcol hdir
  refine ⟨ok, board', h, hrej, fun hok => ?_⟩
  obtain ⟨src, dst, -, -, hadj, hsrc, hdst, rfl⟩ := hacc hok
  obtain ⟨m1, m2, m3, m4⟩ := moved_board board src dst (adjacent_ne src dst hadj)
  refine ⟨?_, ?_, src, dst, hadj, hsrc, hdst, m1, by rw [m2, hsrc], m3⟩
  · have := m4 'M'
    rw [hdst, if_neg (by decide), if_neg (by decide)] at this
    exact this
  · have := m4 'o'
    rw [hdst, if_pos rfl, if_neg (by decide)] at this
    exact this

/-- What one call of `check_valid_enemy_move` does to the pieces. -/
theorem enemy_move_counts (row column direction : Char) (board : Board)
    (hrow : row ∈ ['A', 'B', 'C', 'D', 'E', 'a', 'b', 'c', 'd', 'e'])
    (hcol : column ∈ ['1', '2', '3', '4', '5'])
    (hdir : direction ∈ ['L', 'l', 'R', 'r', 'U', 'u', 'D', 'd']) :
    ∃ ok board', check_valid_enemy_move row column direction board = some (ok, board') ∧
      (ok = false → board' = board) ∧
      (ok = true →
        (∀ c, count_pieces board' c = count_pieces board c) ∧
        ∃ src dst : Fin 5 × Fin 5, Adjacent src dst ∧
          board src.1 src.2 = 'o' ∧ board dst.1 dst.2 = '.' ∧
          board' src.1 src.2 = '.' ∧ board' dst.1 dst.2 = 'o' ∧
          ∀ x : Fin 5 × Fin 5, x ≠ src → x ≠ dst → board' x.1 x.2 = board x.1 x.2) := by
  obtain ⟨ok, board', h, hrej, hacc⟩ :=
    check_valid_enemy_move_spec row column direction board hrow hcol hdir
  refine ⟨ok, board', h, hrej, fun hok => ?_⟩
  obtain ⟨src, dst, -, -, hadj, hsrc, hdst, rfl⟩ := hacc hok
  obtain ⟨m1, m2, m3, m4⟩ := moved_board board src dst (adjacent_ne src dst hadj)
  refine ⟨?_, src, dst, hadj, hsrc, hdst, m1, by rw [m2, hsrc], m3⟩
  intro c
  have := m4 c
  rw [hdst] at this
  omega

/-- Every sequence of well-formed attempted moves runs to its end and keeps the number of
Musketeers. -/
theorem play_attempts_count : ∀ (attempts : List (Bool × Char × Char × Char))
    (board : Board), (∀ a, a ∈ attempts → WellFormed a) →
    ∃ final, play_attempts attempts board = some final ∧
      count_pieces final 'M' = count_pieces board 'M' := by
  intro attempts
  induction attempts with
  | nil => intro board _; exact ⟨board, rfl, rfl⟩
  | cons a rest ih =>
    intro board hwf
    obtain ⟨musketeer, row, column, direction⟩ := a
    obtain ⟨hrow, hcol, hdir⟩ := hwf _ (List.mem_cons_self _ _)
    have hrest : ∀ x, x ∈ rest → WellFormed x := fun x hx => hwf x (List.mem_cons_of_mem _ hx)
    unfold play_attempts
    cases musketeer with
    | true =>
      obtain ⟨ok, board', h, hrej, hacc⟩ :=
        musketeer_move_counts row column direction board hrow hcol hdir
      rw [if_pos rfl, h]
      simp only
      obtain ⟨final, hf, hc⟩ := ih board' hrest
      refine ⟨final, hf, ?_⟩
      rw [hc]
      cases ok with
      | false => rw [hrej rfl]
      | true => exact (hacc rfl).1
    | false =>
      obtain ⟨ok, board', h, hrej, hacc⟩ :=
        enemy_move_counts row column direction board hrow hcol hdir
      rw [if_neg (by decide), h]
      simp only
      obtain ⟨final, hf, hc⟩ := ih board' hrest
      refine ⟨final, hf, ?_⟩
      rw [hc]
      cases ok with
      | false => rw [hrej rfl]
      | true => exact (hacc rfl).1 'M'

/-! ## The claim on the piece counts -/

/-- C36 (piece-count invariant): on every board with exactly three `'M'` and every
well-formed input, `check_valid_musketeer_move` and `check_valid_enemy_move` have a result;
a rejected move leaves the board unchanged; an accepted Musketeer move moves one `'M'` onto
an orthogonally adjacent cell that held `'o'`, leaves `'.'` behind, changes no other cell,
keeps three `'M'` and lowers the number of `'o'` by one; an accepted enemy move moves one
`'o'` onto an adjacent cell that held `'.'`, leaves `'.'` behind, changes no other cell and
no count; and after every sequence of such calls the board still holds three `'M'`. -/
theorem C36_piece_count_invariant (board : Board) (row column direction : Char)
    (h3 : (musketeers board).card = 3)
    (hrow : row ∈ ['A', 'B', 'C', 'D', 'E', 'a', 'b', 'c', 'd', 'e'])
    (hcol : column ∈ ['1', '2', '3', '4', '5'])
    (hdir : direction ∈ ['L', 'l', 'R', 'r', 'U', 'u', 'D', 'd']) :
    (∃ ok board', check_valid_musketeer_move row column direction board = some (ok, board') ∧
      (ok = false → board' = board) ∧
      (ok = true →
        (musketeers board').card = 3 ∧
        count_pieces board' 'o' + 1 = count_pieces board 'o' ∧
        ∃ src dst : Fin 5 × Fin 5, Adjacent src dst ∧
          board src.1 src.2 = 'M' ∧ board dst.1 dst.2 = 'o' ∧
          board' src.1 src.2 = '.' ∧ board' dst.1 dst.2 = 'M' ∧
          ∀ x : Fin 5 × Fin 5, x ≠ src → x ≠ dst → board' x.1 x.2 = board x.1 x.2)) ∧
    (∃ ok board', check_valid_enemy_move row column direction board = some (ok, board') ∧
      (ok = false → board' = board) ∧
      (ok = true →
        (musketeers board').card = 3 ∧
        (∀ c, count_pieces board' c = count_pieces board c) ∧
        ∃ src dst : Fin 5 × Fin 5, Adjacent src dst ∧
          board src.1 src.2 = 'o' ∧ board dst.1 dst.2 = '.' ∧
          board' src.1 src.2 = '.' ∧ board' dst.1 dst.2 = 'o' ∧
          ∀ x : Fin 5 × Fin 5, x ≠ src → x ≠ dst → board' x.1 x.2 = board x.1 x.2)) ∧
    (∀ attempts : List (Bool × Char × Char × Char), (∀ a, a ∈ attempts → WellFormed a) →
      ∃ final, play_attempts attempts board = some final ∧ (musketeers final).card = 3) := by
  have hM : ∀ b : Board, (musketeers b).card = count_pieces b 'M' := fun _ => rfl
  refine ⟨?_, ?_, ?_⟩
  · obtain ⟨ok, board', h, hrej, hacc⟩ :=
      musketeer_move_counts row column direction board hrow hcol hdir
    refine ⟨ok, board', h, hrej, fun hok => ?_⟩
    obtain ⟨c1, c2, hmove⟩ := hacc hok
    exact ⟨by rw [hM, c1, ← hM, h3], c2, hmove⟩
  · obtain ⟨ok, board', h, hrej, hacc⟩ :=
      enemy_move_counts row column direction board hrow hcol hdir
    refine ⟨ok, board', h, hrej, fun hok => ?_⟩
    obtain ⟨c1, hmove⟩ := hacc hok
    exact ⟨by rw [hM, c1, ← hM, h3], c1, hmove⟩
  · intro attempts hwf
    obtain ⟨final, hf, hc⟩ := play_attempts_count attempts board hwf
    exact ⟨final, hf, by rw [hM, hc, ← hM, h3]⟩

/-- Witness of C36 on `corner_board` and the move `A,5=D` of the rules text. -/
theorem C36_piece_count_invariant_witness :
    (musketeers corner_board).card = 3 ∧
    'A' ∈ ['A', 'B', 'C', 'D', 'E', 'a', 'b', 'c', 'd', 'e'] ∧
    '5' ∈ ['1', '2', '3', '4', '5'] ∧
    'D' ∈ ['L', 'l', 'R', 'r', 'U', 'u', 'D', 'd'] ∧
    (∃ ok board', check_valid_musketeer_move 'A' '5' 'D' corner_board = some (ok, board') ∧
      (ok = false → board' = corner_board) ∧
      (ok = true →
        (musketeers board').card = 3 ∧
        count_pieces board' 'o' + 1 = count_pieces corner_board 'o' ∧
        ∃ src dst : Fin 5 × Fin 5, Adjacent src dst ∧
          corner_board src.1 src.2 = 'M' ∧ corner_board dst.1 dst.2 = 'o' ∧
          board' src.1 src.2 = '.' ∧ board' dst.1 dst.2 = 'M' ∧
          ∀ x : Fin 5 × Fin 5, x ≠ src → x ≠ dst →
            board' x.1 x.2 = corner_board x.1 x.2)) ∧
    (∃ ok board', check_valid_enemy_move 'A' '5' 'D' corner_board = some (ok, board') ∧
      (ok = false → board' = corner_board) ∧
      (ok = true →
        (musketeers board').card = 3 ∧
        (∀ c, count_pieces board' c = count_pieces corner_board c) ∧
        ∃ src dst : Fin 5 × Fin 5, Adjacent src dst ∧
          corner_board src.1 src.2 = 'o' ∧ corner_board dst.1 dst.2 = '.' ∧
          board' src.1 src.2 = '.' ∧ board' dst.1 dst.2 = 'o' ∧
          ∀ x : Fin 5 × Fin 5, x ≠ src → x ≠ dst →
            board' x.1 x.2 = corner_board x.1 x.2)) ∧
    (∀ attempts : List (Bool × Char × Char × Char), (∀ a, a ∈ attempts → WellFormed a) →
      ∃ final, play_attempts attempts corner_board = some final ∧
        (musketeers final).card = 3) :=
  ⟨by decide, by decide, by decide, by decide,
    C36_piece_count_invariant corner_board 'A' '5' 'D' (by decide) (by decide) (by decide)
      (by decide)⟩

end Hw1

namespace Hw2

/-! ## Loops in closed form -/

theorem foldl_fst {α σ τ : Type} (f : σ × τ → α → σ × τ) (g : σ → α → σ)
    (h : ∀ st x, (f st x).1 = g st.1 x) :
    ∀ (l : List α) (st : σ × τ), (l.foldl f st).1 = l.foldl g st.1 := by
  intro l
  induction l with
  | nil => intro st; rfl
  | cons x rest ih =>
    intro st
    rw [List.foldl_cons, List.foldl_cons, ih, h]

/-- The run with its record ends with the table of `init_transitive_closure`. -/
theorem init_transitive_closure_run_fst (neighbor_table : List (List Int)) (N : Nat) :
    (init_transitive_closure_run neighbor_table N).1
      = init_transitive_closure neighbor_table N := by
  unfold init_transitive_closure_run init_transitive_closure
  apply foldl_fst
  intro st i
  apply foldl_fst
  intro st j
  by_cases h1 : i = j
  · rw [if_pos h1, if_pos h1]
  · rw [if_neg h1, if_neg h1]
    by_cases h2 : entry neighbor_table i j = 1
    · rw [if_pos h2, if_pos h2]
    · rw [if_neg h2, if_neg h2]

/-- The last table of the record of a run is the table the run ends with. -/
theorem init_transitive_closure_points_getLast (neighbor_table : List (List Int))
    (N : Nat) :
    (init_transitive_closure_points neighbor_table N).getLast?
      = some (init_transitive_closure neighbor_table N) := by
  rw [← init_transitive_closure_run_fst]
  unfold init_transitive_closure_points init_transitive_closure_run
  have inner : ∀ (i : Nat) (l : List Nat) (st : List PATH × List (List PATH)),
      st.2.getLast? = some st.1 →
      (l.foldl
        (fun st j =>
          if i = j then st
          else if entry neighbor_table i j = 1 then
            (st.1 ++ [insert_city (insert_city { size := 0, head := [] } i) j],
              st.2 ++ [st.1 ++ [{ size := 0, head := [] }],
                st.1 ++ [insert_city { size := 0, head := [] } i],
                st.1 ++ [insert_city (insert_city { size := 0, head := [] } i) j]])
          else st) st).2.getLast?
        = some (l.foldl
        (fun st j =>
          if i = j then st
          else if entry neighbor_table i j = 1 then
            (st.1 ++ [insert_city (insert_city { size := 0, head := [] } i) j],
              st.2 ++ [st.1 ++ [{ size := 0, head := [] }],
                st.1 ++ [insert_city { size := 0, head := [] } i],
                st.1 ++ [insert_city (insert_city { size := 0, head := [] } i) j]])
          else st) st).1 := by
    intro i l
    induction l with
    | nil => intro st h; exact h
    | cons j rest ih =>
      intro st h
      rw [List.foldl_cons]
      apply ih
      by_cases h1 : i = j
      · rw [if_pos h1]; exact h
      · rw [if_neg h1]
        by_cases h2 : entry neighbor_table i j = 1
        · rw [if_pos h2]
          simp
        · rw [if_neg h2]; exact h
  have outer : ∀ (l : List Nat) (st : List PATH × List (List PATH)),
      st.2.getLast? = some st.1 →
      (l.foldl
        (fun st i =>
          (List.range N).foldl
            (fun st j =>
              if i = j then st
              else if entry neighbor_table i j = 1 then
                (st.1 ++ [insert_city (insert_city { size := 0, head := [] } i) j],
                  st.2 ++ [st.1 ++ [{ size := 0, head := [] }],
                    st.1 ++ [insert_city { size := 0, head := [] } i],
                    st.1 ++ [insert_city (insert_city { size := 0, head := [] } i) j]])
              else st) st) st).2.getLast?
        = some (l.foldl
        (fun st i =>
          (List.range N).foldl
            (fun st j =>
              if i = j then st
              else if entry neighbor_table i j = 1 then
                (st.1 ++ [insert_city (insert_city { size := 0, head := [] } i) j],
                  st.2 ++ [st.1 ++ [{ size := 0, head := [] }],
                    st.1 ++ [insert_city { size := 0, head := [] } i],
                    st.1 ++ [insert_city (insert_city { size := 0, head := [] } i) j]])
              else st) st) st).1 := by
    intro l
    induction l with
    | nil => intro st h; exact h
    | cons i rest ih =>
      intro st h
      rw [List.foldl_cons]
      exact ih _ (inner i (List.range N) st h)
  exact outer (List.range N) ([], [[]]) rfl

/-! ## The claims on the stored paths -/

end Hw2
